import Mathlib

/-!
Caption extraction (`ExtractCaptions.cpp`): a shallow embedding and its properties.

The development follows the source file top to bottom:

* the layout tree handed in by the caller (pages, flows, blocks, lines, words),
* the two regular expressions of `constructCandidate` and a small backtracking
  matcher that returns the sub-matches the way `std::match_results` does,
* `std::stoi`, `romanToInt`, `constructCandidate`, `collectCandidates`,
* the ten `CandidateFilter`s, `applyFilter`, `anyDuplicates`,
* the resolution loop and the result builder of `extractCaptionsFromText`.

The notions used to state the properties follow the embedding: surface forms of a
literal pattern, the number pattern in words, the word positions of a document and
the grouping of candidates by id.

C++ `int` is modelled by `Int`, and the results of the `int` arithmetic of the
source (the loop index and the total of `romanToInt`, the product of `getId`) are
wrapped around at 32 bits (`wrap32`); `std::stoi` is the only place where the
source checks the 32-bit range, and it is modelled with that check.  Exceptions
are values of `Exn` carried by `Except`.  Texts are lists of characters, read up
to their first NUL character where the source passes `c_str()` (`cstr`); the two
patterns only accept ASCII characters and `regex_match` has to match the whole
C string, so the bytes of the source and the characters of the model agree on
every text that matches.
-/

namespace ExtractCaptions

/-! ## The layout tree -/

/-- Modelled from the spec: the `TextWord` class of the layout library is not part of the
source file.  A word exposes its text and the two style flags answered by `wordIsBold` and
`wordIsItalic`; its successor link `getNext()` is the tail of the list it lives in. -/
structure TextWord where
  text : String
  bold : Bool
  italic : Bool
deriving DecidableEq, Repr

/-- A `const TextWord *`: the word pointed at followed by the chain of its `getNext()`
successors; the empty list is `NULL`. -/
abbrev WordPtr := List TextWord

/-- Modelled from the spec: `TextLine`, seen through `getWords()` (the first word). -/
abbrev TextLine := WordPtr

/-- Modelled from the spec: `TextBlock`, seen through `getLines()` and `getNext()`. -/
abbrev TextBlock := List TextLine

/-- Modelled from the spec: `TextFlow`, seen through `getBlocks()` and `getNext()`. -/
abbrev TextFlow := List TextBlock

/-- Modelled from the spec: `TextPage`, seen through `getFlows()` and `getNext()`. -/
abbrev TextPage := List TextFlow

/-- The style query `wordIsBold(word)`. -/
def wordIsBold (word : WordPtr) : Bool :=
  match word with
  | [] => false
  | w :: _ => w.bold

/-- The style query `wordIsItalic(word)`. -/
def wordIsItalic (word : WordPtr) : Bool :=
  match word with
  | [] => false
  | w :: _ => w.italic

/-- Modelled from the spec: the `FigureType` enumeration of the header. -/
inductive FigureType where
  | FIGURE
  | TABLE
deriving DecidableEq, Repr

/-- The two exceptions the standard library calls of the source can throw. -/
inductive Exn where
  | invalid_argument
  | out_of_range
deriving DecidableEq, Repr

/-! ## Regular expressions -/

/-- The fragment of ECMAScript regular expressions used by the two patterns of
`constructCandidate`.  `group n r` is the n-th parenthesis, `clsPlus` is a bracket
expression under `+`, `bol` and `eol` are the two anchors. -/
inductive Regex where
  | chars : List Char → Regex
  | cls : List (Char × Char) → Regex
  | clsPlus : List (Char × Char) → Regex
  | seq : Regex → Regex → Regex
  | alt : Regex → Regex → Regex
  | opt : Regex → Regex
  | group : Nat → Regex → Regex
  | bol : Regex
  | eol : Regex
deriving Repr

/-- Sub-matches recorded so far, most recent first. -/
abbrev Caps := List (Nat × List Char)

/-- Membership of a character in a bracket expression given as inclusive ranges. -/
def inClass (rs : List (Char × Char)) (c : Char) : Bool :=
  rs.any (fun r => decide (r.1.toNat ≤ c.toNat) && decide (c.toNat ≤ r.2.toNat))

/-- Literal text: the remainder after the literal, when the input starts with it. -/
def stripChars : List Char → List Char → Option (List Char)
  | [], s => some s
  | _ :: _, [] => none
  | c :: cs, x :: xs => if x = c then stripChars cs xs else none

/-- Remainders after one or more characters of the class, longest match first. -/
def runClsPlus (rs : List (Char × Char)) : List Char → List (List Char)
  | [] => []
  | c :: cs => if inClass rs c then runClsPlus rs cs ++ [cs] else []

/-- Backtracking matcher: all ways of matching `r` at the front of `s`, in the order a
backtracking engine tries them (left alternative first, greedy quantifiers), each with the
remaining input and the sub-matches.  `inp` is the whole subject string. -/
def Regex.run (inp : List Char) : Regex → List Char → Caps → List (List Char × Caps)
  | .chars cs, s, caps =>
    match stripChars cs s with
    | some s' => [(s', caps)]
    | none => []
  | .cls rs, s, caps =>
    match s with
    | [] => []
    | c :: s' => if inClass rs c then [(s', caps)] else []
  | .clsPlus rs, s, caps => (runClsPlus rs s).map (fun s' => (s', caps))
  | .seq a b, s, caps => (Regex.run inp a s caps).flatMap (fun m => Regex.run inp b m.1 m.2)
  | .alt a b, s, caps => Regex.run inp a s caps ++ Regex.run inp b s caps
  | .opt a, s, caps => Regex.run inp a s caps ++ [(s, caps)]
  | .group n a, s, caps =>
    (Regex.run inp a s caps).map (fun m => (m.1, (n, s.take (s.length - m.1.length)) :: m.2))
  | .bol, s, caps => if s.length = inp.length then [(s, caps)] else []
  | .eol, s, caps => if s.isEmpty then [(s, caps)] else []

/-- The number of marked sub-expressions, `std::regex::mark_count()`. -/
def Regex.markCount : Regex → Nat
  | .chars _ => 0
  | .cls _ => 0
  | .clsPlus _ => 0
  | .seq a b => a.markCount + b.markCount
  | .alt a b => a.markCount + b.markCount
  | .opt a => a.markCount
  | .group _ a => a.markCount + 1
  | .bol => 0
  | .eol => 0

/-- A non-empty `std::match_results`: the subject, the recorded sub-matches and `size()`. -/
structure MatchResults where
  whole : List Char
  caps : Caps
  size : Nat
deriving DecidableEq, Repr

/-- The call `std::regex_match(text, m, r)`: the whole of `text` has to match; `none` is the
result `false`, which leaves `m.empty()`. -/
def regexMatch (r : Regex) (text : List Char) : Option MatchResults :=
  match (Regex.run text r text []).find? (fun m => m.1.isEmpty) with
  | some m => some ⟨text, m.2, r.markCount + 1⟩
  | none => none

/-- The string `m[n].str()`: the whole match for `n = 0`, the n-th sub-match when it took part
in the match, and the empty string both for a group that did not take part and for an index
`n >= m.size()`. -/
def MatchResults.sub (m : MatchResults) (n : Nat) : List Char :=
  if n = 0 then m.whole
  else if n < m.size then (m.caps.lookup n).getD []
  else []

/-- The pattern `Figure|FIGURE|FIG\.?|Fig\.?` shared by several languages, with the two full
words as parameters. -/
def figureForms (a b : String) : Regex :=
  .alt (.chars a.toList) (.alt (.chars b.toList)
    (.alt (.seq (.chars "FIG".toList) (.opt (.chars ".".toList)))
      (.seq (.chars "Fig".toList) (.opt (.chars ".".toList)))))

/-- The pattern `A|B` of two literal words. -/
def tableForms (a b : String) : Regex :=
  .alt (.chars a.toList) (.chars b.toList)

/-- The German figure pattern `Abbildung|ABBILDUNG|Figur|FIGUR|FIG\.?|Fig\.?|ABB\.?|Abb\.?`. -/
def germanFigureForms : Regex :=
  .alt (.chars "Abbildung".toList) (.alt (.chars "ABBILDUNG".toList)
    (.alt (.chars "Figur".toList) (.alt (.chars "FIGUR".toList)
      (.alt (.seq (.chars "FIG".toList) (.opt (.chars ".".toList)))
        (.alt (.seq (.chars "Fig".toList) (.opt (.chars ".".toList)))
          (.alt (.seq (.chars "ABB".toList) (.opt (.chars ".".toList)))
            (.seq (.chars "Abb".toList) (.opt (.chars ".".toList)))))))))

/-- The `translations` map: language code to the `Figure` and the `Table` pattern. -/
def translations : List (String × (Regex × Regex)) :=
  [ ("fr", (figureForms "Figure" "FIGURE", tableForms "Tableau" "TABLEAU")),
    ("es", (figureForms "Figura" "FIGURA", tableForms "Tabla" "TABLA")),
    ("it", (figureForms "Figura" "FIGURA", tableForms "Tabella" "TABELLA")),
    ("de", (germanFigureForms, tableForms "Tabelle" "TABELLE")),
    ("pt", (figureForms "Figura" "FIGURA", tableForms "Tabela" "TABELA")),
    ("nl", (figureForms "Figuur" "FIGUUR", tableForms "Tabel" "TABEL")),
    ("da", (figureForms "Figur" "FIGUR", tableForms "Tabel" "TABEL")),
    ("sv", (figureForms "Figur" "FIGUR", tableForms "Tabell" "TABELL")),
    ("no", (figureForms "Figur" "FIGUR", tableForms "Tabell" "TABELL")) ]

/-- The string concatenation `"^(" + term + ")$"`. -/
def captionCue (term : Regex) : Regex :=
  .seq .bol (.seq (.group 1 term) .eol)

/-- The pattern `^([1-9][.\-]|[A-H][.\-]?)?([0-9IVX]+)(:|\.)?$`. -/
def numberRegex : Regex :=
  .seq .bol
    (.seq (.opt (.group 1
        (.alt (.seq (.cls [('1', '9')]) (.cls [('.', '.'), ('-', '-')]))
          (.seq (.cls [('A', 'H')]) (.opt (.cls [('.', '.'), ('-', '-')]))))))
      (.seq (.group 2 (.clsPlus [('0', '9'), ('I', 'I'), ('V', 'V'), ('X', 'X')]))
        (.seq (.opt (.group 3 (.alt (.chars ":".toList) (.chars ".".toList)))) .eol)))

/-! ## Number parsing -/

/-- The class `isspace` of the C locale: the space and the five control characters from
`\t` (9) to `\r` (13). -/
def isSpace (c : Char) : Bool :=
  decide (c.toNat = 32) || (decide (9 ≤ c.toNat) && decide (c.toNat ≤ 13))

/-- The class `isdigit`: the ten characters from `0` (48) to `9` (57). -/
def isDigit (c : Char) : Bool :=
  decide (48 ≤ c.toNat) && decide (c.toNat ≤ 57)

/-- The largest value of a 32-bit `int`. -/
def INT_MAX : Int := 2147483647

/-- The smallest value of a 32-bit `int`. -/
def INT_MIN : Int := -2147483648

/-- The value a 32-bit `int` holds after an arithmetic operation whose exact result is `x`:
two's complement wrap-around. -/
def wrap32 (x : Int) : Int :=
  (x + 2147483648) % 4294967296 - 2147483648

/-- The value of a run of decimal digits. -/
def digitsValue (ds : List Char) : Int :=
  ds.foldl (fun acc c => 10 * acc + ((c.toNat : Int) - 48)) 0

/-- The call `std::stoi(s)`: leading white space is skipped, an optional sign is read, then the
longest run of decimal digits; no digit at all throws `invalid_argument`, a value outside the
range of `int` throws `out_of_range`. -/
def stoi (s : List Char) : Except Exn Int :=
  let s1 := s.dropWhile isSpace
  let signed : Bool × List Char :=
    match s1 with
    | [] => (false, [])
    | c :: r => if c = '-' then (true, r) else if c = '+' then (false, r) else (false, c :: r)
  let digits := signed.2.takeWhile isDigit
  if digits.isEmpty then .error .invalid_argument
  else
    let v := if signed.1 then - digitsValue digits else digitsValue digits
    if v < INT_MIN || INT_MAX < v then .error .out_of_range else .ok v

/-- The lookup `roman[c]` in the map of `romanToInt`: a character that is absent from the map
is inserted with the value 0. -/
def romanValue (c : Char) : Int :=
  if c = 'I' then 1 else if c = 'V' then 5 else if c = 'X' then 10 else 0

/-- The loop of `romanToInt`, over the characters still to visit (right to left), with the
variables `total` and `prevValue`. -/
def romanLoop : List Char → Int → Int → Int
  | [], total, _ => total
  | c :: cs, total, prevValue =>
    let value := romanValue c
    romanLoop cs (wrap32 (if value < prevValue then total - value else total + value)) value

/-- The function `romanToInt`.  The index `i` is a 32-bit `int` set to `s.length() - 1`, and
the loop visits the characters at `i`, `i - 1`, ..., `0`; `total -= value` and
`total += value` act on a 32-bit `int`. -/
def romanToInt (s : List Char) : Int :=
  romanLoop (s.take (wrap32 ((s.length : Int) - 1) + 1).toNat).reverse 0 0

/-- The C string `s.c_str()` as `std::regex_match` reads it: the characters before the first
NUL character. -/
def cstr (s : List Char) : List Char :=
  s.takeWhile (fun c => decide (c.toNat ≠ 0))

/-- The call `s.at(i)` of `std::string`, which throws `out_of_range` past the end. -/
def strAt (s : List Char) (i : Nat) : Except Exn Char :=
  match s.get? i with
  | some c => .ok c
  | none => .error .out_of_range

/-! ## Candidates -/

/-- The type `FigureId`. -/
abbrev FigureId := Int

/-- The class `CaptionCandidate`. -/
structure CaptionCandidate where
  word : WordPtr
  lineStart : Bool
  blockStart : Bool
  type : FigureType
  number : Int
  page : Int
  periodMatch : Bool
  colonMatch : Bool
  caps : Bool
  abbreviated : Bool
deriving DecidableEq, Repr

/-- The default constructor `CaptionCandidate()`: the invalid sentinel. -/
def CaptionCandidate.invalid : CaptionCandidate :=
  ⟨[], false, false, .FIGURE, -1, -1, false, false, false, false⟩

/-- The method `getId`; the product is a 32-bit `int`. -/
def CaptionCandidate.getId (cc : CaptionCandidate) : FigureId :=
  wrap32 (cc.number * (if cc.type = .FIGURE then 1 else -1))

/-- The integer part of the caption number: `std::stoi`, with `romanToInt` in the handler of
`invalid_argument`; any other exception is not caught. -/
def parseNumber (captionIntStr : List Char) : Except Exn Int :=
  match stoi captionIntStr with
  | .ok n => .ok n
  | .error .invalid_argument => .ok (romanToInt captionIntStr)
  | .error e => .error e

/-- The function `constructCandidate`.  It is only called on a word that exists; on `NULL`
the model answers with the sentinel.  Both texts are handed to `std::regex_match` through
`c_str()`, so they are read up to their first NUL character. -/
def constructCandidate (word : WordPtr) (page : Int) (lineStart blockStart tablesOnly : Bool)
    (lang : String) : Except Exn CaptionCandidate :=
  match word with
  | [] => .ok CaptionCandidate.invalid
  | _ :: [] => .ok CaptionCandidate.invalid
  | w :: nw :: _ =>
    let terms : Regex × Regex :=
      match translations.lookup lang with
      | some t => t
      | none => (figureForms "Figure" "FIGURE", tableForms "Table" "TABLE")
    let cue := if tablesOnly then captionCue terms.2 else captionCue terms.1
    match regexMatch cue (cstr w.text.toList) with
    | none => .ok CaptionCandidate.invalid
    | some wordMatch =>
      match regexMatch numberRegex (cstr nw.text.toList) with
      | none => .ok CaptionCandidate.invalid
      | some numberMatch =>
        let captionNumStr := numberMatch.sub 0
        let captionIntStr := numberMatch.sub 2
        match parseNumber captionIntStr with
        | .error e => .error e
        | .ok number =>
          match strAt captionNumStr (captionNumStr.length - 1) with
          | .error e => .error e
          | .ok last =>
            let colonMatch := decide (last = ':')
            let periodMatch := !colonMatch && decide (last = '.')
            match strAt (wordMatch.sub 0) 0 with
            | .error e => .error e
            | .ok first =>
              let type := if first = 'T' then FigureType.TABLE else FigureType.FIGURE
              .ok ⟨word, lineStart, blockStart, type, number, page, periodMatch, colonMatch,
                decide ((wordMatch.sub 2).length > 0), decide ((wordMatch.sub 3).length > 0)⟩

/-- The type `CandidateCollection`: an unordered map from ids to candidate vectors, given by
one enumeration of its entries (the order in which `for (auto &ccs : collection)` visits
them). -/
abbrev CandidateCollection := List (FigureId × List CaptionCandidate)

/-- The three statements `find`, `collection[id] = new vector` and `push_back` of
`collectCandidates`: the candidate goes to the end of the vector stored under `id`, which is
created when the map has no such key. -/
def pushCandidate (collection : CandidateCollection) (id : FigureId) (cc : CaptionCandidate) :
    CandidateCollection :=
  match collection with
  | [] => [(id, [cc])]
  | (k, ccs) :: rest =>
    if k = id then (k, ccs ++ [cc]) :: rest else (k, ccs) :: pushCandidate rest id cc

/-- The innermost loop of `collectCandidates`, over the words of one line. -/
def collectWords (page : Int) (blockStart tablesOnly : Bool) (lang : String) :
    WordPtr → Bool → CandidateCollection → Except Exn CandidateCollection
  | [], _, collection => .ok collection
  | w :: next, lineStart, collection =>
    match constructCandidate (w :: next) page lineStart blockStart tablesOnly lang with
    | .error e => .error e
    | .ok cc =>
      collectWords page blockStart tablesOnly lang next false
        (if cc.word ≠ [] then pushCandidate collection cc.getId cc else collection)

/-- The loop of `collectCandidates` over the lines of one block. -/
def collectLines (page : Int) (tablesOnly : Bool) (lang : String) :
    List TextLine → Bool → CandidateCollection → Except Exn CandidateCollection
  | [], _, collection => .ok collection
  | line :: next, blockStart, collection =>
    match collectWords page blockStart tablesOnly lang line true collection with
    | .error e => .error e
    | .ok collection' => collectLines page tablesOnly lang next false collection'

/-- The loop of `collectCandidates` over the blocks of one flow. -/
def collectBlocks (page : Int) (tablesOnly : Bool) (lang : String) :
    List TextBlock → CandidateCollection → Except Exn CandidateCollection
  | [], collection => .ok collection
  | block :: next, collection =>
    match collectLines page tablesOnly lang block true collection with
    | .error e => .error e
    | .ok collection' => collectBlocks page tablesOnly lang next collection'

/-- The loop of `collectCandidates` over the flows of one page. -/
def collectFlows (page : Int) (tablesOnly : Bool) (lang : String) :
    List TextFlow → CandidateCollection → Except Exn CandidateCollection
  | [], collection => .ok collection
  | flow :: next, collection =>
    match collectBlocks page tablesOnly lang flow collection with
    | .error e => .error e
    | .ok collection' => collectFlows page tablesOnly lang next collection'

/-- The outer loop of `collectCandidates`, over `pages.at(i)` for the indices from `i` on. -/
def collectPages (tablesOnly : Bool) (lang : String) :
    List TextPage → Nat → CandidateCollection → Except Exn CandidateCollection
  | [], _, collection => .ok collection
  | page :: rest, i, collection =>
    match collectFlows (i : Int) tablesOnly lang page collection with
    | .error e => .error e
    | .ok collection' => collectPages tablesOnly lang rest (i + 1) collection'

/-- The function `collectCandidates`. -/
def collectCandidates (pages : List TextPage) (tablesOnly : Bool) (lang : String) :
    Except Exn CandidateCollection :=
  collectPages tablesOnly lang pages 0 []

/-! ## Filters -/

/-- The class `CandidateFilter`: a name, the `asGroup` flag and the virtual `check`. -/
structure CandidateFilter where
  name : String
  asGroup : Bool
  check : CaptionCandidate → Bool

/-- The filter `ColonOnly`. -/
def ColonOnly : CandidateFilter :=
  ⟨"Colon Only", true, fun cc => cc.colonMatch⟩

/-- The filter `PeriodOnly`. -/
def PeriodOnly : CandidateFilter :=
  ⟨"Period Only", true, fun cc => cc.periodMatch⟩

/-- The filter `AbbrevFiguresOnly`. -/
def AbbrevFiguresOnly : CandidateFilter :=
  ⟨"Only Abbreviated Figures", true, fun cc => decide (cc.type = .TABLE) || cc.abbreviated⟩

/-- The filter `AllCapsFiguresOnly`. -/
def AllCapsFiguresOnly : CandidateFilter :=
  ⟨"Only All Caps Figures", true, fun cc => decide (cc.type = .TABLE) || cc.caps⟩

/-- The filter `BlockStartOnly`. -/
def BlockStartOnly : CandidateFilter :=
  ⟨"Block Start Only", false, fun cc => cc.blockStart⟩

/-- The filter `LineStartOnly`. -/
def LineStartOnly : CandidateFilter :=
  ⟨"Line Start Only", false, fun cc => cc.lineStart⟩

/-- The filter `BoldOnly`. -/
def BoldOnly : CandidateFilter :=
  ⟨"Bold Only", true, fun cc => wordIsBold cc.word⟩

/-- The filter `ItalicOnly`. -/
def ItalicOnly : CandidateFilter :=
  ⟨"Italic Only", true, fun cc => wordIsItalic cc.word⟩

/-- The filter `NextWordOnly`: `cc.word->getNext()->getNext() != NULL`. -/
def NextWordOnly : CandidateFilter :=
  ⟨"Next Word Only", false, fun cc => !cc.word.tail.tail.isEmpty⟩

/-- The filter `NoNextWord`: `cc.word->getNext()->getNext() == NULL`. -/
def NoNextWord : CandidateFilter :=
  ⟨"No Next Word", true, fun cc => cc.word.tail.tail.isEmpty⟩

/-- The vector `filters` of `extractCaptionsFromText`, `f1` to `f10`. -/
def filters : List CandidateFilter :=
  [ColonOnly, PeriodOnly, BoldOnly, ItalicOnly, AllCapsFiguresOnly, AbbrevFiguresOnly,
    NoNextWord, BlockStartOnly, LineStartOnly, NextWordOnly]

/-! ## Applying a filter -/

/-- The variable `filterCount` after the inner counting loop of `applyFilter`. -/
def filterCount (filter : CandidateFilter) (ccs : List CaptionCandidate) : Nat :=
  ccs.foldl (fun n cc => if filter.check cc then n + 1 else n) 0

/-- The first loop of `applyFilter` over the groups still to visit, with the variable
`removedAnything`; `none` is the early `return false`. -/
def scanGroups (filter : CandidateFilter) :
    List (FigureId × List CaptionCandidate) → Bool → Option Bool
  | [], removedAnything => some removedAnything
  | ccs :: rest, removedAnything =>
    if filterCount filter ccs.2 = 0 && filter.asGroup then none
    else if decide (filterCount filter ccs.2 < ccs.2.length) && decide (filterCount filter ccs.2 ≥ 1)
    then scanGroups filter rest true
    else scanGroups filter rest removedAnything

/-- The erase loop of `applyFilter` on one vector, which is `kept ++ rest` with the index `i`
standing at the first element of `rest`: that element is erased when the vector has more than
one element and the check fails (the index stays), and is stepped over otherwise. -/
def eraseLoop (filter : CandidateFilter) :
    List CaptionCandidate → List CaptionCandidate → List CaptionCandidate
  | kept, [] => kept
  | kept, cc :: rest =>
    if decide (kept.length + (cc :: rest).length > 1) && !filter.check cc
    then eraseLoop filter kept rest
    else eraseLoop filter (kept ++ [cc]) rest

/-- The function `applyFilter`: its return value and the collection it leaves. -/
def applyFilter (filter : CandidateFilter) (collection : CandidateCollection) :
    Bool × CandidateCollection :=
  match scanGroups filter collection false with
  | none => (false, collection)
  | some false => (false, collection)
  | some true => (true, collection.map (fun ccs => (ccs.1, eraseLoop filter [] ccs.2)))

/-- The function `anyDuplicates`. -/
def anyDuplicates (collection : CandidateCollection) : Bool :=
  collection.any (fun ccs => decide (ccs.2.length > 1))

/-! ## The resolution loop and the result builder -/

/-- The `for` loop over the filters inside the resolution loop: the name of the first filter
that `applyFilter` reports as applied and the collection it leaves, or `none` when the loop
ends with `triedAll` still true. -/
def tryFilters : List CandidateFilter → CandidateCollection → Option (String × CandidateCollection)
  | [], _ => none
  | cf :: rest, candidates =>
    if (applyFilter cf candidates).1 then some (cf.name, (applyFilter cf candidates).2)
    else tryFilters rest (applyFilter cf candidates).2

/-- The `while (anyDuplicates(candidates) and not triedAll)` loop, run for at most `fuel`
evaluations of its condition: the collection it leaves and the names of the filters applied,
in order (the lines `Applied filter ...` of the verbose trace); `none` when the fuel runs
out. -/
def resolveLoop (fs : List CandidateFilter) :
    Nat → CandidateCollection → Option (CandidateCollection × List String)
  | 0, _ => none
  | fuel + 1, candidates =>
    if anyDuplicates candidates then
      match tryFilters fs candidates with
      | some applied =>
        (resolveLoop fs fuel applied.2).map (fun r => (r.1, applied.1 :: r.2))
      | none => some (candidates, [])
    else some (candidates, [])

/-- The number `nCandidates` of the verbose trace: the sizes of all groups added up. -/
def totalCandidates (collection : CandidateCollection) : Nat :=
  (collection.map (fun ccs => ccs.2.length)).sum

/-- The resolution loop run to its end; `totalCandidates + 1` evaluations of the loop condition
always suffice (`resolveLoop_terminates`). -/
def resolve (candidates : CandidateCollection) : CandidateCollection :=
  match resolveLoop filters (totalCandidates candidates + 1) candidates with
  | some r => r.1
  | none => candidates

/-- Modelled from the spec: the `CaptionStart` record of the header, with the four values its
constructor is given. -/
structure CaptionStart where
  page : Int
  number : Int
  word : WordPtr
  type : FigureType
deriving DecidableEq, Repr

/-- The type `std::map<int, std::vector<CaptionStart>>`, as its entries in key order. -/
abbrev Output := List (Int × List CaptionStart)

/-- The statement `output[page].push_back(cs)`. -/
def outputPush (output : Output) (page : Int) (cs : CaptionStart) : Output :=
  match output with
  | [] => [(page, [cs])]
  | (k, v) :: rest =>
    if page = k then (k, v ++ [cs]) :: rest
    else if page < k then (page, [cs]) :: (k, v) :: rest
    else (k, v) :: outputPush rest page cs

/-- The lookup of a page in the output; a page without entry has no record. -/
def Output.at (output : Output) (page : Int) : List CaptionStart :=
  (output.lookup page).getD []

/-- The record `CaptionStart(cc.page, cc.number, cc.word, cc.type)`. -/
def CaptionCandidate.toCaptionStart (cc : CaptionCandidate) : CaptionStart :=
  ⟨cc.page, cc.number, cc.word, cc.type⟩

/-- The body of the final loop for one group `captionOptions`. -/
def addGroup (output : Output) (captionOptions : List CaptionCandidate) : Output :=
  if captionOptions.length ≤ 2 then
    captionOptions.foldl (fun out cc => outputPush out cc.page cc.toCaptionStart) output
  else output

/-- The final loop of `extractCaptionsFromText` over the groups of the collection. -/
def buildOutput (candidates : CandidateCollection) : Output :=
  candidates.foldl (fun out ccs => addGroup out ccs.2) []

/-- The function `extractCaptionsFromText`; `verbose` only switches the diagnostics on, which
are not part of the returned value. -/
def extractCaptionsFromText (textPages : List TextPage) (_verbose tablesOnly : Bool)
    (lang : String) : Except Exn Output :=
  match collectCandidates textPages tablesOnly lang with
  | .error e => .error e
  | .ok candidates => .ok (buildOutput (resolve candidates))

/-! ## Auxiliary notions used to state the properties -/

/-- A required-as-group filter meets a group without any satisfying candidate. -/
def blocked (f : CandidateFilter) (c : CandidateCollection) : Bool :=
  f.asGroup && c.any (fun ccs => decide ((ccs.2.filter f.check).length = 0))

/-- Some group has a number of satisfying candidates that is at least 1 and below its size. -/
def narrows (f : CandidateFilter) (c : CandidateCollection) : Bool :=
  c.any (fun ccs => decide (1 ≤ (ccs.2.filter f.check).length)
    && decide ((ccs.2.filter f.check).length < ccs.2.length))

/-- The remaining candidates of the groups of size 1 or 2, group after group in the order of
the enumeration, each group in its own order. -/
def acceptedCandidates (c : CandidateCollection) : List CaptionCandidate :=
  (c.filter (fun ccs => decide (ccs.2.length = 1 ∨ ccs.2.length = 2))).flatMap (fun ccs => ccs.2)

/-- The records a list of candidates gives for one page. -/
def recordsOfPage (ccs : List CaptionCandidate) (page : Int) : List CaptionStart :=
  (ccs.filter (fun cc => decide (cc.page = page))).map CaptionCandidate.toCaptionStart

/-- The invariant of a `std::map` with vector values that are only created by `push_back`:
keys strictly increasing, no empty vector. -/
def Output.WellFormed (output : Output) : Prop :=
  (output.map Prod.fst).Pairwise (fun a b => a < b) ∧ ∀ e ∈ output, e.2 ≠ []

/-- All records of the output, page after page. -/
def Output.records (output : Output) : List CaptionStart :=
  output.flatMap (fun e => e.2)

/-! ## Sample documents -/

/-- Scenario A: one page whose only line reads `Figure 1. Overview`, the cue word in bold. -/
def scenarioA : List TextPage :=
  [[[[[⟨"Figure", true, false⟩, ⟨"1.", false, false⟩, ⟨"Overview", false, false⟩]]]]]

/-- Scenario B: `Figure 2:` in bold at the start of a line, and a second sighting of
`Figure 2:` inside a line of another block, not in bold. -/
def scenarioB : List TextPage :=
  [[[[[⟨"Figure", true, false⟩, ⟨"2:", false, false⟩, ⟨"Results", false, false⟩]],
     [[⟨"see", false, false⟩, ⟨"Figure", false, false⟩, ⟨"2:", false, false⟩,
       ⟨"above", false, false⟩]]]]]

/-- The bold sighting of scenario B. -/
def scenarioB_bold : CaptionCandidate :=
  ⟨[⟨"Figure", true, false⟩, ⟨"2:", false, false⟩, ⟨"Results", false, false⟩],
    true, true, .FIGURE, 2, 0, false, true, false, false⟩

/-- The sighting of scenario B inside a line. -/
def scenarioB_plain : CaptionCandidate :=
  ⟨[⟨"Figure", false, false⟩, ⟨"2:", false, false⟩, ⟨"above", false, false⟩],
    false, true, .FIGURE, 2, 0, false, true, false, false⟩

/-- Scenario C: three blocks on one page, each the single line `Table 3`. -/
def scenarioC : List TextPage :=
  [[[[[⟨"Table", false, false⟩, ⟨"3", false, false⟩]],
     [[⟨"Table", false, false⟩, ⟨"3", false, false⟩]],
     [[⟨"Table", false, false⟩, ⟨"3", false, false⟩]]]]]

/-- The sighting of scenario C. -/
def scenarioC_table : CaptionCandidate :=
  ⟨[⟨"Table", false, false⟩, ⟨"3", false, false⟩],
    true, true, .TABLE, 3, 0, false, false, false, false⟩

/-- A page with the two captions `Figure 1.` and `Figure 2.`, each in a block of its own. -/
def twoFigures : List TextPage :=
  [[[[[⟨"Figure", false, false⟩, ⟨"1.", false, false⟩]],
     [[⟨"Figure", false, false⟩, ⟨"2.", false, false⟩]]]]]

/-- The candidate for `Figure 1.` of `twoFigures`. -/
def twoFigures_one : CaptionCandidate :=
  ⟨[⟨"Figure", false, false⟩, ⟨"1.", false, false⟩],
    true, true, .FIGURE, 1, 0, true, false, false, false⟩

/-- The candidate for `Figure 2.` of `twoFigures`. -/
def twoFigures_two : CaptionCandidate :=
  ⟨[⟨"Figure", false, false⟩, ⟨"2.", false, false⟩],
    true, true, .FIGURE, 2, 0, true, false, false, false⟩

/-- The units digit of a roman numeral in standard subtractive notation (the spec's words):
`I, II, III, IV, V, VI, VII, VIII, IX`, and nothing for 0. -/
def standardRomanUnits (d : Nat) : List Char :=
  match d with
  | 1 => "I".toList
  | 2 => "II".toList
  | 3 => "III".toList
  | 4 => "IV".toList
  | 5 => "V".toList
  | 6 => "VI".toList
  | 7 => "VII".toList
  | 8 => "VIII".toList
  | 9 => "IX".toList
  | _ => []

/-- The standard roman numeral of `n` over the letters I, V, X (the spec's words): one `X`
for every ten, then the units in subtractive notation.  It covers 1 to 39. -/
def standardRoman (n : Nat) : List Char :=
  List.replicate (n / 10) 'X' ++ standardRomanUnits (n % 10)

/-- A page whose only line reads `Figure 2147483648`: the number is one above `INT_MAX`. -/
def overflowPage : List TextPage :=
  [[[[[⟨"Figure", false, false⟩, ⟨"2147483648", false, false⟩]]]]]

/-- The rebuilt group of the spec's design note: the candidates that satisfy the predicate, in
their order, when there is one, and otherwise the last candidate alone. -/
def rebuildGroup (f : CandidateFilter) (g : List CaptionCandidate) : List CaptionCandidate :=
  if g.any f.check then g.filter f.check else g.getLast?.toList

/-- A sighting of `Figure 3.` inside a line, followed by the word `shows`. -/
def midLine_first : CaptionCandidate :=
  ⟨[⟨"Figure", false, false⟩, ⟨"3.", false, false⟩, ⟨"shows", false, false⟩],
    false, false, .FIGURE, 3, 1, true, false, false, false⟩

/-- A second sighting of `Figure 3.` inside a line, followed by the word `again`. -/
def midLine_second : CaptionCandidate :=
  ⟨[⟨"Figure", false, false⟩, ⟨"3.", false, false⟩, ⟨"again", false, false⟩],
    false, false, .FIGURE, 3, 2, true, false, false, false⟩

/-- Every group has at most one candidate or only candidates that satisfy the filter: the
filter cannot narrow the collection, nor any collection obtained from it by removals. -/
def settled (f : CandidateFilter) (c : CandidateCollection) : Bool :=
  c.all (fun g => decide (g.2.length ≤ 1) || g.2.all f.check)

/-- The number of filters of the list that are not settled on the collection. -/
def unsettledCount (fs : List CandidateFilter) (c : CandidateCollection) : Nat :=
  fs.countP (fun f => !settled f c)

/-- A pattern built from literal text, sequence, alternative, option and parentheses only:
every cue pattern of the translation table is of this kind. -/
def Regex.literal : Regex → Bool
  | .chars _ => true
  | .cls _ => false
  | .clsPlus _ => false
  | .seq a b => a.literal && b.literal
  | .alt a b => a.literal && b.literal
  | .opt a => a.literal
  | .group _ a => a.literal
  | .bol => false
  | .eol => false

/-- The finite set of texts a literal pattern stands for (its surface forms). -/
def Regex.words : Regex → List (List Char)
  | .chars cs => [cs]
  | .cls _ => []
  | .clsPlus _ => []
  | .seq a b => a.words.flatMap (fun u => b.words.map (fun v => u ++ v))
  | .alt a b => a.words ++ b.words
  | .opt a => a.words ++ [[]]
  | .group _ a => a.words
  | .bol => []
  | .eol => []

/-- The cue pattern `captionCue` that `constructCandidate` builds for a language code and the
`tablesOnly` flag. -/
def cueOf (lang : String) (tablesOnly : Bool) : Regex :=
  if tablesOnly then
    captionCue (match translations.lookup lang with
      | some t => t
      | none => (figureForms "Figure" "FIGURE", tableForms "Table" "TABLE")).2
  else
    captionCue (match translations.lookup lang with
      | some t => t
      | none => (figureForms "Figure" "FIGURE", tableForms "Table" "TABLE")).1

/-- The surface forms of the cue pattern of a language code. -/
def cueForms (lang : String) (tablesOnly : Bool) : List (List Char) :=
  match translations.lookup lang with
  | some t => if tablesOnly then t.2.words else t.1.words
  | none =>
    if tablesOnly then (tableForms "Table" "TABLE").words
    else (figureForms "Figure" "FIGURE").words

/-- The candidate `constructCandidate` builds once both patterns have matched and the number
is parsed: the classification follows the first character of the cue text, the two
punctuation flags follow the last character of the number text, and the two typographic
flags are false. -/
def candidateOf (word : WordPtr) (page : Int) (lineStart blockStart : Bool)
    (cueText numberText : List Char) (number : Int) : CaptionCandidate :=
  ⟨word, lineStart, blockStart,
    if cueText.head? = some 'T' then FigureType.TABLE else FigureType.FIGURE,
    number, page, decide (numberText.getLast? = some '.'),
    decide (numberText.getLast? = some ':'), false, false⟩

/-- The English surface forms of the spec: `Figure|FIGURE|FIG.?|Fig.?`, or `Table|TABLE` when
only tables are looked for. -/
def englishCueForms (tablesOnly : Bool) : List String :=
  if tablesOnly then ["Table", "TABLE"]
  else ["Figure", "FIGURE", "FIG", "FIG.", "Fig", "Fig."]

/-- The cue matcher restricted to the English forms, following the spec: a successor has to
exist, the token has to be one of the English surface forms, the successor has to match the
number pattern and its numeric core is parsed.  The text of a token is what the code reads of
it: the characters before its first NUL character (`cstr`). -/
def matchEnglish (word : WordPtr) (page : Int) (lineStart blockStart tablesOnly : Bool) :
    Except Exn CaptionCandidate :=
  match word with
  | w :: nw :: rest =>
    if cstr w.text.toList ∈ (englishCueForms tablesOnly).map String.toList then
      match regexMatch numberRegex (cstr nw.text.toList) with
      | none => .ok CaptionCandidate.invalid
      | some numberMatch =>
        match parseNumber (numberMatch.sub 2) with
        | .error e => .error e
        | .ok number =>
          .ok (candidateOf (w :: nw :: rest) page lineStart blockStart (cstr w.text.toList)
            (cstr nw.text.toList) number)
    else .ok CaptionCandidate.invalid
  | _ => .ok CaptionCandidate.invalid

/-- The optional lead of a caption number, `([1-9][.\-]|[A-H][.\-]?)?`: nothing, a letter from
A to H, or a digit from 1 to 9 or such a letter followed by `.` or `-`. -/
def isLead (lead : List Char) : Bool :=
  match lead with
  | [] => true
  | [l] => inClass [('A', 'H')] l
  | [a, sep] =>
    (inClass [('1', '9')] a || inClass [('A', 'H')] a) && inClass [('.', '.'), ('-', '-')] sep
  | _ => false

/-- The numeric core of a caption number, `[0-9IVX]+`: one or more of the characters 0-9, I,
V, X. -/
def isCore (core : List Char) : Bool :=
  !core.isEmpty && core.all (inClass [('0', '9'), ('I', 'I'), ('V', 'V'), ('X', 'X')])

/-- The optional end of a caption number, `(:|\.)?`: nothing, a colon or a period. -/
def isTrail (trail : List Char) : Bool :=
  trail = [] || trail = [':'] || trail = ['.']

/-- The number pattern in words: an optional lead, then the numeric core, then an optional
trailing `.` or `:`. -/
def NumberPattern (text : List Char) : Prop :=
  ∃ lead core trail, text = lead ++ core ++ trail
    ∧ isLead lead = true ∧ isCore core = true ∧ isTrail trail = true

/-- The German figure surface forms of the claim. -/
def germanFigureWords : List String :=
  ["Abbildung", "ABBILDUNG", "Figur", "FIGUR", "FIG", "FIG.", "Fig", "Fig.", "ABB", "ABB.",
    "Abb", "Abb."]

/-- The character of a decimal digit. -/
def digitChar (d : Nat) : Char :=
  "0123456789".toList.getD d '0'

/-- The text of a decimal numeral, given by its digits from the most significant one on,
followed by a period. -/
def numeralPeriod (ds : List Nat) : List Char :=
  ds.map digitChar ++ ['.']

/-! ## The document as a list of word positions -/

/-- A word position of the document: the indices of its page, of its flow in the page, of its
block in the flow, of its line in the block and of the word in the line, and the word pointer
found there. -/
structure WordPosition where
  page : Nat
  flow : Nat
  block : Nat
  line : Nat
  index : Nat
  word : WordPtr
deriving DecidableEq, Repr

/-- The positions of the words of a line, the first one numbered `i0`. -/
def linePositions (p f b l i0 : Nat) (words : TextLine) : List WordPosition :=
  (List.range words.length).map (fun j => ⟨p, f, b, l, i0 + j, words.drop j⟩)

/-- The positions of the words of the lines of a block, the first line numbered `l0`. -/
def blockPositions (p f b l0 : Nat) (lines : TextBlock) : List WordPosition :=
  (lines.enumFrom l0).flatMap (fun e => linePositions p f b e.1 0 e.2)

/-- The positions of the words of the blocks of a flow, the first block numbered `b0`. -/
def flowPositions (p f b0 : Nat) (blocks : TextFlow) : List WordPosition :=
  (blocks.enumFrom b0).flatMap (fun e => blockPositions p f e.1 0 e.2)

/-- The positions of the words of the flows of a page, the first flow numbered `f0`. -/
def pagePositions (p f0 : Nat) (flows : TextPage) : List WordPosition :=
  (flows.enumFrom f0).flatMap (fun e => flowPositions p e.1 0 e.2)

/-- The positions of the words of a list of pages, the first page numbered `p0`. -/
def pagesPositions (p0 : Nat) (pages : List TextPage) : List WordPosition :=
  (pages.enumFrom p0).flatMap (fun e => pagePositions e.1 0 e.2)

/-- All word positions of a document in traversal order: page, flow, block, line, word. -/
def documentPositions (pages : List TextPage) : List WordPosition :=
  pagesPositions 0 pages

/-- The call of `constructCandidate` at a word position, with the start flags the collector
passes there: `lineStart` on the first word of a line, `blockStart` on the first line of a
block. -/
def sightingAt (tablesOnly : Bool) (lang : String) (pos : WordPosition) :
    Except Exn CaptionCandidate :=
  constructCandidate pos.word (pos.page : Int) (decide (pos.index = 0)) (decide (pos.line = 0))
    tablesOnly lang

/-- The valid candidate of a word position, when `constructCandidate` succeeds there. -/
def validSighting (tablesOnly : Bool) (lang : String) (pos : WordPosition) :
    Option CaptionCandidate :=
  match sightingAt tablesOnly lang pos with
  | .ok cc => if cc.word ≠ [] then some cc else none
  | .error _ => none

/-- The valid candidates of a list of positions, in the order of the positions. -/
def sightings (tablesOnly : Bool) (lang : String) (positions : List WordPosition) :
    List CaptionCandidate :=
  positions.filterMap (validSighting tablesOnly lang)

/-- A list of candidates put into a collection one after the other, each under its id. -/
def groupCandidates (ccs : List CaptionCandidate) (col : CandidateCollection) :
    CandidateCollection :=
  ccs.foldl (fun col cc => pushCandidate col cc.getId cc) col

/-- The collector over a list of word positions: `constructCandidate` is called at each
position in order, an exception ends the run, a valid candidate is put under its id. -/
def collectPositions (tablesOnly : Bool) (lang : String) :
    List WordPosition → CandidateCollection → Except Exn CandidateCollection
  | [], col => .ok col
  | pos :: rest, col =>
    match sightingAt tablesOnly lang pos with
    | .error e => .error e
    | .ok cc =>
      collectPositions tablesOnly lang rest
        (if cc.word ≠ [] then pushCandidate col cc.getId cc else col)

/-- The candidates of a list that have the id `k`, in the order of the list. -/
def withId (k : FigureId) (ccs : List CaptionCandidate) : List CaptionCandidate :=
  ccs.filter (fun cc => decide (cc.getId = k))

/-- A collection is the grouping of a list of candidates: the keys are distinct, the group
under a key is the non-empty list of the candidates with that id in the order of the list
(no entry when there is none), and the groups together hold the candidates of the list, each
as often as the list. -/
def IsGroupingOf (col : CandidateCollection) (ccs : List CaptionCandidate) : Prop :=
  (col.map Prod.fst).Nodup
  ∧ (∀ k, col.lookup k = if withId k ccs = [] then none else some (withId k ccs))
  ∧ List.Perm (col.flatMap (fun g => g.2)) ccs

theorem filterCount_foldl (f : CandidateFilter) (ccs : List CaptionCandidate) (n : Nat) :
    ccs.foldl (fun n cc => if f.check cc then n + 1 else n) n
      = n + (ccs.filter f.check).length := by
  induction ccs generalizing n with
  | nil => simp
  | cons cc rest ih =>
    simp only [List.foldl_cons, List.filter_cons]
    rw [ih]
    by_cases h : f.check cc
    · simp [h]; omega
    · simp [h]

theorem filterCount_eq (f : CandidateFilter) (ccs : List CaptionCandidate) :
    filterCount f ccs = (ccs.filter f.check).length := by
  unfold filterCount
  rw [filterCount_foldl]; simp

theorem eraseLoop_kept (f : CandidateFilter) (rest kept : List CaptionCandidate)
    (h : kept ≠ []) : eraseLoop f kept rest = kept ++ rest.filter f.check := by
  induction rest generalizing kept with
  | nil => simp [eraseLoop]
  | cons cc rest ih =>
    have hk : 0 < kept.length := List.length_pos.mpr h
    unfold eraseLoop
    have hsz : decide (kept.length + (cc :: rest).length > 1) = true := by
      simp only [List.length_cons, decide_eq_true_eq]; omega
    rw [hsz]
    by_cases hc : f.check cc
    · simp only [hc, Bool.not_true, Bool.and_false, Bool.false_eq_true, if_false]
      rw [ih _ (by simp)]
      simp [List.filter_cons, hc]
    · simp only [hc, Bool.not_false, Bool.and_true, if_true]
      rw [ih _ h]
      simp [List.filter_cons, hc]

theorem eraseLoop_nil (f : CandidateFilter) (ccs : List CaptionCandidate) :
    eraseLoop f [] ccs =
      if ccs.filter f.check = [] then ccs.getLast?.toList else ccs.filter f.check := by
  induction ccs with
  | nil => simp [eraseLoop]
  | cons cc rest ih =>
    unfold eraseLoop
    cases rest with
    | nil =>
      by_cases hc : f.check cc
      · simp [hc, eraseLoop, List.filter_cons]
      · simp [hc, eraseLoop, List.filter_cons]
    | cons c2 rest2 =>
      by_cases hc : f.check cc
      · simp only [hc, Bool.not_true, Bool.and_false, Bool.false_eq_true, if_false]
        rw [eraseLoop_kept _ _ _ (by simp)]
        simp [List.filter_cons, hc]
      · have hsz : decide (([] : List CaptionCandidate).length
            + (cc :: c2 :: rest2).length > 1) = true := by simp
        rw [hsz]
        simp only [hc, Bool.not_false, Bool.and_true, if_true]
        rw [ih]
        simp [List.filter_cons, hc, List.getLast?_cons_cons]

theorem eraseLoop_sublist (f : CandidateFilter) (ccs : List CaptionCandidate) :
    List.Sublist (eraseLoop f [] ccs) ccs := by
  rw [eraseLoop_nil]
  split
  · cases h : ccs.getLast? with
    | none => simp
    | some x =>
      simp only [Option.toList_some, List.singleton_sublist]
      exact List.mem_of_getLast?_eq_some h
  · exact List.filter_sublist ccs

theorem eraseLoop_ne_nil (f : CandidateFilter) (ccs : List CaptionCandidate) (h : ccs ≠ []) :
    eraseLoop f [] ccs ≠ [] := by
  rw [eraseLoop_nil]
  split
  · cases hl : ccs.getLast? with
    | none => exact absurd (List.getLast?_eq_none_iff.mp hl) h
    | some x => simp
  · assumption

theorem eraseLoop_length_le (f : CandidateFilter) (ccs : List CaptionCandidate) :
    (eraseLoop f [] ccs).length ≤ ccs.length :=
  (eraseLoop_sublist f ccs).length_le

theorem eraseLoop_length_lt (f : CandidateFilter) (ccs : List CaptionCandidate)
    (h1 : 1 ≤ (ccs.filter f.check).length) (h2 : (ccs.filter f.check).length < ccs.length) :
    (eraseLoop f [] ccs).length < ccs.length := by
  rw [eraseLoop_nil]
  have : ccs.filter f.check ≠ [] := by
    intro h; rw [h] at h1; simp at h1
  simp [this, h2]

theorem blocked_cons (f : CandidateFilter) (g : FigureId × List CaptionCandidate)
    (rest : CandidateCollection) :
    blocked f (g :: rest)
      = ((f.asGroup && decide ((g.2.filter f.check).length = 0)) || blocked f rest) := by
  unfold blocked
  cases f.asGroup <;> simp

theorem narrows_cons (f : CandidateFilter) (g : FigureId × List CaptionCandidate)
    (rest : CandidateCollection) :
    narrows f (g :: rest)
      = ((decide (1 ≤ (g.2.filter f.check).length)
          && decide ((g.2.filter f.check).length < g.2.length)) || narrows f rest) := by
  simp [narrows]

theorem scanGroups_eq (f : CandidateFilter) (c : CandidateCollection) (r : Bool) :
    scanGroups f c r =
      if blocked f c then none else some (r || narrows f c) := by
  induction c generalizing r with
  | nil => simp [scanGroups, blocked, narrows]
  | cons g rest ih =>
    unfold scanGroups
    rw [filterCount_eq, blocked_cons, narrows_cons, ih, ih]
    by_cases hz : (g.2.filter f.check).length = 0
    · cases ha : f.asGroup <;> cases hb : blocked f rest <;> simp [hz]
    · have h1 : 1 ≤ (g.2.filter f.check).length := by omega
      by_cases hlt : (g.2.filter f.check).length < g.2.length
      · cases ha : f.asGroup <;> cases hb : blocked f rest <;> simp [hz, hlt, h1]
      · cases ha : f.asGroup <;> cases hb : blocked f rest <;> simp [hz, hlt, h1]

theorem applyFilter_eq (f : CandidateFilter) (c : CandidateCollection) :
    applyFilter f c =
      if !blocked f c && narrows f c then
        (true, c.map (fun ccs => (ccs.1, eraseLoop f [] ccs.2)))
      else (false, c) := by
  unfold applyFilter
  rw [scanGroups_eq]
  by_cases hb : blocked f c
  · simp [hb]
  · by_cases hn : narrows f c <;> simp [hb, hn]

/-! ### One application of a filter -/

theorem applyFilter_false (f : CandidateFilter) (c : CandidateCollection)
    (h : (applyFilter f c).1 = false) : (applyFilter f c).2 = c := by
  rw [applyFilter_eq] at h ⊢
  split
  · rename_i hc; simp [hc] at h
  · rfl

theorem applyFilter_true (f : CandidateFilter) (c : CandidateCollection)
    (h : (applyFilter f c).1 = true) :
    blocked f c = false ∧ narrows f c = true
      ∧ (applyFilter f c).2 = c.map (fun ccs => (ccs.1, eraseLoop f [] ccs.2)) := by
  rw [applyFilter_eq] at h ⊢
  split
  · rename_i hc
    simp only [Bool.and_eq_true, Bool.not_eq_true'] at hc
    exact ⟨hc.1, hc.2, rfl⟩
  · rename_i hc; simp [hc] at h

theorem totalCandidates_cons (g : FigureId × List CaptionCandidate) (c : CandidateCollection) :
    totalCandidates (g :: c) = g.2.length + totalCandidates c := by
  simp [totalCandidates]

theorem totalCandidates_erase_le (f : CandidateFilter) (c : CandidateCollection) :
    totalCandidates (c.map (fun ccs => (ccs.1, eraseLoop f [] ccs.2))) ≤ totalCandidates c := by
  induction c with
  | nil => simp
  | cons g rest ih =>
    rw [List.map_cons, totalCandidates_cons, totalCandidates_cons]
    have := eraseLoop_length_le f g.2
    simp only
    omega

theorem totalCandidates_erase_lt (f : CandidateFilter) (c : CandidateCollection)
    (h : narrows f c = true) :
    totalCandidates (c.map (fun ccs => (ccs.1, eraseLoop f [] ccs.2))) < totalCandidates c := by
  induction c with
  | nil => simp [narrows] at h
  | cons g rest ih =>
    rw [List.map_cons, totalCandidates_cons, totalCandidates_cons]
    rw [narrows_cons, Bool.or_eq_true] at h
    simp only
    rcases h with h | h
    · simp only [Bool.and_eq_true, decide_eq_true_eq] at h
      have h1 := eraseLoop_length_lt f g.2 h.1 h.2
      have h2 := totalCandidates_erase_le f rest
      omega
    · have h1 := eraseLoop_length_le f g.2
      have h2 := ih h
      omega

theorem applyFilter_true_lt (f : CandidateFilter) (c : CandidateCollection)
    (h : (applyFilter f c).1 = true) :
    totalCandidates (applyFilter f c).2 < totalCandidates c := by
  obtain ⟨_, hn, he⟩ := applyFilter_true f c h
  rw [he]
  exact totalCandidates_erase_lt f c hn

/-! ### The resolution loop -/

theorem tryFilters_some (fs : List CandidateFilter) (c : CandidateCollection)
    (a : String × CandidateCollection) (h : tryFilters fs c = some a) :
    ∃ f ∈ fs, (applyFilter f c).1 = true ∧ a = (f.name, (applyFilter f c).2) := by
  induction fs with
  | nil => simp [tryFilters] at h
  | cons f rest ih =>
    unfold tryFilters at h
    by_cases hf : (applyFilter f c).1 = true
    · simp only [hf, if_true, Option.some.injEq] at h
      exact ⟨f, by simp, hf, h.symm⟩
    · simp only [hf, Bool.false_eq_true, if_false] at h
      rw [applyFilter_false f c (by simpa using hf)] at h
      obtain ⟨g, hg, hg1, hg2⟩ := ih h
      exact ⟨g, by simp [hg], hg1, hg2⟩

theorem tryFilters_none (fs : List CandidateFilter) (c : CandidateCollection) :
    tryFilters fs c = none ↔ ∀ f ∈ fs, (applyFilter f c).1 = false := by
  induction fs with
  | nil => simp [tryFilters]
  | cons f rest ih =>
    unfold tryFilters
    by_cases hf : (applyFilter f c).1 = true
    · simp [hf]
    · have hf2 : (applyFilter f c).1 = false := by simpa using hf
      simp only [hf2, Bool.false_eq_true, if_false, List.mem_cons, forall_eq_or_imp, true_and]
      rw [applyFilter_false f c hf2]
      exact ih

theorem tryFilters_lt (fs : List CandidateFilter) (c : CandidateCollection)
    (a : String × CandidateCollection) (h : tryFilters fs c = some a) :
    totalCandidates a.2 < totalCandidates c := by
  obtain ⟨f, _, hf, rfl⟩ := tryFilters_some fs c a h
  exact applyFilter_true_lt f c hf

theorem resolveLoop_terminates (fs : List CandidateFilter) (fuel : Nat) (c : CandidateCollection)
    (h : totalCandidates c < fuel) : ∃ r, resolveLoop fs fuel c = some r := by
  induction fuel generalizing c with
  | zero => omega
  | succ n ih =>
    unfold resolveLoop
    by_cases hd : anyDuplicates c = true
    · simp only [hd, if_true]
      cases ht : tryFilters fs c with
      | none => exact ⟨_, rfl⟩
      | some a =>
        have hlt := tryFilters_lt fs c a ht
        obtain ⟨r, hr⟩ := ih a.2 (by omega)
        exact ⟨(r.1, a.1 :: r.2), by simp [hr]⟩
    · simp [hd]

theorem resolveLoop_mono (fs : List CandidateFilter) (fuel fuel2 : Nat) (c : CandidateCollection)
    (r : CandidateCollection × List String) (h : resolveLoop fs fuel c = some r)
    (hle : fuel ≤ fuel2) : resolveLoop fs fuel2 c = some r := by
  induction fuel generalizing c r fuel2 with
  | zero => simp [resolveLoop] at h
  | succ n ih =>
    obtain ⟨m, rfl⟩ : ∃ m, fuel2 = m + 1 := ⟨fuel2 - 1, by omega⟩
    unfold resolveLoop at h ⊢
    by_cases hd : anyDuplicates c = true
    · simp only [hd, if_true] at h ⊢
      cases ht : tryFilters fs c with
      | none => simpa [ht] using h
      | some a =>
        simp only [ht, Option.map_eq_some'] at h ⊢
        obtain ⟨r0, hr0, hr⟩ := h
        exact ⟨r0, ih m a.2 r0 hr0 (by omega), hr⟩
    · simpa [hd] using h

theorem resolveLoop_stable (fs : List CandidateFilter) (fuel : Nat) (c : CandidateCollection)
    (r : CandidateCollection × List String) (h : resolveLoop fs fuel c = some r) :
    anyDuplicates r.1 = false ∨ tryFilters fs r.1 = none := by
  induction fuel generalizing c r with
  | zero => simp [resolveLoop] at h
  | succ n ih =>
    unfold resolveLoop at h
    by_cases hd : anyDuplicates c = true
    · simp only [hd, if_true] at h
      cases ht : tryFilters fs c with
      | none =>
        simp only [ht, Option.some.injEq] at h
        subst h; exact Or.inr ht
      | some a =>
        simp only [ht, Option.map_eq_some'] at h
        obtain ⟨r0, hr0, rfl⟩ := h
        exact ih a.2 r0 hr0
    · simp only [hd, Bool.false_eq_true, if_false, Option.some.injEq] at h
      subst h; exact Or.inl (by simpa using hd)

theorem resolve_spec (c : CandidateCollection) :
    ∃ tr, resolveLoop filters (totalCandidates c + 1) c = some (resolve c, tr) := by
  obtain ⟨r, hr⟩ := resolveLoop_terminates filters (totalCandidates c + 1) c (by omega)
  exact ⟨r.2, by simp [resolve, hr]⟩

/-! ### The result builder -/

theorem Output.at_nil (q : Int) : Output.at [] q = [] := rfl

theorem Output.at_cons (k : Int) (v : List CaptionStart) (rest : Output) (q : Int) :
    Output.at ((k, v) :: rest) q = if q = k then v else Output.at rest q := by
  unfold Output.at
  rw [List.lookup_cons]
  by_cases h : q = k
  · simp [h]
  · have : (q == k) = false := by simpa using h
    simp [this, h]

theorem Output.at_of_lt (output : Output) (q : Int)
    (h : ∀ k ∈ output.map Prod.fst, q < k) : Output.at output q = [] := by
  induction output with
  | nil => rfl
  | cons e rest ih =>
    obtain ⟨k, v⟩ := e
    rw [Output.at_cons]
    have hk : q < k := h k (by simp)
    have hne : q ≠ k := by omega
    simp only [hne, if_false]
    exact ih (fun k2 hk2 => h k2 (by simp at hk2 ⊢; exact Or.inr hk2))

theorem outputPush_keys (output : Output) (page : Int) (cs : CaptionStart) (k : Int)
    (h : k ∈ (outputPush output page cs).map Prod.fst) :
    k = page ∨ k ∈ output.map Prod.fst := by
  induction output with
  | nil => simp [outputPush] at h; exact Or.inl h
  | cons e rest ih =>
    obtain ⟨k0, v⟩ := e
    unfold outputPush at h
    by_cases h1 : page = k0
    · simp only [h1, if_true] at h
      exact Or.inr (by simpa using h)
    · by_cases h2 : page < k0
      · simp only [h1, h2, if_true, if_false] at h
        simp only [List.map_cons, List.mem_cons] at h ⊢
        rcases h with h | h | h
        · exact Or.inl h
        · exact Or.inr (Or.inl h)
        · exact Or.inr (Or.inr h)
      · simp only [h1, h2, if_false, List.map_cons, List.mem_cons] at h ⊢
        rcases h with h | h
        · exact Or.inr (Or.inl h)
        · rcases ih h with h | h
          · exact Or.inl h
          · exact Or.inr (Or.inr h)

theorem outputPush_wellFormed (output : Output) (page : Int) (cs : CaptionStart)
    (h : output.WellFormed) : (outputPush output page cs).WellFormed := by
  induction output with
  | nil => simp [outputPush, Output.WellFormed]
  | cons e rest ih =>
    obtain ⟨k0, v⟩ := e
    have hrest : Output.WellFormed rest := by
      refine ⟨(List.pairwise_cons.mp h.1).2, fun e he => h.2 e (by simp [he])⟩
    have hlt : ∀ k ∈ rest.map Prod.fst, k0 < k := (List.pairwise_cons.mp h.1).1
    unfold outputPush
    by_cases h1 : page = k0
    · simp only [h1, if_true]
      refine ⟨h.1, ?_⟩
      intro e he
      simp only [List.mem_cons] at he
      rcases he with rfl | he
      · simp
      · exact h.2 e (by simp [he])
    · by_cases h2 : page < k0
      · simp only [h1, h2, if_true, if_false]
        refine ⟨?_, ?_⟩
        · simp only [List.map_cons, List.pairwise_cons]
          refine ⟨?_, h.1 |> List.pairwise_cons.mp⟩
          intro k hk
          simp only [List.mem_cons] at hk
          rcases hk with rfl | hk
          · exact h2
          · have := hlt k hk; omega
        · intro e he
          simp only [List.mem_cons] at he
          rcases he with rfl | he
          · simp
          · exact h.2 e (by simpa using he)
      · simp only [h1, h2, if_false]
        have ih2 := ih hrest
        refine ⟨?_, ?_⟩
        · simp only [List.map_cons, List.pairwise_cons]
          refine ⟨?_, ih2.1⟩
          intro k hk
          rcases outputPush_keys rest page cs k hk with rfl | hk
          · omega
          · exact hlt k hk
        · intro e he
          simp only [List.mem_cons] at he
          rcases he with rfl | he
          · exact h.2 _ (by simp)
          · exact ih2.2 e he

theorem outputPush_at (output : Output) (page : Int) (cs : CaptionStart) (q : Int)
    (h : output.WellFormed) :
    Output.at (outputPush output page cs) q
      = if q = page then Output.at output q ++ [cs] else Output.at output q := by
  induction output with
  | nil =>
    simp only [outputPush, Output.at_cons, Output.at_nil, List.nil_append]
  | cons e rest ih =>
    obtain ⟨k0, v⟩ := e
    have hrest : Output.WellFormed rest := by
      refine ⟨(List.pairwise_cons.mp h.1).2, fun e he => h.2 e (by simp [he])⟩
    have hlt : ∀ k ∈ rest.map Prod.fst, k0 < k := (List.pairwise_cons.mp h.1).1
    unfold outputPush
    by_cases h1 : page = k0
    · subst h1
      simp only [if_true, Output.at_cons]
      by_cases hq : q = page <;> simp [hq]
    · by_cases h2 : page < k0
      · simp only [h1, h2, if_true, if_false, Output.at_cons]
        by_cases hq : q = page
        · subst hq
          simp only [if_true, h1, if_false]
          rw [Output.at_of_lt rest q (fun k hk => by have := hlt k hk; omega)]
          rfl
        · simp [hq]
      · simp only [h1, h2, if_false, Output.at_cons]
        rw [ih hrest]
        by_cases hq : q = k0
        · subst hq
          have hqp : q ≠ page := fun h3 => h1 h3.symm
          simp [hqp]
        · simp [hq]

theorem recordsOfPage_append (a b : List CaptionCandidate) (q : Int) :
    recordsOfPage (a ++ b) q = recordsOfPage a q ++ recordsOfPage b q := by
  simp [recordsOfPage]

theorem recordsOfPage_cons (cc : CaptionCandidate) (ccs : List CaptionCandidate) (q : Int) :
    recordsOfPage (cc :: ccs) q
      = (if q = cc.page then [cc.toCaptionStart] else []) ++ recordsOfPage ccs q := by
  unfold recordsOfPage
  by_cases h : q = cc.page
  · subst h; simp
  · have h2 : ¬ cc.page = q := fun h3 => h h3.symm
    simp [List.filter_cons, h, h2]

theorem outputPush_records (output : Output) (page : Int) (cs : CaptionStart) :
    List.Perm (outputPush output page cs).records (output.records ++ [cs]) := by
  induction output with
  | nil => simp [outputPush, Output.records]
  | cons e rest ih =>
    obtain ⟨k0, v⟩ := e
    unfold outputPush
    by_cases h1 : page = k0
    · simp only [h1, if_true, Output.records, List.flatMap_cons, List.append_assoc]
      exact List.Perm.append_left v List.perm_append_comm
    · by_cases h2 : page < k0
      · simp only [h1, h2, if_true, if_false, Output.records, List.flatMap_cons]
        exact List.perm_append_comm
      · simp only [h1, h2, if_false, Output.records, List.flatMap_cons, List.append_assoc]
        exact List.Perm.append_left v ih

theorem pushAll_spec (ccs : List CaptionCandidate) (output : Output) (h : output.WellFormed) :
    (ccs.foldl (fun out cc => outputPush out cc.page cc.toCaptionStart) output).WellFormed
    ∧ (∀ q, Output.at (ccs.foldl (fun out cc => outputPush out cc.page cc.toCaptionStart) output) q
        = Output.at output q ++ recordsOfPage ccs q)
    ∧ List.Perm (ccs.foldl (fun out cc => outputPush out cc.page cc.toCaptionStart) output).records
        (output.records ++ ccs.map CaptionCandidate.toCaptionStart) := by
  induction ccs generalizing output with
  | nil => simp [h, recordsOfPage]
  | cons cc rest ih =>
    simp only [List.foldl_cons]
    obtain ⟨h1, h2, h3⟩ := ih _ (outputPush_wellFormed output cc.page cc.toCaptionStart h)
    refine ⟨h1, ?_, ?_⟩
    · intro q
      rw [h2 q, outputPush_at _ _ _ _ h, recordsOfPage_cons]
      by_cases hq : q = cc.page <;> simp [hq]
    · refine h3.trans ?_
      simp only [List.map_cons]
      have := outputPush_records output cc.page cc.toCaptionStart
      refine (List.Perm.append_right _ this).trans ?_
      simp

theorem addGroup_spec (g : List CaptionCandidate) (output : Output) (h : output.WellFormed) :
    (addGroup output g).WellFormed
    ∧ (∀ q, Output.at (addGroup output g) q
        = Output.at output q
          ++ recordsOfPage (if g.length = 1 ∨ g.length = 2 then g else []) q)
    ∧ List.Perm (addGroup output g).records
        (output.records
          ++ (if g.length = 1 ∨ g.length = 2 then g else []).map
              CaptionCandidate.toCaptionStart) := by
  unfold addGroup
  by_cases h2 : g.length ≤ 2
  · simp only [h2, if_true]
    by_cases h0 : g.length = 0
    · have hg : g = [] := List.length_eq_zero.mp h0
      subst hg
      simp [h, recordsOfPage]
    · have h12 : g.length = 1 ∨ g.length = 2 := by omega
      simp only [h12, if_true]
      exact pushAll_spec g output h
  · have h12 : ¬ (g.length = 1 ∨ g.length = 2) := by omega
    simp [h2, h12, h, recordsOfPage]

theorem acceptedCandidates_cons (g : FigureId × List CaptionCandidate) (c : CandidateCollection) :
    acceptedCandidates (g :: c)
      = (if g.2.length = 1 ∨ g.2.length = 2 then g.2 else []) ++ acceptedCandidates c := by
  unfold acceptedCandidates
  by_cases h : g.2.length = 1 ∨ g.2.length = 2
  · simp [List.filter_cons, h]
  · simp [List.filter_cons, h]

theorem foldGroups_spec (c : CandidateCollection) (output : Output) (h : output.WellFormed) :
    (c.foldl (fun out ccs => addGroup out ccs.2) output).WellFormed
    ∧ (∀ q, Output.at (c.foldl (fun out ccs => addGroup out ccs.2) output) q
        = Output.at output q ++ recordsOfPage (acceptedCandidates c) q)
    ∧ List.Perm (c.foldl (fun out ccs => addGroup out ccs.2) output).records
        (output.records ++ (acceptedCandidates c).map CaptionCandidate.toCaptionStart) := by
  induction c generalizing output with
  | nil => simp [h, acceptedCandidates, recordsOfPage]
  | cons g rest ih =>
    simp only [List.foldl_cons]
    obtain ⟨a1, a2, a3⟩ := addGroup_spec g.2 output h
    obtain ⟨h1, h2, h3⟩ := ih _ a1
    refine ⟨h1, ?_, ?_⟩
    · intro q
      rw [h2 q, a2 q, acceptedCandidates_cons, recordsOfPage_append, List.append_assoc]
    · refine h3.trans ?_
      rw [acceptedCandidates_cons, List.map_append, ← List.append_assoc]
      exact List.Perm.append_right _ a3

theorem Output.wellFormed_nil : Output.WellFormed [] := by
  simp [Output.WellFormed]

theorem Output.at_of_mem (output : Output) (h : output.WellFormed)
    (e : Int × List CaptionStart) (he : e ∈ output) : Output.at output e.1 = e.2 := by
  induction output with
  | nil => simp at he
  | cons e0 rest ih =>
    obtain ⟨k0, v⟩ := e0
    have hrest : Output.WellFormed rest := by
      refine ⟨(List.pairwise_cons.mp h.1).2, fun e he => h.2 e (by simp [he])⟩
    have hlt : ∀ k ∈ rest.map Prod.fst, k0 < k := (List.pairwise_cons.mp h.1).1
    rw [Output.at_cons]
    simp only [List.mem_cons] at he
    rcases he with rfl | he
    · simp
    · have : k0 < e.1 := hlt e.1 (List.mem_map_of_mem Prod.fst he)
      have hne : e.1 ≠ k0 := by omega
      simp only [hne, if_false]
      exact ih hrest he

theorem recordsOfPage_page (ccs : List CaptionCandidate) (q : Int) (r : CaptionStart)
    (h : r ∈ recordsOfPage ccs q) : r.page = q := by
  simp only [recordsOfPage, List.mem_map, List.mem_filter, decide_eq_true_eq] at h
  obtain ⟨cc, ⟨_, hp⟩, rfl⟩ := h
  exact hp

/-- C1. Result builder: for every collection, each page of the output holds exactly the
records of the candidates of that page taken from the groups of size 1 or 2 (in enumeration
order), the records over all pages are exactly the records of those candidates, one per
candidate with its page, number, anchor word and classification, every record sits under the
key equal to its page, and groups of size above 2 contribute nothing (when all groups are
that large the output is empty). -/
theorem C1_result_builder (c : CandidateCollection) :
    (∀ p, Output.at (buildOutput c) p = recordsOfPage (acceptedCandidates c) p)
    ∧ List.Perm (buildOutput c).records
        ((acceptedCandidates c).map
          (fun cc => (⟨cc.page, cc.number, cc.word, cc.type⟩ : CaptionStart)))
    ∧ (∀ e ∈ buildOutput c, e.2 ≠ [] ∧ ∀ r ∈ e.2, r.page = e.1)
    ∧ ((buildOutput c).map Prod.fst).Pairwise (fun a b => a < b)
    ∧ ((∀ g ∈ c, 2 < g.2.length) → buildOutput c = []) := by
  obtain ⟨h1, h2, h3⟩ := foldGroups_spec c [] Output.wellFormed_nil
  have hat : ∀ p, Output.at (buildOutput c) p = recordsOfPage (acceptedCandidates c) p := by
    intro p
    have := h2 p
    simpa [buildOutput, Output.at_nil] using this
  refine ⟨hat, ?_, ?_, h1.1, ?_⟩
  · simpa [buildOutput, Output.records] using h3
  · intro e he
    refine ⟨h1.2 e he, fun r hr => ?_⟩
    have hee := Output.at_of_mem _ h1 e he
    have : r ∈ Output.at (buildOutput c) e.1 := by
      rw [show Output.at (buildOutput c) e.1 = e.2 from hee]; exact hr
    rw [hat] at this
    exact recordsOfPage_page _ _ _ this
  · intro hbig
    have hacc : acceptedCandidates c = [] := by
      unfold acceptedCandidates
      have : c.filter (fun ccs => decide (ccs.2.length = 1 ∨ ccs.2.length = 2)) = [] := by
        rw [List.filter_eq_nil_iff]
        intro g hg
        have := hbig g hg
        simp only [decide_eq_true_eq]; omega
      rw [this]; rfl
    cases hout : buildOutput c with
    | nil => rfl
    | cons e rest =>
      exfalso
      have hmem : e ∈ buildOutput c := by rw [hout]; simp
      have hne := h1.2 e hmem
      have hee := Output.at_of_mem _ h1 e hmem
      have h5 := hat e.1
      rw [hacc] at h5
      have h6 : Output.at (buildOutput c) e.1 = [] := by simpa [recordsOfPage] using h5
      exact hne (by rw [← hee]; exact h6)

/-- Witness of C1: the two groups of size 1 of `twoFigures` give the two records of page 0,
and the group of three `Table 3` sightings, the only group of its collection, gives an empty
output. -/
theorem C1_result_builder_witness :
    Output.at (buildOutput [(1, [twoFigures_one]), (2, [twoFigures_two])]) 0
        = [⟨0, 1, twoFigures_one.word, .FIGURE⟩, ⟨0, 2, twoFigures_two.word, .FIGURE⟩]
    ∧ buildOutput [(-3, [scenarioC_table, scenarioC_table, scenarioC_table])] = [] :=
  ⟨((C1_result_builder [(1, [twoFigures_one]), (2, [twoFigures_two])]).1 0).trans (by decide),
    (C1_result_builder [(-3, [scenarioC_table, scenarioC_table, scenarioC_table])]).2.2.2.2
      (by simp)⟩

/-! ### Invariants of the collector -/

theorem collectWords_preserves (P : CandidateCollection → Prop) (tablesOnly : Bool)
    (lang : String)
    (step : ∀ col word page ls bs cc, P col →
      constructCandidate word page ls bs tablesOnly lang = .ok cc → cc.word ≠ [] →
      P (pushCandidate col cc.getId cc))
    (page : Int) (bs : Bool) (line : WordPtr) (ls : Bool) (col col2 : CandidateCollection)
    (h : P col) (hrun : collectWords page bs tablesOnly lang line ls col = .ok col2) :
    P col2 := by
  induction line generalizing ls col with
  | nil =>
    simp only [collectWords, Except.ok.injEq] at hrun
    exact hrun ▸ h
  | cons w next ih =>
    unfold collectWords at hrun
    cases hc : constructCandidate (w :: next) page ls bs tablesOnly lang with
    | error e => simp [hc] at hrun
    | ok cc =>
      simp only [hc] at hrun
      refine ih false _ ?_ hrun
      by_cases hw : cc.word ≠ []
      · rw [if_pos hw]
        exact step col _ page ls bs cc h hc hw
      · rw [if_neg hw]
        exact h

theorem collectLines_preserves (P : CandidateCollection → Prop) (tablesOnly : Bool)
    (lang : String)
    (step : ∀ col word page ls bs cc, P col →
      constructCandidate word page ls bs tablesOnly lang = .ok cc → cc.word ≠ [] →
      P (pushCandidate col cc.getId cc))
    (page : Int) (lines : List TextLine) (bs : Bool) (col col2 : CandidateCollection)
    (h : P col) (hrun : collectLines page tablesOnly lang lines bs col = .ok col2) :
    P col2 := by
  induction lines generalizing bs col with
  | nil =>
    simp only [collectLines, Except.ok.injEq] at hrun
    exact hrun ▸ h
  | cons line next ih =>
    unfold collectLines at hrun
    cases hc : collectWords page bs tablesOnly lang line true col with
    | error e => simp [hc] at hrun
    | ok col1 =>
      simp only [hc] at hrun
      exact ih false col1
        (collectWords_preserves P tablesOnly lang step page bs line true col col1 h hc) hrun

theorem collectBlocks_preserves (P : CandidateCollection → Prop) (tablesOnly : Bool)
    (lang : String)
    (step : ∀ col word page ls bs cc, P col →
      constructCandidate word page ls bs tablesOnly lang = .ok cc → cc.word ≠ [] →
      P (pushCandidate col cc.getId cc))
    (page : Int) (blocks : List TextBlock) (col col2 : CandidateCollection)
    (h : P col) (hrun : collectBlocks page tablesOnly lang blocks col = .ok col2) :
    P col2 := by
  induction blocks generalizing col with
  | nil =>
    simp only [collectBlocks, Except.ok.injEq] at hrun
    exact hrun ▸ h
  | cons block next ih =>
    unfold collectBlocks at hrun
    cases hc : collectLines page tablesOnly lang block true col with
    | error e => simp [hc] at hrun
    | ok col1 =>
      simp only [hc] at hrun
      exact ih col1
        (collectLines_preserves P tablesOnly lang step page block true col col1 h hc) hrun

theorem collectFlows_preserves (P : CandidateCollection → Prop) (tablesOnly : Bool)
    (lang : String)
    (step : ∀ col word page ls bs cc, P col →
      constructCandidate word page ls bs tablesOnly lang = .ok cc → cc.word ≠ [] →
      P (pushCandidate col cc.getId cc))
    (page : Int) (flows : List TextFlow) (col col2 : CandidateCollection)
    (h : P col) (hrun : collectFlows page tablesOnly lang flows col = .ok col2) :
    P col2 := by
  induction flows generalizing col with
  | nil =>
    simp only [collectFlows, Except.ok.injEq] at hrun
    exact hrun ▸ h
  | cons flow next ih =>
    unfold collectFlows at hrun
    cases hc : collectBlocks page tablesOnly lang flow col with
    | error e => simp [hc] at hrun
    | ok col1 =>
      simp only [hc] at hrun
      exact ih col1
        (collectBlocks_preserves P tablesOnly lang step page flow col col1 h hc) hrun

theorem collectPages_preserves (P : CandidateCollection → Prop) (tablesOnly : Bool)
    (lang : String)
    (step : ∀ col word page ls bs cc, P col →
      constructCandidate word page ls bs tablesOnly lang = .ok cc → cc.word ≠ [] →
      P (pushCandidate col cc.getId cc))
    (pages : List TextPage) (i : Nat) (col col2 : CandidateCollection)
    (h : P col) (hrun : collectPages tablesOnly lang pages i col = .ok col2) :
    P col2 := by
  induction pages generalizing i col with
  | nil =>
    simp only [collectPages, Except.ok.injEq] at hrun
    exact hrun ▸ h
  | cons page next ih =>
    unfold collectPages at hrun
    cases hc : collectFlows (i : Int) tablesOnly lang page col with
    | error e => simp [hc] at hrun
    | ok col1 =>
      simp only [hc] at hrun
      exact ih (i + 1) col1
        (collectFlows_preserves P tablesOnly lang step (i : Int) page col col1 h hc) hrun

theorem collectCandidates_preserves (P : CandidateCollection → Prop) (tablesOnly : Bool)
    (lang : String)
    (step : ∀ col word page ls bs cc, P col →
      constructCandidate word page ls bs tablesOnly lang = .ok cc → cc.word ≠ [] →
      P (pushCandidate col cc.getId cc))
    (pages : List TextPage) (col : CandidateCollection) (h : P [])
    (hrun : collectCandidates pages tablesOnly lang = .ok col) : P col :=
  collectPages_preserves P tablesOnly lang step pages 0 [] col h hrun

theorem pushCandidate_nonempty (col : CandidateCollection) (id : FigureId)
    (cc : CaptionCandidate) (h : ∀ g ∈ col, g.2 ≠ []) :
    ∀ g ∈ pushCandidate col id cc, g.2 ≠ [] := by
  induction col with
  | nil => simp [pushCandidate]
  | cons g0 rest ih =>
    obtain ⟨k, ccs⟩ := g0
    unfold pushCandidate
    by_cases hk : k = id
    · simp only [hk, if_true]
      intro g hg
      simp only [List.mem_cons] at hg
      rcases hg with rfl | hg
      · simp
      · exact h g (by simp [hg])
    · simp only [hk, if_false]
      intro g hg
      simp only [List.mem_cons] at hg
      rcases hg with rfl | hg
      · exact h _ (by simp)
      · exact ih (fun g hg => h g (by simp [hg])) g hg

theorem collectCandidates_nonempty (pages : List TextPage) (tablesOnly : Bool) (lang : String)
    (col : CandidateCollection) (hrun : collectCandidates pages tablesOnly lang = .ok col) :
    ∀ g ∈ col, g.2 ≠ [] :=
  collectCandidates_preserves (fun c => ∀ g ∈ c, g.2 ≠ []) tablesOnly lang
    (fun col _ _ _ _ cc h _ _ => pushCandidate_nonempty col cc.getId cc h)
    pages col (by simp) hrun

/-! ### Groups stay non-empty -/

theorem applyFilter_nonempty (f : CandidateFilter) (c : CandidateCollection)
    (h : ∀ g ∈ c, g.2 ≠ []) : ∀ g ∈ (applyFilter f c).2, g.2 ≠ [] := by
  rw [applyFilter_eq]
  split
  · intro g hg
    simp only [List.mem_map] at hg
    obtain ⟨g0, hg0, rfl⟩ := hg
    exact eraseLoop_ne_nil f g0.2 (h g0 hg0)
  · exact h

theorem resolveLoop_nonempty (fs : List CandidateFilter) (fuel : Nat) (c : CandidateCollection)
    (r : CandidateCollection × List String) (hrun : resolveLoop fs fuel c = some r)
    (h : ∀ g ∈ c, g.2 ≠ []) : ∀ g ∈ r.1, g.2 ≠ [] := by
  induction fuel generalizing c r with
  | zero => simp [resolveLoop] at hrun
  | succ n ih =>
    unfold resolveLoop at hrun
    by_cases hd : anyDuplicates c = true
    · simp only [hd, if_true] at hrun
      cases ht : tryFilters fs c with
      | none =>
        simp only [ht, Option.some.injEq] at hrun
        subst hrun; exact h
      | some a =>
        simp only [ht, Option.map_eq_some'] at hrun
        obtain ⟨r0, hr0, rfl⟩ := hrun
        obtain ⟨f, _, _, rfl⟩ := tryFilters_some fs c a ht
        exact ih _ r0 hr0 (applyFilter_nonempty f c h)
    · simp only [hd, Bool.false_eq_true, if_false, Option.some.injEq] at hrun
      subst hrun; exact h

/-- C2. Monotonicity and group invariant: one `applyFilter` call on a collection whose groups
are all non-empty keeps the keys and leaves, position by position, a group with the same key
that is non-empty and a sub-sequence of the former group; and on the output of
`collectCandidates` the resolution loop ends and leaves only groups of size at least 1. -/
theorem C2_monotone_nonempty :
    (∀ (f : CandidateFilter) (c : CandidateCollection), (∀ g ∈ c, g.2 ≠ []) →
      (applyFilter f c).2.map Prod.fst = c.map Prod.fst
      ∧ List.Forall₂ (fun g g2 => g2.1 = g.1 ∧ g2.2 ≠ [] ∧ List.Sublist g2.2 g.2
          ∧ g2.2.length ≤ g.2.length) c (applyFilter f c).2)
    ∧ (∀ (pages : List TextPage) (tablesOnly : Bool) (lang : String) (c : CandidateCollection),
      collectCandidates pages tablesOnly lang = .ok c →
      ∃ r, resolveLoop filters (totalCandidates c + 1) c = some r
        ∧ ∀ g ∈ r.1, 1 ≤ g.2.length) := by
  constructor
  · intro f c h
    rw [applyFilter_eq]
    split
    · refine ⟨by simp [List.map_map, Function.comp_def], ?_⟩
      rw [List.forall₂_map_right_iff, List.forall₂_same]
      intro g hg
      exact ⟨rfl, eraseLoop_ne_nil f g.2 (h g hg), eraseLoop_sublist f g.2,
        eraseLoop_length_le f g.2⟩
    · refine ⟨rfl, ?_⟩
      rw [List.forall₂_same]
      intro g hg
      exact ⟨rfl, h g hg, List.Sublist.refl _, Nat.le_refl _⟩
  · intro pages tablesOnly lang c hrun
    obtain ⟨r, hr⟩ := resolveLoop_terminates filters (totalCandidates c + 1) c (by omega)
    refine ⟨r, hr, fun g hg => ?_⟩
    have := resolveLoop_nonempty filters _ c r hr
      (collectCandidates_nonempty pages tablesOnly lang c hrun) g hg
    exact List.length_pos.mpr this

theorem scenarioB_collected :
    collectCandidates scenarioB false "en" = .ok [(2, [scenarioB_bold, scenarioB_plain])] := rfl

theorem scenarioC_collected :
    collectCandidates scenarioC true "en"
      = .ok [(-3, [scenarioC_table, scenarioC_table, scenarioC_table])] := rfl

/-- Witness of C2 on scenario B: the bold-only filter applied to the two `Figure 2:`
sightings, and the resolution of the collection gathered from the document. -/
theorem C2_monotone_nonempty_witness :
    ((applyFilter BoldOnly [(2, [scenarioB_bold, scenarioB_plain])]).2.map Prod.fst
        = [(2, [scenarioB_bold, scenarioB_plain])].map Prod.fst
      ∧ List.Forall₂ (fun g g2 => g2.1 = g.1 ∧ g2.2 ≠ [] ∧ List.Sublist g2.2 g.2
          ∧ g2.2.length ≤ g.2.length) [(2, [scenarioB_bold, scenarioB_plain])]
          (applyFilter BoldOnly [(2, [scenarioB_bold, scenarioB_plain])]).2)
    ∧ (∃ r, resolveLoop filters
          (totalCandidates [(2, [scenarioB_bold, scenarioB_plain])] + 1)
          [(2, [scenarioB_bold, scenarioB_plain])] = some r
        ∧ ∀ g ∈ r.1, 1 ≤ g.2.length) :=
  ⟨C2_monotone_nonempty.1 BoldOnly [(2, [scenarioB_bold, scenarioB_plain])] (by simp),
    C2_monotone_nonempty.2 scenarioB false "en" [(2, [scenarioB_bold, scenarioB_plain])]
      scenarioB_collected⟩

theorem resolveLoop_of_stable (fs : List CandidateFilter) (fuel : Nat) (c : CandidateCollection)
    (h : anyDuplicates c = false ∨ tryFilters fs c = none) :
    resolveLoop fs (fuel + 1) c = some (c, []) := by
  unfold resolveLoop
  rcases h with h | h
  · simp [h]
  · by_cases hd : anyDuplicates c = true
    · simp [hd, h]
    · simp [hd]

/-- C3. Idempotence: the resolution loop over the ten filters ends on every collection, and
running the same loop again on the collection it leaves applies no filter (the trace of
applied filters is empty, and when the loop body is entered every `applyFilter` call reports
no effect and returns the collection as it is) and leaves that collection unchanged. -/
theorem C3_idempotent (c : CandidateCollection) :
    (∃ r, resolveLoop filters (totalCandidates c + 1) c = some r)
    ∧ ∀ fuel r, resolveLoop filters fuel c = some r →
        (∀ fuel2, resolveLoop filters (fuel2 + 1) r.1 = some (r.1, []))
        ∧ (anyDuplicates r.1 = true → ∀ f ∈ filters, applyFilter f r.1 = (false, r.1)) := by
  refine ⟨resolveLoop_terminates filters _ c (by omega), ?_⟩
  intro fuel r hr
  have hst := resolveLoop_stable filters fuel c r hr
  refine ⟨fun fuel2 => resolveLoop_of_stable filters fuel2 r.1 hst, ?_⟩
  intro hd f hf
  rcases hst with hst | hst
  · rw [hst] at hd; exact absurd hd (by simp)
  · have h1 := (tryFilters_none filters r.1).mp hst f hf
    have h2 := applyFilter_false f r.1 h1
    exact Prod.ext h1 h2

theorem scenarioB_resolved :
    resolveLoop filters 3 [(2, [scenarioB_bold, scenarioB_plain])]
      = some ([(2, [scenarioB_bold])], ["Bold Only"]) := by
  decide

theorem boldBoldPlain_resolved :
    resolveLoop filters 4 [(2, [scenarioB_bold, scenarioB_bold, scenarioB_plain])]
      = some ([(2, [scenarioB_bold, scenarioB_bold])], ["Bold Only"]) := by
  decide

/-- Witness of C3: two bold sightings and one plain sighting of `Figure 2:` are resolved by
the bold-only filter to the two bold ones, which stay ambiguous; a second run on that
collection returns it with an empty trace, and its first filter reports no effect. -/
theorem C3_idempotent_witness :
    resolveLoop filters 4 [(2, [scenarioB_bold, scenarioB_bold, scenarioB_plain])]
        = some ([(2, [scenarioB_bold, scenarioB_bold])], ["Bold Only"])
    ∧ resolveLoop filters 1 [(2, [scenarioB_bold, scenarioB_bold])]
        = some ([(2, [scenarioB_bold, scenarioB_bold])], [])
    ∧ applyFilter ColonOnly [(2, [scenarioB_bold, scenarioB_bold])]
        = (false, [(2, [scenarioB_bold, scenarioB_bold])]) :=
  ⟨boldBoldPlain_resolved,
    ((C3_idempotent [(2, [scenarioB_bold, scenarioB_bold, scenarioB_plain])]).2 4
      ([(2, [scenarioB_bold, scenarioB_bold])], ["Bold Only"]) boldBoldPlain_resolved).1 0,
    ((C3_idempotent [(2, [scenarioB_bold, scenarioB_bold, scenarioB_plain])]).2 4
      ([(2, [scenarioB_bold, scenarioB_bold])], ["Bold Only"]) boldBoldPlain_resolved).2
      (by decide) ColonOnly (by simp [filters])⟩

/-! ### Independence of the enumeration order -/

theorem any_perm {α : Type} (p : α → Bool) (l1 l2 : List α) (h : List.Perm l1 l2) :
    l1.any p = l2.any p := by
  rw [Bool.eq_iff_iff]
  simp only [List.any_eq_true]
  constructor
  · rintro ⟨x, hx, hp⟩; exact ⟨x, h.mem_iff.mp hx, hp⟩
  · rintro ⟨x, hx, hp⟩; exact ⟨x, h.mem_iff.mpr hx, hp⟩

theorem blocked_perm (f : CandidateFilter) (c1 c2 : CandidateCollection)
    (h : List.Perm c1 c2) : blocked f c1 = blocked f c2 := by
  unfold blocked
  rw [any_perm _ c1 c2 h]

theorem narrows_perm (f : CandidateFilter) (c1 c2 : CandidateCollection)
    (h : List.Perm c1 c2) : narrows f c1 = narrows f c2 := by
  unfold narrows
  rw [any_perm _ c1 c2 h]

theorem applyFilter_perm (f : CandidateFilter) (c1 c2 : CandidateCollection)
    (h : List.Perm c1 c2) :
    (applyFilter f c1).1 = (applyFilter f c2).1
      ∧ List.Perm (applyFilter f c1).2 (applyFilter f c2).2 := by
  rw [applyFilter_eq, applyFilter_eq, blocked_perm f c1 c2 h, narrows_perm f c1 c2 h]
  split
  · exact ⟨rfl, h.map _⟩
  · exact ⟨rfl, h⟩

theorem tryFilters_perm (fs : List CandidateFilter) (c1 c2 : CandidateCollection)
    (h : List.Perm c1 c2) :
    (tryFilters fs c1 = none ∧ tryFilters fs c2 = none)
    ∨ ∃ a1 a2, tryFilters fs c1 = some a1 ∧ tryFilters fs c2 = some a2
        ∧ a1.1 = a2.1 ∧ List.Perm a1.2 a2.2 := by
  induction fs generalizing c1 c2 with
  | nil => exact Or.inl ⟨rfl, rfl⟩
  | cons f rest ih =>
    obtain ⟨hb, hp⟩ := applyFilter_perm f c1 c2 h
    unfold tryFilters
    by_cases h1 : (applyFilter f c1).1 = true
    · have h2 : (applyFilter f c2).1 = true := by rw [← hb]; exact h1
      right
      exact ⟨(f.name, (applyFilter f c1).2), (f.name, (applyFilter f c2).2),
        by simp only [h1, if_true], by simp only [h2, if_true], rfl, hp⟩
    · have h2 : ¬ (applyFilter f c2).1 = true := by rw [← hb]; exact h1
      simp only [h1, h2, if_false]
      exact ih _ _ hp

theorem anyDuplicates_perm (c1 c2 : CandidateCollection) (h : List.Perm c1 c2) :
    anyDuplicates c1 = anyDuplicates c2 :=
  any_perm _ c1 c2 h

theorem resolveLoop_perm (fs : List CandidateFilter) (fuel : Nat) (c1 c2 : CandidateCollection)
    (h : List.Perm c1 c2) (r1 : CandidateCollection × List String)
    (hr : resolveLoop fs fuel c1 = some r1) :
    ∃ r2, resolveLoop fs fuel c2 = some r2 ∧ List.Perm r1.1 r2.1 ∧ r1.2 = r2.2 := by
  induction fuel generalizing c1 c2 r1 with
  | zero => simp [resolveLoop] at hr
  | succ n ih =>
    unfold resolveLoop at hr ⊢
    rw [← anyDuplicates_perm c1 c2 h]
    by_cases hd : anyDuplicates c1 = true
    · simp only [hd, if_true] at hr ⊢
      rcases tryFilters_perm fs c1 c2 h with ⟨t1, t2⟩ | ⟨a1, a2, t1, t2, hn, hp⟩
      · simp only [t1, Option.some.injEq] at hr
        subst hr
        exact ⟨(c2, []), by simp [t2], h, rfl⟩
      · simp only [t1, Option.map_eq_some'] at hr
        obtain ⟨r0, hr0, rfl⟩ := hr
        obtain ⟨r2, hr2, hp2, ht2⟩ := ih a1.2 a2.2 hp r0 hr0
        exact ⟨(r2.1, a2.1 :: r2.2), by simp [t2, hr2], hp2, by simp [hn, ht2]⟩
    · simp only [hd, Bool.false_eq_true, if_false, Option.some.injEq] at hr ⊢
      subst hr
      exact ⟨(c2, []), rfl, h, rfl⟩

theorem totalCandidates_perm (c1 c2 : CandidateCollection) (h : List.Perm c1 c2) :
    totalCandidates c1 = totalCandidates c2 := by
  unfold totalCandidates
  exact (h.map _).sum_eq

theorem resolve_perm (c1 c2 : CandidateCollection) (h : List.Perm c1 c2) :
    List.Perm (resolve c1) (resolve c2) := by
  obtain ⟨tr1, h1⟩ := resolve_spec c1
  obtain ⟨r2, h2, hp, _⟩ := resolveLoop_perm filters _ c1 c2 h _ h1
  obtain ⟨tr2, h3⟩ := resolve_spec c2
  rw [totalCandidates_perm c1 c2 h, h3] at h2
  simp only [Option.some.injEq] at h2
  rw [← h2] at hp
  exact hp

theorem acceptedCandidates_perm (c1 c2 : CandidateCollection) (h : List.Perm c1 c2) :
    List.Perm (acceptedCandidates c1) (acceptedCandidates c2) :=
  (h.filter _).flatMap_right _

theorem recordsOfPage_perm (a b : List CaptionCandidate) (h : List.Perm a b) (p : Int) :
    List.Perm (recordsOfPage a p) (recordsOfPage b p) :=
  (h.filter _).map _

theorem buildOutput_wellFormed (c : CandidateCollection) : (buildOutput c).WellFormed :=
  (foldGroups_spec c [] Output.wellFormed_nil).1

theorem buildOutput_at (c : CandidateCollection) (p : Int) :
    Output.at (buildOutput c) p = recordsOfPage (acceptedCandidates c) p := by
  have := (foldGroups_spec c [] Output.wellFormed_nil).2.1 p
  simpa [buildOutput, Output.at_nil] using this

theorem Output.mem_keys_iff (output : Output) (h : output.WellFormed) (p : Int) :
    p ∈ output.map Prod.fst ↔ Output.at output p ≠ [] := by
  constructor
  · intro hp
    simp only [List.mem_map] at hp
    obtain ⟨e, he, rfl⟩ := hp
    rw [Output.at_of_mem output h e he]
    exact h.2 e he
  · intro hp
    by_contra hnot
    apply hp
    clear hp h
    induction output with
    | nil => rfl
    | cons e rest ih =>
      obtain ⟨k, v⟩ := e
      rw [Output.at_cons]
      simp only [List.map_cons, List.mem_cons, not_or] at hnot
      simp only [hnot.1, if_false]
      exact ih hnot.2

theorem buildOutput_keys_perm (c1 c2 : CandidateCollection) (h : List.Perm c1 c2) :
    (buildOutput c1).map Prod.fst = (buildOutput c2).map Prod.fst := by
  have w1 := buildOutput_wellFormed c1
  have w2 := buildOutput_wellFormed c2
  have hperm : List.Perm ((buildOutput c1).map Prod.fst) ((buildOutput c2).map Prod.fst) := by
    rw [List.perm_ext_iff_of_nodup (w1.1.imp (fun hab => ne_of_lt hab))
      (w2.1.imp (fun hab => ne_of_lt hab))]
    intro p
    rw [Output.mem_keys_iff _ w1, Output.mem_keys_iff _ w2, buildOutput_at, buildOutput_at]
    have hp := recordsOfPage_perm _ _ (acceptedCandidates_perm c1 c2 h) p
    constructor
    · intro h1 h2; rw [h2] at hp; exact h1 (List.perm_nil.mp hp)
    · intro h1 h2; rw [h2] at hp; exact h1 (List.nil_perm.mp hp)
  exact List.eq_of_perm_of_sorted hperm w1.1 w2.1

theorem twoFigures_collected :
    collectCandidates twoFigures false "en"
      = .ok [(1, [twoFigures_one]), (2, [twoFigures_two])] := rfl

/-- C4, counterexample: the collection gathered from a page with `Figure 1.` and `Figure 2.`
has two groups; enumerated as (1, 2) the list of page 0 is `Figure 1, Figure 2`, enumerated
as (2, 1) it is `Figure 2, Figure 1`, so the two outputs differ. -/
theorem C4_order_counterexample :
    collectCandidates twoFigures false "en"
        = .ok [(1, [twoFigures_one]), (2, [twoFigures_two])]
    ∧ List.Perm [(1, [twoFigures_one]), (2, [twoFigures_two])]
        [(2, [twoFigures_two]), (1, [twoFigures_one])]
    ∧ buildOutput (resolve [(1, [twoFigures_one]), (2, [twoFigures_two])])
        = [(0, [twoFigures_one.toCaptionStart, twoFigures_two.toCaptionStart])]
    ∧ buildOutput (resolve [(2, [twoFigures_two]), (1, [twoFigures_one])])
        = [(0, [twoFigures_two.toCaptionStart, twoFigures_one.toCaptionStart])]
    ∧ buildOutput (resolve [(1, [twoFigures_one]), (2, [twoFigures_two])])
        ≠ buildOutput (resolve [(2, [twoFigures_two]), (1, [twoFigures_one])]) := by
  refine ⟨rfl, List.Perm.swap _ _ _, by decide, by decide, by decide⟩

/-- C4, amended: two enumeration orders of one collection give the same trace of applied
filters and the same resolved collection (as enumerations that are permutations of one
another), and outputs with the same page keys in which every page holds the same records up
to their order. -/
theorem C4_deterministic_up_to_order (c1 c2 : CandidateCollection) (h : List.Perm c1 c2) :
    (∃ tr, resolveLoop filters (totalCandidates c1 + 1) c1 = some (resolve c1, tr)
        ∧ resolveLoop filters (totalCandidates c2 + 1) c2 = some (resolve c2, tr))
    ∧ List.Perm (resolve c1) (resolve c2)
    ∧ (buildOutput (resolve c1)).map Prod.fst = (buildOutput (resolve c2)).map Prod.fst
    ∧ ∀ p, List.Perm (Output.at (buildOutput (resolve c1)) p)
        (Output.at (buildOutput (resolve c2)) p) := by
  have hres := resolve_perm c1 c2 h
  refine ⟨?_, hres, buildOutput_keys_perm _ _ hres, ?_⟩
  · obtain ⟨tr1, h1⟩ := resolve_spec c1
    obtain ⟨r2, h2, _, ht⟩ := resolveLoop_perm filters _ c1 c2 h _ h1
    obtain ⟨tr2, h3⟩ := resolve_spec c2
    rw [totalCandidates_perm c1 c2 h, h3] at h2
    simp only [Option.some.injEq] at h2
    refine ⟨tr1, h1, ?_⟩
    rw [h3]
    have : tr1 = tr2 := by rw [← h2] at ht; exact ht
    rw [this]
  · intro p
    rw [buildOutput_at, buildOutput_at]
    exact recordsOfPage_perm _ _ (acceptedCandidates_perm _ _ hres) p

/-- Witness of the amended C4 on the two enumerations of the `twoFigures` collection. -/
theorem C4_deterministic_up_to_order_witness :
    List.Perm [(1, [twoFigures_one]), (2, [twoFigures_two])]
        [(2, [twoFigures_two]), (1, [twoFigures_one])]
    ∧ List.Perm (resolve [(1, [twoFigures_one]), (2, [twoFigures_two])])
        (resolve [(2, [twoFigures_two]), (1, [twoFigures_one])])
    ∧ (buildOutput (resolve [(1, [twoFigures_one]), (2, [twoFigures_two])])).map Prod.fst
        = (buildOutput (resolve [(2, [twoFigures_two]), (1, [twoFigures_one])])).map Prod.fst
    ∧ ∀ p, List.Perm
        (Output.at (buildOutput (resolve [(1, [twoFigures_one]), (2, [twoFigures_two])])) p)
        (Output.at (buildOutput (resolve [(2, [twoFigures_two]), (1, [twoFigures_one])])) p) :=
  ⟨List.Perm.swap _ _ _,
    (C4_deterministic_up_to_order _ _ (List.Perm.swap _ _ _)).2⟩

/-! ### The number pattern -/

theorem runClsPlus_spec (rs : List (Char × Char)) (s s1 : List Char)
    (h : s1 ∈ runClsPlus rs s) :
    ∃ w, s = w ++ s1 ∧ w ≠ [] ∧ ∀ c ∈ w, inClass rs c = true := by
  induction s with
  | nil => simp [runClsPlus] at h
  | cons c cs ih =>
    unfold runClsPlus at h
    by_cases hc : inClass rs c = true
    · simp only [hc, if_true, List.mem_append, List.mem_singleton] at h
      rcases h with h | h
      · obtain ⟨w, hw, _, hall⟩ := ih h
        refine ⟨c :: w, by simp [hw], by simp, ?_⟩
        intro d hd
        simp only [List.mem_cons] at hd
        rcases hd with rfl | hd
        · exact hc
        · exact hall d hd
      · subst h
        exact ⟨[c], by simp, by simp, by simpa using hc⟩
    · simp [hc] at h

theorem run_caps_of_markCount_zero (inp : List Char) (r : Regex) (h : r.markCount = 0)
    (s : List Char) (caps : Caps) (x : List Char × Caps) (hx : x ∈ Regex.run inp r s caps) :
    x.2 = caps := by
  induction r generalizing s caps x with
  | chars cs =>
    simp only [Regex.run] at hx
    split at hx
    · simp only [List.mem_singleton] at hx; rw [hx]
    · simp at hx
  | cls rs =>
    simp only [Regex.run] at hx
    split at hx
    · simp at hx
    · split at hx
      · simp only [List.mem_singleton] at hx; rw [hx]
      · simp at hx
  | clsPlus rs =>
    simp only [Regex.run, List.mem_map] at hx
    obtain ⟨s1, _, rfl⟩ := hx
    rfl
  | seq a b iha ihb =>
    simp only [Regex.markCount] at h
    simp only [Regex.run, List.mem_flatMap] at hx
    obtain ⟨y, hy, hx⟩ := hx
    rw [ihb (by omega) _ _ _ hx, iha (by omega) _ _ _ hy]
  | alt a b iha ihb =>
    simp only [Regex.markCount] at h
    simp only [Regex.run, List.mem_append] at hx
    rcases hx with hx | hx
    · exact iha (by omega) _ _ _ hx
    · exact ihb (by omega) _ _ _ hx
  | opt a iha =>
    simp only [Regex.markCount] at h
    simp only [Regex.run, List.mem_append, List.mem_singleton] at hx
    rcases hx with hx | hx
    · exact iha h _ _ _ hx
    · rw [hx]
  | group n a _ =>
    simp [Regex.markCount] at h
  | bol =>
    simp only [Regex.run] at hx
    split at hx
    · simp only [List.mem_singleton] at hx; rw [hx]
    · simp at hx
  | eol =>
    simp only [Regex.run] at hx
    split at hx
    · simp only [List.mem_singleton] at hx; rw [hx]
    · simp at hx

theorem numberTail_caps (inp : List Char) (rs : List (Char × Char)) (t : Regex)
    (ht : t.markCount = 0) (s : List Char) (caps : Caps) (x : List Char × Caps)
    (h : x ∈ Regex.run inp (.seq (.group 2 (.clsPlus rs)) (.seq (.opt (.group 3 t)) .eol))
      s caps) :
    ∃ core, x.2.lookup 2 = some core ∧ core ≠ [] ∧ ∀ c ∈ core, inClass rs c = true := by
  simp only [Regex.run, List.mem_flatMap, List.mem_map, List.mem_append, List.mem_singleton]
    at h
  obtain ⟨y, ⟨y0, ⟨s1, hs1, rfl⟩, rfl⟩, z, hz, hx⟩ := h
  obtain ⟨w, hw, hne, hall⟩ := runClsPlus_spec rs s s1 hs1
  have htake : s.take (s.length - s1.length) = w := by
    rw [hw]; simp
  simp only at hz hx
  rw [htake] at hz
  have hxz : x = z := by
    by_cases he : z.1.isEmpty = true
    · simp only [he, if_true, List.mem_singleton] at hx; exact hx
    · simp [he] at hx
  subst hxz
  rcases hz with ⟨z0, hz0, rfl⟩ | rfl
  · have := run_caps_of_markCount_zero inp t ht _ _ _ hz0
    exact ⟨w, by simp [List.lookup, this], hne, hall⟩
  · exact ⟨w, by simp [List.lookup], hne, hall⟩

theorem numberRegex_core (text : List Char) (m : MatchResults)
    (h : regexMatch numberRegex text = some m) :
    m.whole = text ∧ m.sub 2 ≠ []
      ∧ ∀ c ∈ m.sub 2, inClass [('0', '9'), ('I', 'I'), ('V', 'V'), ('X', 'X')] c = true := by
  unfold regexMatch at h
  cases hf : (Regex.run text numberRegex text []).find? (fun m => m.1.isEmpty) with
  | none => simp [hf] at h
  | some x =>
    simp only [hf, Option.some.injEq] at h
    subst h
    have hmem := List.mem_of_find?_eq_some hf
    unfold numberRegex at hmem
    rw [Regex.run] at hmem
    simp only [List.mem_flatMap] at hmem
    obtain ⟨y, _, hy⟩ := hmem
    rw [Regex.run] at hy
    simp only [List.mem_flatMap] at hy
    obtain ⟨z, _, hz⟩ := hy
    obtain ⟨core, hl, hne, hall⟩ := numberTail_caps _ _ _ (by decide) _ _ _ hz
    have hsub : MatchResults.sub ⟨text, x.2, numberRegex.markCount + 1⟩ 2 = core := by
      simp [MatchResults.sub, hl, numberRegex, Regex.markCount]
    rw [hsub]
    exact ⟨rfl, hne, hall⟩

/-! ### Number parsing -/

theorem coreClass_cases (c : Char)
    (h : inClass [('0', '9'), ('I', 'I'), ('V', 'V'), ('X', 'X')] c = true) :
    (48 ≤ c.toNat ∧ c.toNat ≤ 57) ∨ c.toNat = 73 ∨ c.toNat = 86 ∨ c.toNat = 88 := by
  simp only [inClass, List.any_cons, List.any_nil, Bool.or_false, Bool.or_eq_true,
    Bool.and_eq_true, decide_eq_true_eq] at h
  have e0 : ('0' : Char).toNat = 48 := rfl
  have e9 : ('9' : Char).toNat = 57 := rfl
  have eI : ('I' : Char).toNat = 73 := rfl
  have eV : ('V' : Char).toNat = 86 := rfl
  have eX : ('X' : Char).toNat = 88 := rfl
  rw [e0, e9, eI, eV, eX] at h
  omega

theorem digitsValue_foldl_nonneg (ds : List Char) (acc : Int) (hacc : 0 ≤ acc)
    (h : ∀ c ∈ ds, isDigit c = true) :
    0 ≤ ds.foldl (fun acc c => 10 * acc + ((c.toNat : Int) - 48)) acc := by
  induction ds generalizing acc with
  | nil => simpa using hacc
  | cons c cs ih =>
    simp only [List.foldl_cons]
    apply ih
    · have := h c (by simp)
      simp only [isDigit, Bool.and_eq_true, decide_eq_true_eq] at this
      omega
    · intro d hd; exact h d (by simp [hd])

theorem digitsValue_nonneg (s : List Char) : 0 ≤ digitsValue (s.takeWhile isDigit) := by
  unfold digitsValue
  apply digitsValue_foldl_nonneg _ _ (le_refl 0)
  intro c hc
  exact (List.mem_takeWhile_imp hc)

theorem stoi_core (core : List Char) (hne : core ≠ [])
    (hall : ∀ c ∈ core, inClass [('0', '9'), ('I', 'I'), ('V', 'V'), ('X', 'X')] c = true) :
    stoi core =
      if (core.takeWhile isDigit).isEmpty then .error .invalid_argument
      else if INT_MAX < digitsValue (core.takeWhile isDigit) then .error .out_of_range
      else .ok (digitsValue (core.takeWhile isDigit)) := by
  cases core with
  | nil => exact absurd rfl hne
  | cons c rest =>
    have hc := coreClass_cases c (hall c (by simp))
    have hsp : isSpace c = false := by
      simp only [isSpace, Bool.or_eq_false_iff, Bool.and_eq_false_iff, decide_eq_false_iff_not]
      omega
    have hminus : c ≠ '-' := by
      intro h; rw [h] at hc
      have : ('-' : Char).toNat = 45 := rfl
      omega
    have hplus : c ≠ '+' := by
      intro h; rw [h] at hc
      have : ('+' : Char).toNat = 43 := rfl
      omega
    have hnn := digitsValue_nonneg (c :: rest)
    unfold stoi
    simp only [List.dropWhile_cons, hsp, Bool.false_eq_true, if_false, hminus, hplus]
    by_cases hd : ((c :: rest).takeWhile isDigit).isEmpty = true
    · simp [hd]
    · simp only [hd, Bool.false_eq_true, if_false]
      have hmin : ¬ digitsValue ((c :: rest).takeWhile isDigit) < INT_MIN := by
        unfold INT_MIN; omega
      by_cases hmax : INT_MAX < digitsValue ((c :: rest).takeWhile isDigit)
      · simp [hmax]
      · simp [hmax, hmin]

theorem romanValue_cases (c : Char) :
    romanValue c = 0 ∨ romanValue c = 1 ∨ romanValue c = 5 ∨ romanValue c = 10 := by
  unfold romanValue
  split
  · simp
  · split
    · simp
    · split
      · simp
      · simp

theorem wrap32_of_range (x : Int) (h1 : INT_MIN ≤ x) (h2 : x ≤ INT_MAX) : wrap32 x = x := by
  unfold INT_MIN at h1
  unfold INT_MAX at h2
  unfold wrap32
  omega

theorem wrap32_range (x : Int) : INT_MIN ≤ wrap32 x ∧ wrap32 x ≤ INT_MAX := by
  unfold INT_MIN INT_MAX wrap32
  omega

theorem romanLoop_range (cs : List Char) (total prev : Int)
    (h : INT_MIN ≤ total ∧ total ≤ INT_MAX) :
    INT_MIN ≤ romanLoop cs total prev ∧ romanLoop cs total prev ≤ INT_MAX := by
  induction cs generalizing total prev with
  | nil => simpa [romanLoop] using h
  | cons c rest ih =>
    simp only [romanLoop]
    exact ih _ _ (wrap32_range _)

theorem romanToInt_range (s : List Char) :
    INT_MIN ≤ romanToInt s ∧ romanToInt s ≤ INT_MAX :=
  romanLoop_range _ 0 0 (by decide)

theorem romanToInt_eq (s : List Char) (h : s.length ≤ 2147483648) :
    romanToInt s = romanLoop s.reverse 0 0 := by
  have hw : (wrap32 ((s.length : Int) - 1) + 1).toNat = s.length := by
    by_cases h0 : s.length = 0
    · rw [h0]; decide
    · rw [wrap32_of_range _ (by unfold INT_MIN; omega) (by unfold INT_MAX; omega)]
      omega
  unfold romanToInt
  rw [hw, List.take_length]

theorem romanLoop_bounds (cs : List Char) (total prev : Int)
    (hprev : prev = 0 ∨ prev = 1 ∨ prev = 5 ∨ prev = 10)
    (hslack : (if prev = 10 then 6 else if prev = 5 then 1 else 0) ≤ total)
    (hmax : total + 10 * (cs.length : Int) ≤ INT_MAX) :
    0 ≤ romanLoop cs total prev ∧ romanLoop cs total prev ≤ total + 10 * (cs.length : Int) := by
  induction cs generalizing total prev with
  | nil =>
    simp only [romanLoop, List.length_nil, Nat.cast_zero, mul_zero, add_zero, le_refl, and_true]
    rcases hprev with h | h | h | h <;> subst h <;> simp at hslack <;> omega
  | cons c rest ih =>
    simp only [romanLoop, List.length_cons, Nat.cast_add, Nat.cast_one] at hmax ⊢
    have hstep : (if romanValue c = 10 then (6 : Int) else if romanValue c = 5 then 1 else 0)
          ≤ (if romanValue c < prev then total - romanValue c else total + romanValue c)
        ∧ (if romanValue c < prev then total - romanValue c else total + romanValue c)
          ≤ total + 10 := by
      rcases romanValue_cases c with hv | hv | hv | hv <;>
        rcases hprev with h | h | h | h <;> subst h <;> simp [hv] at hslack ⊢ <;> omega
    have hlo : (0 : Int)
        ≤ (if romanValue c < prev then total - romanValue c else total + romanValue c) := by
      have := hstep.1
      rcases romanValue_cases c with hv | hv | hv | hv <;> simp [hv] at this ⊢ <;> omega
    have hwrap := wrap32_of_range
      (if romanValue c < prev then total - romanValue c else total + romanValue c)
      (by unfold INT_MIN; omega) (by have := hstep.2; omega)
    rw [hwrap]
    have := ih _ _ (romanValue_cases c) hstep.1 (by have := hstep.2; omega)
    refine ⟨this.1, ?_⟩
    have h2 := hstep.2
    omega

theorem romanToInt_bounds (s : List Char) (h : s.length ≤ 214748364) :
    0 ≤ romanToInt s ∧ romanToInt s ≤ 10 * (s.length : Int) := by
  rw [romanToInt_eq s (by omega)]
  have := romanLoop_bounds s.reverse 0 0 (Or.inl rfl) (by simp)
    (by simp only [List.length_reverse]; unfold INT_MAX; omega)
  simpa [romanToInt] using this

/-- C6. Roman numeral correctness: `romanToInt` returns n on the standard subtractive roman
numeral of every n from 1 to 39, and 3, 9, 14 and 1 on `III`, `IX`, `XIV` and `I`. -/
theorem C6_roman_numerals :
    (∀ n : Nat, 1 ≤ n → n ≤ 39 → romanToInt (standardRoman n) = (n : Int))
    ∧ romanToInt "III".toList = 3 ∧ romanToInt "IX".toList = 9
    ∧ romanToInt "XIV".toList = 14 ∧ romanToInt "I".toList = 1 := by
  refine ⟨?_, by decide, by decide, by decide, by decide⟩
  intro n h1 h2
  interval_cases n <;> decide

/-- Witness of C6 at n = 14, whose standard numeral is `XIV`. -/
theorem C6_roman_numerals_witness :
    standardRoman 14 = "XIV".toList ∧ romanToInt (standardRoman 14) = 14 :=
  ⟨by decide, C6_roman_numerals.1 14 (by decide) (by decide)⟩

/-! ### The cue matcher -/

theorem parseNumber_ok (core : List Char) (hne : core ≠ [])
    (hall : ∀ c ∈ core, inClass [('0', '9'), ('I', 'I'), ('V', 'V'), ('X', 'X')] c = true)
    (n : Int) (h : parseNumber core = .ok n) :
    (INT_MIN ≤ n ∧ n ≤ INT_MAX)
      ∧ (core.length ≤ 214748364 ∨ (∃ c rest, core = c :: rest ∧ isDigit c = true) → 0 ≤ n) := by
  unfold parseNumber at h
  rw [stoi_core core hne hall] at h
  by_cases hd : (core.takeWhile isDigit).isEmpty = true
  · simp only [hd, if_true, Except.ok.injEq] at h
    rw [← h]
    refine ⟨romanToInt_range core, fun hlen => ?_⟩
    rcases hlen with hlen | ⟨c, rest, hc, hdig⟩
    · exact (romanToInt_bounds core hlen).1
    · rw [hc, List.takeWhile_cons, hdig] at hd
      simp at hd
  · simp only [hd, Bool.false_eq_true, if_false] at h
    by_cases hmax : INT_MAX < digitsValue (core.takeWhile isDigit)
    · simp [hmax] at h
    · simp only [hmax, if_false, Except.ok.injEq] at h
      rw [← h]
      have h0 := digitsValue_nonneg core
      refine ⟨⟨?_, by omega⟩, fun _ => h0⟩
      unfold INT_MIN; omega

theorem regexMatch_some (r : Regex) (text : List Char) (m : MatchResults)
    (h : regexMatch r text = some m) : m.whole = text ∧ m.size = r.markCount + 1 := by
  unfold regexMatch at h
  split at h
  · simp only [Option.some.injEq] at h
    subst h; exact ⟨rfl, rfl⟩
  · simp at h

theorem lookup_mem {β : Type} (l : List (String × β)) (k : String) (v : β)
    (h : l.lookup k = some v) : v ∈ l.map Prod.snd := by
  induction l with
  | nil => simp at h
  | cons e rest ih =>
    obtain ⟨k0, v0⟩ := e
    rw [List.lookup_cons] at h
    split at h
    · simp only [Option.some.injEq] at h
      simp [h]
    · simp only [List.map_cons, List.mem_cons]
      exact Or.inr (ih h)

theorem translations_markCount :
    ∀ t ∈ translations.map Prod.snd, t.1.markCount = 0 ∧ t.2.markCount = 0 := by
  decide

theorem cue_markCount (lang : String) (tablesOnly : Bool) :
    (if tablesOnly then
        captionCue (match translations.lookup lang with
          | some t => t
          | none => (figureForms "Figure" "FIGURE", tableForms "Table" "TABLE")).2
      else
        captionCue (match translations.lookup lang with
          | some t => t
          | none => (figureForms "Figure" "FIGURE", tableForms "Table" "TABLE")).1).markCount
      = 1 := by
  have key : ∀ t : Regex × Regex, t.1.markCount = 0 ∧ t.2.markCount = 0 →
      (if tablesOnly then captionCue t.2 else captionCue t.1).markCount = 1 := by
    intro t ht
    cases tablesOnly <;> simp [captionCue, Regex.markCount, ht.1, ht.2]
  apply key
  cases hl : translations.lookup lang with
  | none => decide
  | some t => exact translations_markCount t (lookup_mem _ _ _ hl)

theorem constructCandidate_ok (word : WordPtr) (page : Int) (ls bs tablesOnly : Bool)
    (lang : String) (cc : CaptionCandidate)
    (h : constructCandidate word page ls bs tablesOnly lang = .ok cc) :
    cc = CaptionCandidate.invalid
    ∨ (cc.word = word ∧ word.tail ≠ [] ∧ cc.lineStart = ls ∧ cc.blockStart = bs
        ∧ cc.page = page ∧ (INT_MIN ≤ cc.number ∧ cc.number ≤ INT_MAX) ∧ cc.caps = false
        ∧ cc.abbreviated = false) := by
  unfold constructCandidate at h
  split at h
  · left; simpa using h.symm
  · left; simpa using h.symm
  · rename_i w nw rest
    simp only at h
    split at h
    · left; simpa using h.symm
    · rename_i wordMatch hwm
      split at h
      · left; simpa using h.symm
      · rename_i numberMatch hnm
        obtain ⟨_, hne, hall⟩ := numberRegex_core _ _ hnm
        split at h
        · simp at h
        · rename_i number hnum
          have hnonneg := (parseNumber_ok _ hne hall number hnum).1
          split at h
          · simp at h
          · split at h
            · simp at h
            · right
              simp only [Except.ok.injEq] at h
              have hsize := (regexMatch_some _ _ _ hwm).2
              rw [cue_markCount lang tablesOnly] at hsize
              subst h
              refine ⟨rfl, by simp, rfl, rfl, rfl, hnonneg, ?_, ?_⟩
              · simp [MatchResults.sub, hsize]
              · simp [MatchResults.sub, hsize]

theorem parseNumber_error (core : List Char) (hne : core ≠ [])
    (hall : ∀ c ∈ core, inClass [('0', '9'), ('I', 'I'), ('V', 'V'), ('X', 'X')] c = true)
    (e : Exn) (h : parseNumber core = .error e) :
    e = .out_of_range ∧ INT_MAX < digitsValue (core.takeWhile isDigit) := by
  unfold parseNumber at h
  rw [stoi_core core hne hall] at h
  by_cases hd : (core.takeWhile isDigit).isEmpty = true
  · simp [hd] at h
  · simp only [hd, Bool.false_eq_true, if_false] at h
    by_cases hmax : INT_MAX < digitsValue (core.takeWhile isDigit)
    · simp only [hmax, if_true, Except.error.injEq] at h
      exact ⟨h.symm, hmax⟩
    · simp [hmax] at h

theorem strAt_ok (s : List Char) (i : Nat) (h : i < s.length) : ∃ c, strAt s i = .ok c := by
  unfold strAt
  rw [List.get?_eq_get h]
  exact ⟨_, rfl⟩

theorem numberRegex_nil : regexMatch numberRegex [] = none := by decide

/-! ### C strings -/

theorem cstr_eq_self (s : List Char) (h : ∀ c ∈ s, c.toNat ≠ 0) : cstr s = s := by
  unfold cstr
  rw [List.takeWhile_eq_self_iff]
  intro c hc
  simpa using h c hc

theorem cstr_nul_free (s : List Char) : ∀ c ∈ cstr s, c.toNat ≠ 0 := by
  intro c hc
  unfold cstr at hc
  simpa using List.mem_takeWhile_imp hc

theorem cstr_idem (s : List Char) : cstr (cstr s) = cstr s :=
  cstr_eq_self _ (cstr_nul_free s)

theorem translations_nil :
    ∀ t ∈ translations.map Prod.snd,
      regexMatch (captionCue t.1) [] = none ∧ regexMatch (captionCue t.2) [] = none := by
  decide

theorem cue_nil (lang : String) (tablesOnly : Bool) :
    regexMatch (if tablesOnly then
        captionCue (match translations.lookup lang with
          | some t => t
          | none => (figureForms "Figure" "FIGURE", tableForms "Table" "TABLE")).2
      else
        captionCue (match translations.lookup lang with
          | some t => t
          | none => (figureForms "Figure" "FIGURE", tableForms "Table" "TABLE")).1) [] = none := by
  have key : ∀ t : Regex × Regex,
      regexMatch (captionCue t.1) [] = none ∧ regexMatch (captionCue t.2) [] = none →
      regexMatch (if tablesOnly then captionCue t.2 else captionCue t.1) [] = none := by
    intro t ht
    cases tablesOnly
    · simpa using ht.1
    · simpa using ht.2
  apply key
  cases hl : translations.lookup lang with
  | none => decide
  | some t => exact translations_nil t (lookup_mem _ _ _ hl)

theorem constructCandidate_error (word : WordPtr) (page : Int) (ls bs tablesOnly : Bool)
    (lang : String) (e : Exn)
    (h : constructCandidate word page ls bs tablesOnly lang = .error e) :
    e = .out_of_range
    ∧ ∃ w nw rest m, word = w :: nw :: rest
        ∧ regexMatch numberRegex (cstr nw.text.toList) = some m
        ∧ INT_MAX < digitsValue ((m.sub 2).takeWhile isDigit) := by
  unfold constructCandidate at h
  split at h
  · simp at h
  · simp at h
  · rename_i w nw rest
    simp only at h
    split at h
    · simp at h
    · rename_i wordMatch hwm
      split at h
      · simp at h
      · rename_i numberMatch hnm
        obtain ⟨hwhole, hne, hall⟩ := numberRegex_core _ _ hnm
        split at h
        · rename_i e2 hnum
          simp only [Except.error.injEq] at h
          subst h
          obtain ⟨h1, h2⟩ := parseNumber_error _ hne hall _ hnum
          exact ⟨h1, w, nw, rest, numberMatch, rfl, hnm, h2⟩
        · exfalso
          have htext : cstr nw.text.toList ≠ [] := by
            intro h0; rw [h0, numberRegex_nil] at hnm; simp at hnm
          have hs0 : numberMatch.sub 0 = cstr nw.text.toList := by
            simp [MatchResults.sub, hwhole]
          have hwtext : cstr w.text.toList ≠ [] := by
            intro h0; rw [h0, cue_nil lang tablesOnly] at hwm; simp at hwm
          have hw0 : wordMatch.sub 0 = cstr w.text.toList := by
            simp [MatchResults.sub, (regexMatch_some _ _ _ hwm).1]
          obtain ⟨c1, hc1⟩ := strAt_ok (numberMatch.sub 0) ((numberMatch.sub 0).length - 1)
            (by rw [hs0]; have := List.length_pos.mpr htext; omega)
          obtain ⟨c2, hc2⟩ := strAt_ok (wordMatch.sub 0) 0
            (by rw [hw0]; exact List.length_pos.mpr hwtext)
          rw [hc1] at h
          simp only at h
          rw [hc2] at h
          simp at h

/-- C5, the failing input: on the line `Figure 2147483648` the cue and the number pattern
match, `std::stoi` throws `out_of_range`, the handler of `constructCandidate` only catches
`invalid_argument`, and the exception leaves `collectCandidates` and
`extractCaptionsFromText`. -/
theorem C5_out_of_range_escapes :
    stoi "2147483648".toList = .error .out_of_range
    ∧ constructCandidate [⟨"Figure", false, false⟩, ⟨"2147483648", false, false⟩]
        0 true true false "en" = .error .out_of_range
    ∧ collectCandidates overflowPage false "en" = .error .out_of_range
    ∧ extractCaptionsFromText overflowPage false false "en" = .error .out_of_range :=
  ⟨rfl, rfl, rfl, rfl⟩

/-- C10, the failing inputs: the cue pattern has one parenthesis, so `wordMatch[2]` and
`wordMatch[3]` are empty; `FIGURE 1` gives a candidate whose `caps` flag is false, and
`Fig. 1` one whose `abbreviated` flag is false. -/
theorem C10_flags_not_recorded :
    constructCandidate [⟨"FIGURE", false, false⟩, ⟨"1", false, false⟩] 0 true true false "en"
        = .ok ⟨[⟨"FIGURE", false, false⟩, ⟨"1", false, false⟩], true, true, .FIGURE, 1, 0,
            false, false, false, false⟩
    ∧ constructCandidate [⟨"Fig.", false, false⟩, ⟨"1", false, false⟩] 0 true true false "en"
        = .ok ⟨[⟨"Fig.", false, false⟩, ⟨"1", false, false⟩], true, true, .FIGURE, 1, 0,
            false, false, false, false⟩ :=
  ⟨rfl, rfl⟩

/-! ### Single groups -/

theorem applyFilter_pair (f : CandidateFilter) (k : FigureId) (a b : CaptionCandidate) :
    applyFilter f [(k, [a, b])] =
      if f.check a = f.check b then (false, [(k, [a, b])])
      else (true, [(k, [if f.check a then a else b])]) := by
  rw [applyFilter_eq]
  cases ha : f.check a <;> cases hb : f.check b <;> cases hg : f.asGroup <;>
    simp [blocked, narrows, List.filter_cons, ha, hb, hg, eraseLoop]

theorem tryFilters_pair_none (fs : List CandidateFilter) (k : FigureId)
    (a b : CaptionCandidate) (h : ∀ f ∈ fs, f.check a = f.check b) :
    tryFilters fs [(k, [a, b])] = none := by
  rw [tryFilters_none]
  intro f hf
  rw [applyFilter_pair, if_pos (h f hf)]

theorem tryFilters_pair_some (pre : List CandidateFilter) (f : CandidateFilter)
    (post : List CandidateFilter) (k : FigureId) (a b : CaptionCandidate)
    (hpre : ∀ g ∈ pre, g.check a = g.check b) (hf : f.check a ≠ f.check b) :
    tryFilters (pre ++ f :: post) [(k, [a, b])]
      = some (f.name, [(k, [if f.check a then a else b])]) := by
  induction pre with
  | nil =>
    simp only [List.nil_append, tryFilters]
    rw [applyFilter_pair, if_neg hf]
    simp
  | cons g rest ih =>
    simp only [List.cons_append, tryFilters]
    rw [applyFilter_pair, if_pos (hpre g (by simp))]
    simp only [Bool.false_eq_true, if_false]
    exact ih (fun g2 hg2 => hpre g2 (by simp [hg2]))

/-- C7. Scenario B generalised: a collection of one group with two candidates is resolved,
with the ten filters in their fixed order, to the one candidate that satisfies the first
filter of the list on which the two differ (that filter alone is applied, and the output is
the single record of that candidate); it is left as it is when the two differ on no filter. -/
theorem C7_two_candidates (k : FigureId) (a b : CaptionCandidate) :
    filters.map (fun f => f.name)
        = ["Colon Only", "Period Only", "Bold Only", "Italic Only", "Only All Caps Figures",
            "Only Abbreviated Figures", "No Next Word", "Block Start Only", "Line Start Only",
            "Next Word Only"]
    ∧ ((∀ f ∈ filters, f.check a = f.check b) →
        ∀ fuel, resolveLoop filters (fuel + 1) [(k, [a, b])] = some ([(k, [a, b])], []))
    ∧ (∀ (pre : List CandidateFilter) (f : CandidateFilter) (post : List CandidateFilter),
        filters = pre ++ f :: post → (∀ g ∈ pre, g.check a = g.check b) →
        f.check a ≠ f.check b →
        (∀ fuel, resolveLoop filters (fuel + 2) [(k, [a, b])]
            = some ([(k, [if f.check a then a else b])], [f.name]))
        ∧ f.check (if f.check a then a else b) = true
        ∧ buildOutput [(k, [if f.check a then a else b])]
            = [((if f.check a then a else b).page,
                [(if f.check a then a else b).toCaptionStart])]) := by
  refine ⟨by decide, ?_, ?_⟩
  · intro h fuel
    exact resolveLoop_of_stable filters fuel _ (Or.inr (tryFilters_pair_none filters k a b h))
  · intro pre f post hfs hpre hf
    refine ⟨?_, ?_, ?_⟩
    · intro fuel
      have ht := tryFilters_pair_some pre f post k a b hpre hf
      rw [← hfs] at ht
      have hnext : resolveLoop filters (fuel + 1) [(k, [if f.check a then a else b])]
          = some ([(k, [if f.check a then a else b])], []) :=
        resolveLoop_of_stable filters fuel _ (Or.inl (by simp [anyDuplicates]))
      rw [resolveLoop]
      have hd : anyDuplicates [(k, [a, b])] = true := by simp [anyDuplicates]
      simp only [hd, if_true, ht, hnext, Option.map_some']
    · cases ha : f.check a
      · cases hb : f.check b
        · rw [ha, hb] at hf; exact absurd rfl hf
        · simp [hb]
      · simp [ha]
    · simp [buildOutput, addGroup, outputPush]

/-- Witness of C7, scenario B: two sightings of `Figure 2:`, one bold at a line start, one
neither, agree on the colon-only and period-only filters and differ on bold-only; the loop
applies that filter alone and leaves the bold sighting, and the document gives one Caption
Start; two identical sightings differ on no filter and are both kept. -/
theorem C7_two_candidates_witness :
    collectCandidates scenarioB false "en" = .ok [(2, [scenarioB_bold, scenarioB_plain])]
    ∧ resolveLoop filters 2 [(2, [scenarioB_bold, scenarioB_plain])]
        = some ([(2, [scenarioB_bold])], ["Bold Only"])
    ∧ extractCaptionsFromText scenarioB false false "en"
        = .ok [(0, [⟨0, 2, scenarioB_bold.word, .FIGURE⟩])]
    ∧ resolveLoop filters 1 [(2, [scenarioB_bold, scenarioB_bold])]
        = some ([(2, [scenarioB_bold, scenarioB_bold])], []) :=
  ⟨rfl,
    ((C7_two_candidates 2 scenarioB_bold scenarioB_plain).2.2 [ColonOnly, PeriodOnly] BoldOnly
      [ItalicOnly, AllCapsFiguresOnly, AbbrevFiguresOnly, NoNextWord, BlockStartOnly,
        LineStartOnly, NextWordOnly] rfl
      (by intro g hg
          simp only [List.mem_cons, List.mem_singleton, List.not_mem_nil, or_false] at hg
          rcases hg with rfl | rfl <;> rfl)
      (by decide)).1 0,
    rfl,
    (C7_two_candidates 2 scenarioB_bold scenarioB_bold).2.1 (fun _ _ => rfl) 0⟩

theorem filter_all_or_none (f : CandidateFilter) (g : List CaptionCandidate)
    (h : ∀ x ∈ g, ∀ y ∈ g, f.check x = f.check y) :
    g.filter f.check = g ∨ g.filter f.check = [] := by
  by_cases hex : ∃ x ∈ g, f.check x = true
  · obtain ⟨x, hx, hcx⟩ := hex
    left
    rw [List.filter_eq_self]
    intro y hy
    rw [← h x hx y hy]; exact hcx
  · right
    rw [List.filter_eq_nil_iff]
    intro y hy hcy
    exact hex ⟨y, hy, hcy⟩

theorem applyFilter_agree (f : CandidateFilter) (k : FigureId) (g : List CaptionCandidate)
    (h : ∀ x ∈ g, ∀ y ∈ g, f.check x = f.check y) :
    applyFilter f [(k, g)] = (false, [(k, g)]) := by
  rw [applyFilter_eq]
  have hn : narrows f [(k, g)] = false := by
    rcases filter_all_or_none f g h with h1 | h1 <;> simp [narrows, h1]
  simp [hn]

theorem resolve_eq_of_loop (c : CandidateCollection) (r : CandidateCollection × List String)
    (h : ∀ fuel, resolveLoop filters (fuel + 1) c = some r) : resolve c = r.1 := by
  simp [resolve, h (totalCandidates c)]

/-- C8. Scenarios A and C generalised: on a collection of one group of n >= 1 candidates that
agree on all ten filter predicates, no `applyFilter` call reports effect, the resolution loop
returns the group unchanged with an empty trace, and the output holds exactly the n records of
the candidates when n <= 2 and is empty when n >= 3. -/
theorem C8_indistinguishable (k : FigureId) (g : List CaptionCandidate) (hne : 1 ≤ g.length)
    (hagree : ∀ f ∈ filters, ∀ x ∈ g, ∀ y ∈ g, f.check x = f.check y) :
    (∀ f ∈ filters, applyFilter f [(k, g)] = (false, [(k, g)]))
    ∧ (∀ fuel, resolveLoop filters (fuel + 1) [(k, g)] = some ([(k, g)], []))
    ∧ resolve [(k, g)] = [(k, g)]
    ∧ (g.length ≤ 2 →
        List.Perm (buildOutput (resolve [(k, g)])).records
          (g.map CaptionCandidate.toCaptionStart)
        ∧ (buildOutput (resolve [(k, g)])).records.length = g.length)
    ∧ (3 ≤ g.length → buildOutput (resolve [(k, g)]) = []) := by
  have happ : ∀ f ∈ filters, applyFilter f [(k, g)] = (false, [(k, g)]) :=
    fun f hf => applyFilter_agree f k g (hagree f hf)
  have hloop : ∀ fuel, resolveLoop filters (fuel + 1) [(k, g)] = some ([(k, g)], []) := by
    intro fuel
    refine resolveLoop_of_stable filters fuel _ (Or.inr ?_)
    rw [tryFilters_none]
    intro f hf
    rw [happ f hf]
  have hres : resolve [(k, g)] = [(k, g)] := resolve_eq_of_loop _ _ hloop
  refine ⟨happ, hloop, hres, ?_, ?_⟩
  · intro h2
    rw [hres]
    have h12 : g.length = 1 ∨ g.length = 2 := by omega
    have hp := (foldGroups_spec [(k, g)] [] Output.wellFormed_nil).2.2
    have hacc : acceptedCandidates [(k, g)] = g := by
      simp [acceptedCandidates, List.filter_cons, h12]
    rw [hacc] at hp
    have hp2 : List.Perm (buildOutput [(k, g)]).records
        (g.map CaptionCandidate.toCaptionStart) := by
      simpa [buildOutput, Output.records] using hp
    exact ⟨hp2, by rw [hp2.length_eq, List.length_map]⟩
  · intro h3
    rw [hres]
    have : ¬ g.length ≤ 2 := by omega
    simp [buildOutput, addGroup, this]

theorem scenarioA_collected :
    collectCandidates scenarioA false "en"
      = .ok [(1, [⟨[⟨"Figure", true, false⟩, ⟨"1.", false, false⟩, ⟨"Overview", false, false⟩],
          true, true, .FIGURE, 1, 0, true, false, false, false⟩])] := rfl

/-- Witness of C8, scenarios A and C: the lone `Figure 1.` of page 0 yields the one Caption
Start (page 0, number 1, Figure), and the three indistinguishable `Table 3` sightings stay a
group of three and yield no Caption Start. -/
theorem C8_indistinguishable_witness :
    extractCaptionsFromText scenarioA false false "en"
        = .ok [(0, [⟨0, 1, [⟨"Figure", true, false⟩, ⟨"1.", false, false⟩,
            ⟨"Overview", false, false⟩], .FIGURE⟩])]
    ∧ (buildOutput (resolve [(1, [⟨[⟨"Figure", true, false⟩, ⟨"1.", false, false⟩,
          ⟨"Overview", false, false⟩], true, true, .FIGURE, 1, 0, true, false, false,
          false⟩])])).records.length = 1
    ∧ collectCandidates scenarioC true "en"
        = .ok [(-3, [scenarioC_table, scenarioC_table, scenarioC_table])]
    ∧ resolveLoop filters 1 [(-3, [scenarioC_table, scenarioC_table, scenarioC_table])]
        = some ([(-3, [scenarioC_table, scenarioC_table, scenarioC_table])], [])
    ∧ buildOutput (resolve [(-3, [scenarioC_table, scenarioC_table, scenarioC_table])]) = []
    ∧ extractCaptionsFromText scenarioC false true "en" = .ok [] :=
  ⟨rfl,
    ((C8_indistinguishable 1 [⟨[⟨"Figure", true, false⟩, ⟨"1.", false, false⟩,
        ⟨"Overview", false, false⟩], true, true, .FIGURE, 1, 0, true, false, false, false⟩]
      (by decide) (by intro f _ x hx y hy
                      simp only [List.mem_singleton] at hx hy
                      rw [hx, hy])).2.2.2.1 (by decide)).2,
    rfl,
    (C8_indistinguishable (-3) [scenarioC_table, scenarioC_table, scenarioC_table]
      (by decide) (by intro f _ x hx y hy
                      simp only [List.mem_cons, List.mem_singleton, List.not_mem_nil,
                        or_false, or_self] at hx hy
                      rw [hx, hy])).2.1 0,
    (C8_indistinguishable (-3) [scenarioC_table, scenarioC_table, scenarioC_table]
      (by decide) (by intro f _ x hx y hy
                      simp only [List.mem_cons, List.mem_singleton, List.not_mem_nil,
                        or_false, or_self] at hx hy
                      rw [hx, hy])).2.2.2.2 (by decide),
    rfl⟩

/-! ### The three outcomes of `applyFilter` -/

theorem eraseLoop_eq_rebuild (f : CandidateFilter) (g : List CaptionCandidate) :
    eraseLoop f [] g = rebuildGroup f g := by
  rw [eraseLoop_nil, rebuildGroup]
  by_cases h : g.filter f.check = []
  · have hany : g.any f.check = false := by
      rw [List.filter_eq_nil_iff] at h
      rw [Bool.eq_false_iff]
      intro hc
      rw [List.any_eq_true] at hc
      obtain ⟨x, hx, hcx⟩ := hc
      exact h x hx hcx
    simp [h, hany]
  · have hany : g.any f.check = true := by
      rw [List.any_eq_true]
      obtain ⟨x, hx⟩ := List.exists_mem_of_ne_nil _ h
      rw [List.mem_filter] at hx
      exact ⟨x, hx.1, hx.2⟩
    simp [h, hany]

/-- C16. Applied filter equals rebuild-from-survivors: when `applyFilter` reports effect, the
keys stay and, position by position, the erase loop leaves the group rebuilt from its
survivors: the candidates that satisfy the predicate, in their order, when the group has one;
the last candidate alone when no candidate satisfies it; and the group itself when it had
size 1. -/
theorem C16_erase_equals_rebuild (f : CandidateFilter) (c : CandidateCollection)
    (h : (applyFilter f c).1 = true) :
    (applyFilter f c).2 = c.map (fun g => (g.1, rebuildGroup f g.2))
    ∧ List.Forall₂ (fun g g2 => g2.1 = g.1
        ∧ ((∃ cc ∈ g.2, f.check cc = true) → g2.2 = g.2.filter f.check)
        ∧ ((∀ cc ∈ g.2, f.check cc = false) → ∀ hne : g.2 ≠ [], g2.2 = [g.2.getLast hne])
        ∧ (g.2.length = 1 → g2.2 = g.2)) c (applyFilter f c).2 := by
  obtain ⟨_, _, he⟩ := applyFilter_true f c h
  rw [he]
  refine ⟨?_, ?_⟩
  · apply List.map_congr_left
    intro g _
    rw [eraseLoop_eq_rebuild]
  · rw [List.forall₂_map_right_iff, List.forall₂_same]
    intro g _
    refine ⟨rfl, ?_, ?_, ?_⟩
    · rintro ⟨cc, hcc, hck⟩
      have hne : g.2.filter f.check ≠ [] := by
        intro h0
        rw [List.filter_eq_nil_iff] at h0
        exact h0 cc hcc hck
      simp [eraseLoop_nil, hne]
    · intro hall hne
      have h0 : g.2.filter f.check = [] := by
        rw [List.filter_eq_nil_iff]
        intro cc hcc
        simp [hall cc hcc]
      simp [eraseLoop_nil, h0, List.getLast?_eq_getLast _ hne]
    · intro h1
      obtain ⟨cc, hcc⟩ := List.length_eq_one.mp h1
      simp only
      rw [hcc]
      by_cases hck : f.check cc <;> simp [eraseLoop, hck]

/-- Witness of C16: the line-start-only filter on two groups; the group of `Figure 2:` keeps
the sighting at a line start, and the group of `Figure 3.`, with no sighting at a line start,
keeps its last candidate. -/
theorem C16_erase_equals_rebuild_witness :
    applyFilter LineStartOnly
        [(2, [scenarioB_bold, scenarioB_plain]), (3, [midLine_first, midLine_second])]
      = (true, [(2, [scenarioB_bold]), (3, [midLine_second])])
    ∧ (applyFilter LineStartOnly
        [(2, [scenarioB_bold, scenarioB_plain]), (3, [midLine_first, midLine_second])]).2
      = [(2, [scenarioB_bold, scenarioB_plain]), (3, [midLine_first, midLine_second])].map
          (fun g => (g.1, rebuildGroup LineStartOnly g.2)) :=
  ⟨by decide,
    (C16_erase_equals_rebuild LineStartOnly
      [(2, [scenarioB_bold, scenarioB_plain]), (3, [midLine_first, midLine_second])]
      (by decide)).1⟩

/-- C17. Has-effect criterion: `applyFilter` returns true exactly when (a) it is not the case
that the filter is required-as-group and some group has no satisfying candidate, and (b) some
group has a number of satisfying candidates that is at least 1 and below its size. -/
theorem C17_has_effect_iff (f : CandidateFilter) (c : CandidateCollection) :
    (applyFilter f c).1 = true
      ↔ (¬ (f.asGroup = true ∧ ∃ g ∈ c, g.2.countP f.check = 0))
        ∧ ∃ g ∈ c, 1 ≤ g.2.countP f.check ∧ g.2.countP f.check < g.2.length := by
  rw [applyFilter_eq]
  have hb : blocked f c = true ↔ (f.asGroup = true ∧ ∃ g ∈ c, g.2.countP f.check = 0) := by
    simp [blocked, List.countP_eq_length_filter]
  have hn : narrows f c = true
      ↔ ∃ g ∈ c, 1 ≤ g.2.countP f.check ∧ g.2.countP f.check < g.2.length := by
    simp [narrows, List.countP_eq_length_filter]
  rw [← hb, ← hn]
  cases blocked f c <;> cases narrows f c <;> simp

/-- C18. Rejection leaves the collection untouched: whenever `applyFilter` returns false the
collection it leaves is the collection it was given, and it does return false when the
filter is required-as-group and some group has no satisfying candidate. -/
theorem C18_rejection_untouched (f : CandidateFilter) (c : CandidateCollection) :
    ((applyFilter f c).1 = false → (applyFilter f c).2 = c)
    ∧ (f.asGroup = true → (∃ g ∈ c, g.2.countP f.check = 0) →
        applyFilter f c = (false, c)) := by
  refine ⟨applyFilter_false f c, ?_⟩
  intro ha hz
  have hb : blocked f c = true := by
    simp only [blocked, ha, Bool.true_and, List.any_eq_true, decide_eq_true_eq]
    obtain ⟨g, hg, h0⟩ := hz
    exact ⟨g, hg, by rw [← List.countP_eq_length_filter]; exact h0⟩
  rw [applyFilter_eq, hb]
  simp

/-- Witness of C18: the period-only filter, required as group, meets the group of the two
`Figure 2:` sightings, none of which ends in a period, next to the group of `Figure 1.`; it
returns false and the collection is the one it was given. -/
theorem C18_rejection_untouched_witness :
    (applyFilter PeriodOnly
        [(2, [scenarioB_bold, scenarioB_plain]), (1, [twoFigures_one])]).2
      = [(2, [scenarioB_bold, scenarioB_plain]), (1, [twoFigures_one])]
    ∧ applyFilter PeriodOnly
        [(2, [scenarioB_bold, scenarioB_plain]), (1, [twoFigures_one])]
      = (false,
          [(2, [scenarioB_bold, scenarioB_plain]), (1, [twoFigures_one])]) :=
  ⟨(C18_rejection_untouched PeriodOnly
      [(2, [scenarioB_bold, scenarioB_plain]), (1, [twoFigures_one])]).1
      (by decide),
    (C18_rejection_untouched PeriodOnly
      [(2, [scenarioB_bold, scenarioB_plain]), (1, [twoFigures_one])]).2
      rfl ⟨(2, [scenarioB_bold, scenarioB_plain]), by simp, by decide⟩⟩

/-! ### Every filter is applied at most once -/

theorem narrows_not_settled (f : CandidateFilter) (c : CandidateCollection)
    (h : narrows f c = true) : settled f c = false := by
  simp only [narrows, List.any_eq_true, Bool.and_eq_true, decide_eq_true_eq] at h
  obtain ⟨g, hg, h1, h2⟩ := h
  rw [Bool.eq_false_iff]
  intro hs
  simp only [settled, List.all_eq_true, Bool.or_eq_true, decide_eq_true_eq] at hs
  rcases hs g hg with h3 | h3
  · have := List.length_filter_le f.check g.2
    omega
  · have : g.2.filter f.check = g.2 := by
      rw [List.filter_eq_self]
      intro x hx
      exact h3 x hx
    rw [this] at h2
    omega

theorem settled_erase_self (f : CandidateFilter) (c : CandidateCollection) :
    settled f (c.map (fun ccs => (ccs.1, eraseLoop f [] ccs.2))) = true := by
  simp only [settled, List.all_eq_true, List.mem_map, Bool.or_eq_true, decide_eq_true_eq]
  rintro g ⟨g0, _, rfl⟩
  simp only
  rw [eraseLoop_nil]
  split
  · left
    cases g0.2.getLast? <;> simp
  · right
    intro x hx
    exact (List.mem_filter.mp hx).2

theorem settled_erase_other (f g : CandidateFilter) (c : CandidateCollection)
    (h : settled f c = true) :
    settled f (c.map (fun ccs => (ccs.1, eraseLoop g [] ccs.2))) = true := by
  simp only [settled, List.all_eq_true, List.mem_map, Bool.or_eq_true, decide_eq_true_eq]
    at h ⊢
  rintro grp ⟨g0, hg0, rfl⟩
  simp only
  rcases h g0 hg0 with h1 | h1
  · left
    have := eraseLoop_length_le g g0.2
    omega
  · right
    intro x hx
    exact h1 x ((eraseLoop_sublist g g0.2).subset hx)

theorem countP_lt_of {α : Type} (l : List α) (p q : α → Bool)
    (himp : ∀ x ∈ l, q x = true → p x = true) (hex : ∃ x ∈ l, p x = true ∧ q x = false) :
    l.countP q < l.countP p := by
  induction l with
  | nil => obtain ⟨x, hx, _⟩ := hex; simp at hx
  | cons a rest ih =>
    have hle : rest.countP q ≤ rest.countP p := by
      apply List.countP_mono_left
      intro x hx hq
      exact himp x (by simp [hx]) hq
    obtain ⟨x, hx, hp, hq⟩ := hex
    simp only [List.mem_cons] at hx
    rcases hx with rfl | hx
    · simp [List.countP_cons, hp, hq]
      omega
    · have := ih (fun y hy => himp y (by simp [hy])) ⟨x, hx, hp, hq⟩
      have ha := himp a (by simp)
      simp only [List.countP_cons]
      cases hqa : q a
      · cases hpa : p a <;> simp <;> omega
      · rw [ha hqa]; simp; omega

theorem unsettledCount_applied (fs : List CandidateFilter) (f : CandidateFilter)
    (c : CandidateCollection) (hf : f ∈ fs) (h : (applyFilter f c).1 = true) :
    unsettledCount fs (applyFilter f c).2 < unsettledCount fs c := by
  obtain ⟨_, hn, he⟩ := applyFilter_true f c h
  rw [he]
  unfold unsettledCount
  apply countP_lt_of
  · intro g _ hg
    simp only [Bool.not_eq_true', Bool.eq_false_iff] at hg ⊢
    intro hs
    exact hg (settled_erase_other g f c hs)
  · refine ⟨f, hf, ?_, ?_⟩
    · simp [narrows_not_settled f c hn]
    · simp [settled_erase_self f c]

theorem unsettledCount_le (fs : List CandidateFilter) (c : CandidateCollection) :
    unsettledCount fs c ≤ fs.length :=
  List.countP_le_length _

theorem resolveLoop_trace_le (fs : List CandidateFilter) (fuel : Nat) (c : CandidateCollection)
    (r : CandidateCollection × List String) (h : resolveLoop fs fuel c = some r) :
    r.2.length ≤ unsettledCount fs c := by
  induction fuel generalizing c r with
  | zero => simp [resolveLoop] at h
  | succ n ih =>
    unfold resolveLoop at h
    by_cases hd : anyDuplicates c = true
    · simp only [hd, if_true] at h
      cases ht : tryFilters fs c with
      | none =>
        simp only [ht, Option.some.injEq] at h
        subst h; simp
      | some a =>
        simp only [ht, Option.map_eq_some'] at h
        obtain ⟨r0, hr0, rfl⟩ := h
        obtain ⟨f, hf, hfa, rfl⟩ := tryFilters_some fs c a ht
        have h1 : r0.2.length ≤ unsettledCount fs (applyFilter f c).2 := ih _ r0 hr0
        have h2 := unsettledCount_applied fs f c hf hfa
        simp only [List.length_cons]
        omega
    · simp only [hd, Bool.false_eq_true, if_false, Option.some.injEq] at h
      subst h; simp

theorem resolveLoop_nil (fs : List CandidateFilter) (fuel : Nat)
    (r : CandidateCollection × List String) (h : resolveLoop fs fuel [] = some r) :
    r.2 = [] := by
  cases fuel with
  | zero => simp [resolveLoop] at h
  | succ n =>
    simp only [resolveLoop, anyDuplicates, List.any_nil, Bool.false_eq_true, if_false,
      Option.some.injEq] at h
    subst h; rfl

/-- C19. Bounded refinement loop: for every collection with G groups and the F = 10 fixed
filters, the resolution loop ends (within `totalCandidates + 1` evaluations of its condition),
every `applyFilter` call that reports effect leaves strictly fewer candidates in total, and
the number of filters applied before the loop stops is at most F x G (every filter is applied
at most once, so it is also at most F). -/
theorem C19_bounded_loop (c : CandidateCollection) :
    filters.length = 10
    ∧ (∃ r, resolveLoop filters (totalCandidates c + 1) c = some r)
    ∧ (∀ f : CandidateFilter, (applyFilter f c).1 = true →
        totalCandidates (applyFilter f c).2 < totalCandidates c)
    ∧ (∀ fuel r, resolveLoop filters fuel c = some r →
        r.2.length ≤ filters.length * c.length ∧ r.2.length ≤ filters.length) := by
  refine ⟨rfl, resolveLoop_terminates filters _ c (by omega),
    fun f hf => applyFilter_true_lt f c hf, ?_⟩
  intro fuel r hr
  have h1 := resolveLoop_trace_le filters fuel c r hr
  have h2 := unsettledCount_le filters c
  refine ⟨?_, by omega⟩
  cases c with
  | nil => rw [resolveLoop_nil filters fuel r hr]; simp
  | cons g rest =>
    have : filters.length * 1 ≤ filters.length * (g :: rest).length :=
      Nat.mul_le_mul_left _ (by simp)
    omega

/-- Witness of C19: on two bold and one plain sighting of `Figure 2:` the bold-only filter
reports effect and leaves 2 of the 3 candidates, and the loop stops after that one
application, which is within 10 x 1. -/
theorem C19_bounded_loop_witness :
    totalCandidates
        (applyFilter BoldOnly [(2, [scenarioB_bold, scenarioB_bold, scenarioB_plain])]).2
      < totalCandidates [(2, [scenarioB_bold, scenarioB_bold, scenarioB_plain])]
    ∧ resolveLoop filters 4 [(2, [scenarioB_bold, scenarioB_bold, scenarioB_plain])]
        = some ([(2, [scenarioB_bold, scenarioB_bold])], ["Bold Only"])
    ∧ ["Bold Only"].length
        ≤ filters.length * [(2, [scenarioB_bold, scenarioB_bold, scenarioB_plain])].length :=
  ⟨(C19_bounded_loop [(2, [scenarioB_bold, scenarioB_bold, scenarioB_plain])]).2.2.1 BoldOnly
      (by decide),
    boldBoldPlain_resolved,
    ((C19_bounded_loop [(2, [scenarioB_bold, scenarioB_bold, scenarioB_plain])]).2.2.2 4
      ([(2, [scenarioB_bold, scenarioB_bold])], ["Bold Only"]) boldBoldPlain_resolved).1⟩

/-! ### Literal patterns and their surface forms -/

theorem stripChars_eq_some (cs s s1 : List Char) :
    stripChars cs s = some s1 ↔ s = cs ++ s1 := by
  induction cs generalizing s with
  | nil => simp [stripChars, eq_comm]
  | cons c rest ih =>
    cases s with
    | nil => simp [stripChars]
    | cons x xs =>
      simp only [stripChars, List.cons_append, List.cons.injEq]
      by_cases hx : x = c
      · simp [hx, ih]
      · simp [hx]

theorem run_words_sound (inp : List Char) (r : Regex) (hr : r.literal = true)
    (s : List Char) (caps : Caps) (x : List Char × Caps) (hx : x ∈ Regex.run inp r s caps) :
    ∃ w ∈ r.words, s = w ++ x.1 := by
  induction r generalizing s caps x with
  | chars cs =>
    simp only [Regex.run] at hx
    split at hx
    · rename_i s1 hs
      simp only [List.mem_singleton] at hx
      subst hx
      exact ⟨cs, by simp [Regex.words], (stripChars_eq_some cs s s1).mp hs⟩
    · simp at hx
  | cls rs => simp [Regex.literal] at hr
  | clsPlus rs => simp [Regex.literal] at hr
  | seq a b iha ihb =>
    simp only [Regex.literal, Bool.and_eq_true] at hr
    simp only [Regex.run, List.mem_flatMap] at hx
    obtain ⟨y, hy, hx⟩ := hx
    obtain ⟨u, hu, hs⟩ := iha hr.1 _ _ _ hy
    obtain ⟨v, hv, hs2⟩ := ihb hr.2 _ _ _ hx
    refine ⟨u ++ v, ?_, by rw [hs, hs2, List.append_assoc]⟩
    simp only [Regex.words, List.mem_flatMap, List.mem_map]
    exact ⟨u, hu, v, hv, rfl⟩
  | alt a b iha ihb =>
    simp only [Regex.literal, Bool.and_eq_true] at hr
    simp only [Regex.run, List.mem_append] at hx
    rcases hx with hx | hx
    · obtain ⟨w, hw, hs⟩ := iha hr.1 _ _ _ hx
      exact ⟨w, by simp [Regex.words, hw], hs⟩
    · obtain ⟨w, hw, hs⟩ := ihb hr.2 _ _ _ hx
      exact ⟨w, by simp [Regex.words, hw], hs⟩
  | opt a iha =>
    simp only [Regex.literal] at hr
    simp only [Regex.run, List.mem_append, List.mem_singleton] at hx
    rcases hx with hx | hx
    · obtain ⟨w, hw, hs⟩ := iha hr _ _ _ hx
      exact ⟨w, by simp [Regex.words, hw], hs⟩
    · subst hx
      exact ⟨[], by simp [Regex.words], rfl⟩
  | group n a iha =>
    simp only [Regex.literal] at hr
    simp only [Regex.run, List.mem_map] at hx
    obtain ⟨y, hy, rfl⟩ := hx
    obtain ⟨w, hw, hs⟩ := iha hr _ _ _ hy
    exact ⟨w, by simpa [Regex.words] using hw, hs⟩
  | bol => simp [Regex.literal] at hr
  | eol => simp [Regex.literal] at hr

theorem run_words_complete (inp : List Char) (r : Regex) (hr : r.literal = true)
    (w : List Char) (hw : w ∈ r.words) (rest : List Char) (caps : Caps) :
    ∃ x ∈ Regex.run inp r (w ++ rest) caps, x.1 = rest := by
  induction r generalizing w rest caps with
  | chars cs =>
    simp only [Regex.words, List.mem_singleton] at hw
    subst hw
    refine ⟨(rest, caps), ?_, rfl⟩
    simp only [Regex.run]
    rw [(stripChars_eq_some w (w ++ rest) rest).mpr rfl]
    simp
  | cls rs => simp [Regex.literal] at hr
  | clsPlus rs => simp [Regex.literal] at hr
  | seq a b iha ihb =>
    simp only [Regex.literal, Bool.and_eq_true] at hr
    simp only [Regex.words, List.mem_flatMap, List.mem_map] at hw
    obtain ⟨u, hu, v, hv, rfl⟩ := hw
    obtain ⟨y, hy, hy1⟩ := iha hr.1 u hu (v ++ rest) caps
    obtain ⟨x, hx, hx1⟩ := ihb hr.2 v hv rest y.2
    refine ⟨x, ?_, hx1⟩
    simp only [Regex.run, List.mem_flatMap]
    refine ⟨y, by rw [List.append_assoc]; exact hy, ?_⟩
    rw [hy1]; exact hx
  | alt a b iha ihb =>
    simp only [Regex.literal, Bool.and_eq_true] at hr
    simp only [Regex.words, List.mem_append] at hw
    rcases hw with hw | hw
    · obtain ⟨x, hx, hx1⟩ := iha hr.1 w hw rest caps
      exact ⟨x, by simp [Regex.run, hx], hx1⟩
    · obtain ⟨x, hx, hx1⟩ := ihb hr.2 w hw rest caps
      exact ⟨x, by simp [Regex.run, hx], hx1⟩
  | opt a iha =>
    simp only [Regex.literal] at hr
    simp only [Regex.words, List.mem_append, List.mem_singleton] at hw
    rcases hw with hw | hw
    · obtain ⟨x, hx, hx1⟩ := iha hr w hw rest caps
      exact ⟨x, by simp [Regex.run, hx], hx1⟩
    · subst hw
      exact ⟨(rest, caps), by simp [Regex.run], rfl⟩
  | group n a iha =>
    simp only [Regex.literal] at hr
    simp only [Regex.words] at hw
    obtain ⟨x, hx, hx1⟩ := iha hr w hw rest caps
    refine ⟨(x.1, (n, (w ++ rest).take ((w ++ rest).length - x.1.length)) :: x.2), ?_, hx1⟩
    simp only [Regex.run, List.mem_map]
    exact ⟨x, hx, rfl⟩
  | bol => simp [Regex.literal] at hr
  | eol => simp [Regex.literal] at hr

theorem captionCue_isSome (term : Regex) (hr : term.literal = true) (text : List Char) :
    (regexMatch (captionCue term) text).isSome = true ↔ text ∈ term.words := by
  unfold regexMatch
  have key : ((Regex.run text (captionCue term) text []).find? (fun m => m.1.isEmpty)).isSome
      = true ↔ text ∈ term.words := by
    rw [List.find?_isSome]
    simp only [captionCue, Regex.run, if_true, List.flatMap_cons, List.flatMap_nil,
      List.append_nil, List.mem_flatMap, List.mem_map]
    constructor
    · rintro ⟨x, ⟨y, ⟨z, hz, rfl⟩, hx⟩, hxe⟩
      simp only at hx
      obtain ⟨w, hw, hs⟩ := run_words_sound text term hr _ _ _ hz
      by_cases he : z.1.isEmpty = true
      · have : z.1 = [] := by simpa using he
        rw [this, List.append_nil] at hs
        rw [hs]; exact hw
      · simp [he] at hx
    · intro hmem
      obtain ⟨z, hz, hz1⟩ := run_words_complete text term hr text hmem [] []
      rw [List.append_nil] at hz
      refine ⟨(z.1, (1, text.take (text.length - z.1.length)) :: z.2),
        ⟨_, ⟨z, hz, rfl⟩, ?_⟩, by simp [hz1]⟩
      simp [hz1]
  cases hf : (Regex.run text (captionCue term) text []).find? (fun m => m.1.isEmpty) with
  | none => rw [hf] at key; simpa using key
  | some x => rw [hf] at key; simpa using key

/-! ### The cue pattern of a language -/

theorem translations_literal :
    ∀ t ∈ translations.map Prod.snd, t.1.literal = true ∧ t.2.literal = true := by
  decide

theorem translations_heads :
    ∀ t ∈ translations.map Prod.snd,
      (∀ w ∈ t.1.words, w ≠ [] ∧ w.head? ≠ some 'T') ∧ (∀ w ∈ t.2.words, w.head? = some 'T') := by
  decide

theorem cueOf_isSome (lang : String) (tablesOnly : Bool) (text : List Char) :
    (regexMatch (cueOf lang tablesOnly) text).isSome = true
      ↔ text ∈ cueForms lang tablesOnly := by
  unfold cueOf cueForms
  cases hl : translations.lookup lang with
  | none =>
    cases tablesOnly
    · exact captionCue_isSome _ (by decide) text
    · exact captionCue_isSome _ (by decide) text
  | some t =>
    have ht := translations_literal t (lookup_mem _ _ _ hl)
    cases tablesOnly
    · exact captionCue_isSome _ ht.1 text
    · exact captionCue_isSome _ ht.2 text

theorem cueForms_head (lang : String) (tablesOnly : Bool) (w : List Char)
    (hw : w ∈ cueForms lang tablesOnly) :
    w ≠ [] ∧ (w.head? = some 'T' ↔ tablesOnly = true) := by
  unfold cueForms at hw
  have key : ∀ t : Regex × Regex,
      ((∀ w ∈ t.1.words, w ≠ [] ∧ w.head? ≠ some 'T') ∧ (∀ w ∈ t.2.words, w.head? = some 'T')) →
      w ∈ (if tablesOnly = true then t.2.words else t.1.words) →
      w ≠ [] ∧ (w.head? = some 'T' ↔ tablesOnly = true) := by
    intro t ht hmem
    cases tablesOnly
    · simp only [Bool.false_eq_true, if_false] at hmem
      have := ht.1 w hmem
      exact ⟨this.1, by simp [this.2]⟩
    · simp only [if_true] at hmem
      have := ht.2 w hmem
      refine ⟨?_, by simp [this]⟩
      intro h0; rw [h0] at this; simp at this
  cases hl : translations.lookup lang with
  | none =>
    rw [hl] at hw
    exact key (figureForms "Figure" "FIGURE", tableForms "Table" "TABLE") (by decide) hw
  | some t =>
    rw [hl] at hw
    exact key t (translations_heads t (lookup_mem _ _ _ hl)) hw

theorem strAt_zero (s : List Char) (c : Char) (rest : List Char) (h : s = c :: rest) :
    strAt s 0 = .ok c := by
  subst h; rfl

theorem strAt_last (s : List Char) (h : s ≠ []) :
    strAt s (s.length - 1) = .ok (s.getLast h) := by
  unfold strAt
  have hlen : s.length - 1 < s.length := by
    have := List.length_pos.mpr h; omega
  rw [List.get?_eq_get hlen]
  simp [List.getLast_eq_getElem]

/-- The body of `constructCandidate` on a word with a successor, in one equation: the
sentinel unless both patterns match, the exception of the number parse if there is one, and
otherwise `candidateOf`. -/
theorem constructCandidate_eq (w nw : TextWord) (rest : WordPtr) (page : Int)
    (ls bs tablesOnly : Bool) (lang : String) :
    constructCandidate (w :: nw :: rest) page ls bs tablesOnly lang =
      match regexMatch (cueOf lang tablesOnly) (cstr w.text.toList),
        regexMatch numberRegex (cstr nw.text.toList) with
      | some _, some numberMatch =>
        match parseNumber (numberMatch.sub 2) with
        | .error e => .error e
        | .ok number =>
          .ok (candidateOf (w :: nw :: rest) page ls bs (cstr w.text.toList) (cstr nw.text.toList) number)
      | _, _ => .ok CaptionCandidate.invalid := by
  unfold constructCandidate
  simp only
  change (match regexMatch (cueOf lang tablesOnly) (cstr w.text.toList) with
    | none => _ | some wordMatch => _) = _
  cases hwm : regexMatch (cueOf lang tablesOnly) (cstr w.text.toList) with
  | none => rfl
  | some wordMatch =>
    simp only
    cases hnm : regexMatch numberRegex (cstr nw.text.toList) with
    | none => rfl
    | some numberMatch =>
      simp only
      cases hnum : parseNumber (numberMatch.sub 2) with
      | error e => rfl
      | ok number =>
        simp only
        have htext : (cstr nw.text.toList) ≠ [] := by
          intro h0; rw [h0, numberRegex_nil] at hnm; simp at hnm
        have hs0 : numberMatch.sub 0 = (cstr nw.text.toList) := by
          simp [MatchResults.sub, (regexMatch_some _ _ _ hnm).1]
        have hw0 : wordMatch.sub 0 = (cstr w.text.toList) := by
          simp [MatchResults.sub, (regexMatch_some _ _ _ hwm).1]
        have hforms := (cueOf_isSome lang tablesOnly (cstr w.text.toList)).mp (by rw [hwm]; rfl)
        have hne := (cueForms_head lang tablesOnly _ hforms).1
        obtain ⟨c, crest, hc⟩ := List.exists_cons_of_ne_nil hne
        have hsize := (regexMatch_some _ _ _ hwm).2
        have hmc : (cueOf lang tablesOnly).markCount = 1 := cue_markCount lang tablesOnly
        rw [hmc] at hsize
        rw [hs0, hw0, strAt_last _ htext, strAt_zero _ c crest hc]
        generalize hl : (cstr nw.text.toList).getLast htext = last
        have hlast : (cstr nw.text.toList).getLast? = some last := by
          rw [List.getLast?_eq_getLast _ htext, hl]
        simp only [candidateOf, hc, List.head?_cons, Option.some.injEq, hlast,
          MatchResults.sub, hsize]
        by_cases hT : c = 'T' <;> by_cases hcol : last = ':' <;> by_cases hper : last = '.' <;>
          simp_all

/-! ### Classification -/

theorem constructCandidate_valid (word : WordPtr) (page : Int) (ls bs tablesOnly : Bool)
    (lang : String) (cc : CaptionCandidate)
    (h : constructCandidate word page ls bs tablesOnly lang = .ok cc) (hw : cc.word ≠ []) :
    ∃ w nw rest numberMatch, word = w :: nw :: rest
      ∧ (cstr w.text.toList) ∈ cueForms lang tablesOnly
      ∧ regexMatch numberRegex (cstr nw.text.toList) = some numberMatch
      ∧ parseNumber (numberMatch.sub 2) = .ok cc.number
      ∧ cc = candidateOf word page ls bs (cstr w.text.toList) (cstr nw.text.toList) cc.number := by
  match word with
  | [] =>
    simp only [constructCandidate, Except.ok.injEq] at h
    rw [← h] at hw; exact absurd rfl hw
  | [_] =>
    simp only [constructCandidate, Except.ok.injEq] at h
    rw [← h] at hw; exact absurd rfl hw
  | w :: nw :: rest =>
    rw [constructCandidate_eq] at h
    cases hwm : regexMatch (cueOf lang tablesOnly) (cstr w.text.toList) with
    | none =>
      simp only [hwm, Except.ok.injEq] at h
      rw [← h] at hw; exact absurd rfl hw
    | some wordMatch =>
      cases hnm : regexMatch numberRegex (cstr nw.text.toList) with
      | none =>
        simp only [hwm, hnm, Except.ok.injEq] at h
        rw [← h] at hw; exact absurd rfl hw
      | some numberMatch =>
        simp only [hwm, hnm] at h
        cases hnum : parseNumber (numberMatch.sub 2) with
        | error e => simp [hnum] at h
        | ok number =>
          simp only [hnum, Except.ok.injEq] at h
          have hforms := (cueOf_isSome lang tablesOnly (cstr w.text.toList)).mp (by rw [hwm]; rfl)
          have hn : cc.number = number := by rw [← h]; rfl
          refine ⟨w, nw, rest, numberMatch, rfl, hforms, hnm, ?_, ?_⟩
          · rw [hn]; exact hnum
          · rw [hn]; exact h.symm

theorem constructCandidate_type (word : WordPtr) (page : Int) (ls bs tablesOnly : Bool)
    (lang : String) (cc : CaptionCandidate)
    (h : constructCandidate word page ls bs tablesOnly lang = .ok cc) (hw : cc.word ≠ []) :
    cc.type = .TABLE ↔ tablesOnly = true := by
  obtain ⟨w, nw, rest, m, _, hforms, _, _, hcc⟩ :=
    constructCandidate_valid word page ls bs tablesOnly lang cc h hw
  have hhead := (cueForms_head lang tablesOnly _ hforms).2
  rw [hcc]
  simp only [candidateOf]
  rw [← hhead]
  by_cases hT : (cstr w.text.toList).head? = some 'T' <;> simp [hT]

theorem pushCandidate_forall (Q : CaptionCandidate → Prop) (col : CandidateCollection)
    (id : FigureId) (cc : CaptionCandidate) (h : ∀ g ∈ col, ∀ x ∈ g.2, Q x) (hcc : Q cc) :
    ∀ g ∈ pushCandidate col id cc, ∀ x ∈ g.2, Q x := by
  induction col with
  | nil =>
    intro g hg x hx
    simp only [pushCandidate, List.mem_singleton] at hg
    subst hg
    simp only [List.mem_singleton] at hx
    rw [hx]; exact hcc
  | cons g0 rest ih =>
    obtain ⟨k, ccs⟩ := g0
    unfold pushCandidate
    by_cases hk : k = id
    · simp only [hk, if_true]
      intro g hg x hx
      simp only [List.mem_cons] at hg
      rcases hg with rfl | hg
      · simp only [List.mem_append, List.mem_singleton] at hx
        rcases hx with hx | hx
        · exact h (k, ccs) (by simp) x hx
        · rw [hx]; exact hcc
      · exact h g (by simp [hg]) x hx
    · simp only [hk, if_false]
      intro g hg x hx
      simp only [List.mem_cons] at hg
      rcases hg with rfl | hg
      · exact h _ (by simp) x hx
      · exact ih (fun g hg => h g (by simp [hg])) g hg x hx

/-- C20. Classification is fixed by `tablesOnly`: for every language code, a valid candidate
returned by `constructCandidate` is a Table exactly when `tablesOnly` is true; with
`tablesOnly` false the table cue `Table` followed by `1` gives the sentinel; and every
candidate of a collection returned by `collectCandidates` is a Table when `tablesOnly` is
true and a Figure when it is false. -/
theorem C20_type_fixed_by_tablesOnly :
    (∀ (word : WordPtr) (page : Int) (ls bs tablesOnly : Bool) (lang : String)
        (cc : CaptionCandidate),
        constructCandidate word page ls bs tablesOnly lang = .ok cc → cc.word ≠ [] →
        (cc.type = .TABLE ↔ tablesOnly = true))
    ∧ constructCandidate [⟨"Table", false, false⟩, ⟨"1", false, false⟩] 0 true true false "en"
        = .ok CaptionCandidate.invalid
    ∧ (∀ (pages : List TextPage) (tablesOnly : Bool) (lang : String) (c : CandidateCollection),
        collectCandidates pages tablesOnly lang = .ok c →
        ∀ g ∈ c, ∀ cc ∈ g.2,
          (tablesOnly = true → cc.type = .TABLE) ∧ (tablesOnly = false → cc.type = .FIGURE)) := by
  refine ⟨constructCandidate_type, rfl, ?_⟩
  intro pages tablesOnly lang c hrun
  have hall : ∀ g ∈ c, ∀ cc ∈ g.2, (cc.type = .TABLE ↔ tablesOnly = true) :=
    collectCandidates_preserves
      (fun c => ∀ g ∈ c, ∀ cc ∈ g.2, (cc.type = .TABLE ↔ tablesOnly = true)) tablesOnly lang
      (fun col word page ls bs cc hP hc hw =>
        pushCandidate_forall _ col cc.getId cc hP
          (constructCandidate_type word page ls bs tablesOnly lang cc hc hw))
      pages c (by simp) hrun
  intro g hg cc hcc
  have := hall g hg cc hcc
  refine ⟨fun ht => this.mpr ht, fun hf => ?_⟩
  cases hty : cc.type with
  | FIGURE => rfl
  | TABLE => rw [this.mp hty] at hf; exact absurd hf (by simp)

/-- Witness of C20: `Figure 1.` with `tablesOnly` false is a Figure, the German `Tabelle 3`
with `tablesOnly` true is a Table, and the three `Table 3` sightings collected with
`tablesOnly` true are Tables. -/
theorem C20_type_fixed_by_tablesOnly_witness :
    (twoFigures_one.type = .TABLE ↔ false = true)
    ∧ ((candidateOf [⟨"Tabelle", false, false⟩, ⟨"3", false, false⟩] 0 true true
          "Tabelle".toList "3".toList 3).type = .TABLE ↔ true = true)
    ∧ ((true = true → scenarioC_table.type = .TABLE)
        ∧ (true = false → scenarioC_table.type = .FIGURE)) :=
  ⟨C20_type_fixed_by_tablesOnly.1 [⟨"Figure", false, false⟩, ⟨"1.", false, false⟩] 0 true true
      false "en" twoFigures_one rfl (by decide),
    C20_type_fixed_by_tablesOnly.1 [⟨"Tabelle", false, false⟩, ⟨"3", false, false⟩] 0 true true
      true "de" _ rfl (by decide),
    C20_type_fixed_by_tablesOnly.2.2 scenarioC true "en" _ scenarioC_collected
      (-3, [scenarioC_table, scenarioC_table, scenarioC_table]) (by simp) scenarioC_table
      (by simp)⟩

/-! ### The English fallback -/

theorem lookup_none_of_not_mem {β : Type} (l : List (String × β)) (k : String)
    (h : k ∉ l.map Prod.fst) : l.lookup k = none := by
  induction l with
  | nil => rfl
  | cons e rest ih =>
    obtain ⟨k0, v0⟩ := e
    simp only [List.map_cons, List.mem_cons, not_or] at h
    rw [List.lookup_cons]
    have : (k == k0) = false := by simpa using h.1
    rw [this]
    exact ih h.2

theorem englishCueForms_mem (tablesOnly : Bool) (lang : String)
    (hl : translations.lookup lang = none) (text : List Char) :
    text ∈ cueForms lang tablesOnly ↔ text ∈ (englishCueForms tablesOnly).map String.toList := by
  have hperm : List.Perm (cueForms lang tablesOnly)
      ((englishCueForms tablesOnly).map String.toList) := by
    unfold cueForms
    rw [hl]
    cases tablesOnly <;> decide
  exact hperm.mem_iff

theorem constructCandidate_english (lang : String) (hl : translations.lookup lang = none)
    (word : WordPtr) (page : Int) (ls bs tablesOnly : Bool) :
    constructCandidate word page ls bs tablesOnly lang
      = matchEnglish word page ls bs tablesOnly := by
  match word with
  | [] => rfl
  | [_] => rfl
  | w :: nw :: rest =>
    rw [constructCandidate_eq]
    unfold matchEnglish
    have hiff := (cueOf_isSome lang tablesOnly (cstr w.text.toList)).trans
      (englishCueForms_mem tablesOnly lang hl (cstr w.text.toList))
    by_cases hw : cstr w.text.toList ∈ (englishCueForms tablesOnly).map String.toList
    · simp only [hw, if_true]
      have hsome := hiff.mpr hw
      cases hwm : regexMatch (cueOf lang tablesOnly) (cstr w.text.toList) with
      | none => rw [hwm] at hsome; simp at hsome
      | some wordMatch =>
        cases hnm : regexMatch numberRegex (cstr nw.text.toList) <;> rfl
    · simp only [hw, if_false]
      cases hwm : regexMatch (cueOf lang tablesOnly) (cstr w.text.toList) with
      | none => rfl
      | some wordMatch =>
        exact absurd (hiff.mp (by rw [hwm]; rfl)) hw

/-- C12. English fallback: `en` is not a key of the translation table, and for every language
code that is not a key, `constructCandidate` returns on every input what the matcher for the
English forms `Figure|FIGURE|FIG.?|Fig.?` (`Table|TABLE` when `tablesOnly`) returns; so any
two such codes give the same result. -/
theorem C12_english_fallback :
    "en" ∉ translations.map Prod.fst
    ∧ (∀ (lang : String), lang ∉ translations.map Prod.fst →
        ∀ (word : WordPtr) (page : Int) (ls bs tablesOnly : Bool),
          constructCandidate word page ls bs tablesOnly lang
            = matchEnglish word page ls bs tablesOnly)
    ∧ (∀ (lang1 lang2 : String), lang1 ∉ translations.map Prod.fst →
        lang2 ∉ translations.map Prod.fst →
        ∀ (word : WordPtr) (page : Int) (ls bs tablesOnly : Bool),
          constructCandidate word page ls bs tablesOnly lang1
            = constructCandidate word page ls bs tablesOnly lang2) := by
  refine ⟨by decide, ?_, ?_⟩
  · intro lang hl word page ls bs tablesOnly
    exact constructCandidate_english lang (lookup_none_of_not_mem _ _ hl) word page ls bs
      tablesOnly
  · intro lang1 lang2 h1 h2 word page ls bs tablesOnly
    rw [constructCandidate_english lang1 (lookup_none_of_not_mem _ _ h1),
      constructCandidate_english lang2 (lookup_none_of_not_mem _ _ h2)]

/-- Witness of C12: the codes `en` and `xx` are not in the table, and `Fig. 7:` gives the
same valid candidate under both, the one of the English matcher. -/
theorem C12_english_fallback_witness :
    constructCandidate [⟨"Fig.", false, false⟩, ⟨"7:", false, false⟩] 0 true true false "xx"
        = matchEnglish [⟨"Fig.", false, false⟩, ⟨"7:", false, false⟩] 0 true true false
    ∧ matchEnglish [⟨"Fig.", false, false⟩, ⟨"7:", false, false⟩] 0 true true false
        = .ok ⟨[⟨"Fig.", false, false⟩, ⟨"7:", false, false⟩], true, true, .FIGURE, 7, 0,
            false, true, false, false⟩
    ∧ constructCandidate [⟨"Fig.", false, false⟩, ⟨"7:", false, false⟩] 0 true true false "en"
        = constructCandidate [⟨"Fig.", false, false⟩, ⟨"7:", false, false⟩] 0 true true false
            "xx" :=
  ⟨C12_english_fallback.2.1 "xx" (by decide) _ 0 true true false,
    rfl,
    C12_english_fallback.2.2 "en" "xx" (by decide) (by decide) _ 0 true true false⟩

/-! ### The number pattern in words -/

theorem run_cls (inp : List Char) (rs : List (Char × Char)) (s : List Char) (caps : Caps)
    (x : List Char × Caps) :
    x ∈ Regex.run inp (.cls rs) s caps
      ↔ ∃ c, inClass rs c = true ∧ s = c :: x.1 ∧ x.2 = caps := by
  cases s with
  | nil => simp [Regex.run]
  | cons c rest =>
    simp only [Regex.run]
    by_cases hc : inClass rs c = true
    · simp only [hc, if_true, List.mem_singleton, List.cons.injEq]
      constructor
      · rintro rfl; exact ⟨c, hc, ⟨rfl, rfl⟩, rfl⟩
      · rintro ⟨d, _, ⟨_, h2⟩, h3⟩
        exact Prod.ext h2.symm h3
    · simp only [hc, Bool.false_eq_true, if_false, List.not_mem_nil, List.cons.injEq,
        false_iff, not_exists, not_and]
      intro d hd h1
      rw [← h1.1] at hd
      exact absurd hd hc

theorem run_seq (inp : List Char) (a b : Regex) (s : List Char) (caps : Caps)
    (x : List Char × Caps) :
    x ∈ Regex.run inp (.seq a b) s caps
      ↔ ∃ y ∈ Regex.run inp a s caps, x ∈ Regex.run inp b y.1 y.2 := by
  simp only [Regex.run, List.mem_flatMap]

theorem run_alt (inp : List Char) (a b : Regex) (s : List Char) (caps : Caps)
    (x : List Char × Caps) :
    x ∈ Regex.run inp (.alt a b) s caps
      ↔ x ∈ Regex.run inp a s caps ∨ x ∈ Regex.run inp b s caps := by
  simp only [Regex.run, List.mem_append]

theorem run_opt (inp : List Char) (a : Regex) (s : List Char) (caps : Caps)
    (x : List Char × Caps) :
    x ∈ Regex.run inp (.opt a) s caps ↔ x ∈ Regex.run inp a s caps ∨ x = (s, caps) := by
  simp only [Regex.run, List.mem_append, List.mem_singleton]

theorem run_group (inp : List Char) (n : Nat) (a : Regex) (s : List Char) (caps : Caps)
    (x : List Char × Caps) :
    x ∈ Regex.run inp (.group n a) s caps
      ↔ ∃ y ∈ Regex.run inp a s caps,
          x = (y.1, (n, s.take (s.length - y.1.length)) :: y.2) := by
  simp only [Regex.run, List.mem_map]
  constructor
  · rintro ⟨y, hy, rfl⟩; exact ⟨y, hy, rfl⟩
  · rintro ⟨y, hy, rfl⟩; exact ⟨y, hy, rfl⟩

theorem run_eol (inp : List Char) (s : List Char) (caps : Caps) (x : List Char × Caps) :
    x ∈ Regex.run inp .eol s caps ↔ s = [] ∧ x = (s, caps) := by
  simp only [Regex.run]
  cases s with
  | nil => simp
  | cons c rest => simp

theorem run_bol (s : List Char) (caps : Caps) (x : List Char × Caps) :
    x ∈ Regex.run s .bol s caps ↔ x = (s, caps) := by
  simp only [Regex.run, if_true, List.mem_singleton]

theorem runClsPlus_mem (rs : List (Char × Char)) (w rest : List Char) (hne : w ≠ [])
    (hall : ∀ c ∈ w, inClass rs c = true) : rest ∈ runClsPlus rs (w ++ rest) := by
  induction w with
  | nil => exact absurd rfl hne
  | cons c cs ih =>
    simp only [List.cons_append, runClsPlus, hall c (by simp), if_true, List.mem_append,
      List.mem_singleton]
    cases cs with
    | nil => right; rfl
    | cons d ds =>
      left
      exact ih (by simp) (fun x hx => hall x (by simp [hx]))

theorem run_clsPlus (inp : List Char) (rs : List (Char × Char)) (s : List Char) (caps : Caps)
    (x : List Char × Caps) :
    x ∈ Regex.run inp (.clsPlus rs) s caps
      ↔ ∃ w, w ≠ [] ∧ (∀ c ∈ w, inClass rs c = true) ∧ s = w ++ x.1 ∧ x.2 = caps := by
  simp only [Regex.run, List.mem_map]
  constructor
  · rintro ⟨s1, hs1, rfl⟩
    obtain ⟨w, hw, hne, hall⟩ := runClsPlus_spec rs s s1 hs1
    exact ⟨w, hne, hall, hw, rfl⟩
  · rintro ⟨w, hne, hall, hs, hc⟩
    refine ⟨x.1, ?_, Prod.ext rfl hc.symm⟩
    rw [hs]
    exact runClsPlus_mem rs w x.1 hne hall

theorem run_chars (inp cs s : List Char) (caps : Caps) (x : List Char × Caps) :
    x ∈ Regex.run inp (.chars cs) s caps ↔ s = cs ++ x.1 ∧ x.2 = caps := by
  simp only [Regex.run]
  cases hs : stripChars cs s with
  | none =>
    simp only [List.not_mem_nil, false_iff, not_and]
    intro h
    rw [(stripChars_eq_some cs s x.1).mpr h] at hs
    simp at hs
  | some s1 =>
    simp only [List.mem_singleton]
    rw [stripChars_eq_some] at hs
    constructor
    · rintro rfl; exact ⟨hs, rfl⟩
    · rintro ⟨h1, h2⟩
      rw [hs] at h1
      exact Prod.ext (List.append_cancel_left h1).symm h2

theorem numberLead_parse (inp s : List Char) (caps : Caps) (y : List Char × Caps)
    (h : y ∈ Regex.run inp (.opt (.group 1
        (.alt (.seq (.cls [('1', '9')]) (.cls [('.', '.'), ('-', '-')]))
          (.seq (.cls [('A', 'H')]) (.opt (.cls [('.', '.'), ('-', '-')])))))) s caps) :
    ∃ lead, s = lead ++ y.1 ∧ isLead lead = true := by
  simp only [run_opt, run_group, run_alt, run_seq, run_cls] at h
  rcases h with ⟨y0, h, rfl⟩ | rfl
  · rcases h with ⟨y1, ⟨d, hd, hs, _⟩, sep, hsep, hs2, _⟩ | ⟨y1, ⟨l, hl, hs, _⟩, h2⟩
    · refine ⟨[d, sep], by rw [hs, hs2]; rfl, ?_⟩
      simp [isLead, hd, hsep]
    · rcases h2 with ⟨sep, hsep, hs2, _⟩ | rfl
      · refine ⟨[l, sep], by rw [hs, hs2]; rfl, ?_⟩
        simp [isLead, hl, hsep]
      · exact ⟨[l], by rw [hs]; rfl, by simp [isLead, hl]⟩
  · exact ⟨[], rfl, rfl⟩

theorem numberTail_parse (inp : List Char) (s : List Char) (caps : Caps)
    (x : List Char × Caps)
    (h : x ∈ Regex.run inp (.seq
        (.group 2 (.clsPlus [('0', '9'), ('I', 'I'), ('V', 'V'), ('X', 'X')]))
        (.seq (.opt (.group 3 (.alt (.chars ":".toList) (.chars ".".toList)))) .eol)) s caps) :
    ∃ core trail, s = core ++ trail ∧ isCore core = true ∧ isTrail trail = true
      ∧ x.2.lookup 2 = some core ∧ x.1 = [] := by
  simp only [Regex.run, List.mem_flatMap, List.mem_map, List.mem_append, List.mem_singleton]
    at h
  obtain ⟨y, ⟨y0, ⟨s1, hs1, rfl⟩, rfl⟩, z, hz, hx⟩ := h
  obtain ⟨w, hw, hne, hall⟩ := runClsPlus_spec _ s s1 hs1
  have htake : s.take (s.length - s1.length) = w := by
    rw [hw]; simp
  have hcore : isCore w = true := by
    simp only [isCore, Bool.and_eq_true, Bool.not_eq_true', List.all_eq_true]
    exact ⟨by simpa using hne, hall⟩
  simp only at hz hx
  rw [htake] at hz
  have hxz : x = z ∧ z.1 = [] := by
    by_cases he : z.1.isEmpty = true
    · simp only [he, if_true, List.mem_singleton] at hx
      exact ⟨hx, by simpa using he⟩
    · simp [he] at hx
  obtain ⟨rfl, hz1⟩ := hxz
  rcases hz with ⟨z0, hz0, rfl⟩ | rfl
  · have hcaps := run_caps_of_markCount_zero inp _ (by decide) _ _ _
      (show z0 ∈ Regex.run inp (.alt (.chars ":".toList) (.chars ".".toList)) s1
        ((2, w) :: caps) by simpa [Regex.run] using hz0)
    obtain ⟨t, ht, hst⟩ := run_words_sound inp
      (.alt (.chars ":".toList) (.chars ".".toList)) (by decide) _ _ _
      (show z0 ∈ Regex.run inp (.alt (.chars ":".toList) (.chars ".".toList)) s1
        ((2, w) :: caps) by simpa [Regex.run] using hz0)
    simp only at hz1
    rw [hz1, List.append_nil] at hst
    refine ⟨w, t, by rw [hw, hst], hcore, ?_, by simp [List.lookup, hcaps], hz1⟩
    simp only [Regex.words, List.mem_append, List.mem_singleton] at ht
    rcases ht with rfl | rfl <;> decide
  · simp only at hz1
    exact ⟨w, [], by rw [hw, hz1], hcore, rfl, by simp [List.lookup], hz1⟩

theorem numberRegex_parse (text : List Char) (m : MatchResults)
    (h : regexMatch numberRegex text = some m) :
    ∃ lead core trail, text = lead ++ core ++ trail
      ∧ isLead lead = true ∧ isCore core = true ∧ isTrail trail = true
      ∧ m.sub 2 = core ∧ m.sub 0 = text := by
  unfold regexMatch at h
  cases hf : (Regex.run text numberRegex text []).find? (fun m => m.1.isEmpty) with
  | none => simp [hf] at h
  | some x =>
    simp only [hf, Option.some.injEq] at h
    subst h
    have hmem := List.mem_of_find?_eq_some hf
    unfold numberRegex at hmem
    rw [Regex.run] at hmem
    simp only [List.mem_flatMap] at hmem
    obtain ⟨y, hy, hmem⟩ := hmem
    have hy2 : y = (text, []) := by
      simpa [Regex.run] using hy
    subst hy2
    rw [Regex.run] at hmem
    simp only [List.mem_flatMap] at hmem
    obtain ⟨z, hz, hx⟩ := hmem
    obtain ⟨lead, hl, hlead⟩ := numberLead_parse _ _ _ _ hz
    obtain ⟨core, trail, hs, hcore, htrail, hlook, _⟩ := numberTail_parse _ _ _ _ hx
    refine ⟨lead, core, trail, by rw [hl, hs, List.append_assoc], hlead, hcore, htrail, ?_, ?_⟩
    · simp [MatchResults.sub, hlook, numberRegex, Regex.markCount]
    · simp [MatchResults.sub]

theorem numberRegex_sound (text : List Char) (m : MatchResults)
    (h : regexMatch numberRegex text = some m) : NumberPattern text := by
  obtain ⟨lead, core, trail, h1, h2, h3, h4, _⟩ := numberRegex_parse text m h
  exact ⟨lead, core, trail, h1, h2, h3, h4⟩

theorem numberLead_complete (inp lead rest : List Char) (caps : Caps)
    (h : isLead lead = true) :
    ∃ y ∈ Regex.run inp (.opt (.group 1
        (.alt (.seq (.cls [('1', '9')]) (.cls [('.', '.'), ('-', '-')]))
          (.seq (.cls [('A', 'H')]) (.opt (.cls [('.', '.'), ('-', '-')])))))) (lead ++ rest)
        caps, y.1 = rest := by
  simp only [run_opt, run_group, run_alt, run_seq, run_cls]
  match lead, h with
  | [], _ => exact ⟨(rest, caps), Or.inr rfl, rfl⟩
  | [l], h =>
    simp only [isLead] at h
    refine ⟨(rest, (1, _) :: caps), Or.inl ⟨(rest, caps), Or.inr ?_, rfl⟩, rfl⟩
    exact ⟨(rest, caps), ⟨l, h, rfl, rfl⟩, Or.inr rfl⟩
  | [a, sep], h =>
    simp only [isLead, Bool.and_eq_true, Bool.or_eq_true] at h
    obtain ⟨ha, hsep⟩ := h
    rcases ha with ha | ha
    · refine ⟨(rest, (1, _) :: caps), Or.inl ⟨(rest, caps), Or.inl ?_, rfl⟩, rfl⟩
      exact ⟨(sep :: rest, caps), ⟨a, ha, rfl, rfl⟩, sep, hsep, rfl, rfl⟩
    · refine ⟨(rest, (1, _) :: caps), Or.inl ⟨(rest, caps), Or.inr ?_, rfl⟩, rfl⟩
      exact ⟨(sep :: rest, caps), ⟨a, ha, rfl, rfl⟩, Or.inl ⟨sep, hsep, rfl, rfl⟩⟩
  | _ :: _ :: _ :: _, h => simp [isLead] at h

theorem numberTail_complete (inp core trail : List Char) (caps : Caps)
    (hcore : isCore core = true) (htrail : isTrail trail = true) :
    ∃ x ∈ Regex.run inp (.seq
        (.group 2 (.clsPlus [('0', '9'), ('I', 'I'), ('V', 'V'), ('X', 'X')]))
        (.seq (.opt (.group 3 (.alt (.chars ":".toList) (.chars ".".toList)))) .eol))
        (core ++ trail) caps, x.1 = [] := by
  simp only [isCore, Bool.and_eq_true, Bool.not_eq_true', List.all_eq_true] at hcore
  obtain ⟨hne, hall⟩ := hcore
  have hne2 : core ≠ [] := by simpa using hne
  simp only [isTrail, Bool.or_eq_true, decide_eq_true_eq] at htrail
  simp only [run_seq, run_group, run_clsPlus, run_opt, run_alt, run_chars, run_eol]
  rcases htrail with (rfl | rfl) | rfl
  · exact ⟨([], (2, _) :: caps), ⟨(_, _), ⟨([], caps), ⟨core, hne2, hall, rfl, rfl⟩, rfl⟩,
      ([], (2, _) :: caps), Or.inr rfl, rfl, rfl⟩, rfl⟩
  · exact ⟨([], (3, _) :: (2, _) :: caps),
      ⟨(_, _), ⟨([':'], caps), ⟨core, hne2, hall, rfl, rfl⟩, rfl⟩,
        ([], (3, _) :: (2, _) :: caps),
        Or.inl ⟨([], (2, _) :: caps), Or.inl ⟨rfl, rfl⟩, rfl⟩, rfl, rfl⟩, rfl⟩
  · exact ⟨([], (3, _) :: (2, _) :: caps),
      ⟨(_, _), ⟨(['.'], caps), ⟨core, hne2, hall, rfl, rfl⟩, rfl⟩,
        ([], (3, _) :: (2, _) :: caps),
        Or.inl ⟨([], (2, _) :: caps), Or.inr ⟨rfl, rfl⟩, rfl⟩, rfl, rfl⟩, rfl⟩

theorem numberRegex_complete (text : List Char) (h : NumberPattern text) :
    ∃ m, regexMatch numberRegex text = some m := by
  obtain ⟨lead, core, trail, hs, hlead, hcore, htrail⟩ := h
  obtain ⟨y, hy, hy1⟩ := numberLead_complete text lead (core ++ trail) [] hlead
  obtain ⟨x, hx, hx1⟩ := numberTail_complete text core trail y.2 hcore htrail
  have hmem : x ∈ Regex.run text numberRegex text [] := by
    unfold numberRegex
    rw [run_seq]
    refine ⟨(text, []), (run_bol text [] _).mpr rfl, ?_⟩
    rw [run_seq]
    refine ⟨y, ?_, ?_⟩
    · rw [hs, List.append_assoc]; exact hy
    · rw [hy1]; exact hx
  have hsome : ((Regex.run text numberRegex text []).find? (fun m => m.1.isEmpty)).isSome
      = true := by
    rw [List.find?_isSome]
    exact ⟨x, hmem, by simp [hx1]⟩
  unfold regexMatch
  cases hf : (Regex.run text numberRegex text []).find? (fun m => m.1.isEmpty) with
  | none => rw [hf] at hsome; simp at hsome
  | some x0 => exact ⟨_, rfl⟩

/-- The pattern `numberRegex` accepts exactly the texts of `NumberPattern`. -/
theorem numberRegex_iff (text : List Char) :
    (∃ m, regexMatch numberRegex text = some m) ↔ NumberPattern text :=
  ⟨fun ⟨m, h⟩ => numberRegex_sound text m h, numberRegex_complete text⟩

/-! ### No match -/

theorem not_numberPattern_of_none (text : List Char)
    (h : regexMatch numberRegex text = none) : ¬ NumberPattern text := by
  intro hp
  obtain ⟨m, hm⟩ := numberRegex_complete text hp
  rw [h] at hm
  exact absurd hm (by simp)

theorem constructCandidate_no_number (w nw : TextWord) (rest : WordPtr) (page : Int)
    (ls bs tablesOnly : Bool) (lang : String) (h : ¬ NumberPattern (cstr nw.text.toList)) :
    constructCandidate (w :: nw :: rest) page ls bs tablesOnly lang
      = .ok CaptionCandidate.invalid := by
  rw [constructCandidate_eq]
  cases hnm : regexMatch numberRegex (cstr nw.text.toList) with
  | none => cases regexMatch (cueOf lang tablesOnly) (cstr w.text.toList) <;> rfl
  | some m => exact absurd (numberRegex_sound _ m hnm) h

/-- C15, counterexample: the successor text `1`, NUL, `zz` does not match the number pattern,
yet after the cue `Figure` the code, which reads a text up to its first NUL character, matches
`1`: `constructCandidate` returns the valid candidate Figure 1 with a non-null anchor word, and
the word loop of `collectCandidates` stores it under the key 1. -/
theorem C15_no_match_counterexample :
    ¬ NumberPattern "1\x00zz".toList
    ∧ constructCandidate [⟨"Figure", false, false⟩, ⟨"1\x00zz", false, false⟩] 0 true true false
        "en"
      = .ok ⟨[⟨"Figure", false, false⟩, ⟨"1\x00zz", false, false⟩], true, true, .FIGURE, 1, 0,
          false, false, false, false⟩
    ∧ constructCandidate [⟨"Figure", false, false⟩, ⟨"1\x00zz", false, false⟩] 0 true true false
        "en" ≠ .ok CaptionCandidate.invalid
    ∧ collectWords 0 true false "en" [⟨"Figure", false, false⟩, ⟨"1\x00zz", false, false⟩] true
        []
      = .ok [(1, [⟨[⟨"Figure", false, false⟩, ⟨"1\x00zz", false, false⟩], true, true, .FIGURE,
          1, 0, false, false, false, false⟩])] := by
  refine ⟨not_numberPattern_of_none _ (by decide), rfl, ?_, rfl⟩
  intro h
  have h2 : (Except.ok (⟨[⟨"Figure", false, false⟩, ⟨"1\x00zz", false, false⟩], true, true,
      .FIGURE, 1, 0, false, false, false, false⟩ : CaptionCandidate) : Except Exn CaptionCandidate)
      = .ok CaptionCandidate.invalid := h
  simp [CaptionCandidate.invalid] at h2

/-- C15, amended: for a token without successor, and for a token whose successor's text, read
up to its first NUL character as the code reads it, does not match the number pattern
(optional lead, then one or more of the characters 0-9 I V X, then an optional trailing `.` or
`:`), `constructCandidate` returns the invalid sentinel, whose anchor word is null, and the
word loop of `collectCandidates` goes on to the next word with the collection as it was; this
covers every successor text without NUL character that does not match the pattern. -/
theorem C15_no_match :
    CaptionCandidate.invalid.word = []
    ∧ (∀ (w : TextWord) (page : Int) (ls bs tablesOnly : Bool) (lang : String)
        (col : CandidateCollection),
        constructCandidate [w] page ls bs tablesOnly lang = .ok CaptionCandidate.invalid
        ∧ collectWords page bs tablesOnly lang [w] ls col = .ok col)
    ∧ (∀ (w nw : TextWord) (rest : WordPtr) (page : Int) (ls bs tablesOnly : Bool)
        (lang : String) (col : CandidateCollection),
        ¬ NumberPattern (cstr nw.text.toList) →
        constructCandidate (w :: nw :: rest) page ls bs tablesOnly lang
          = .ok CaptionCandidate.invalid
        ∧ collectWords page bs tablesOnly lang (w :: nw :: rest) ls col
          = collectWords page bs tablesOnly lang (nw :: rest) false col)
    ∧ (∀ (w nw : TextWord) (rest : WordPtr) (page : Int) (ls bs tablesOnly : Bool)
        (lang : String) (col : CandidateCollection),
        (∀ c ∈ nw.text.toList, c.toNat ≠ 0) → ¬ NumberPattern nw.text.toList →
        constructCandidate (w :: nw :: rest) page ls bs tablesOnly lang
          = .ok CaptionCandidate.invalid
        ∧ collectWords page bs tablesOnly lang (w :: nw :: rest) ls col
          = collectWords page bs tablesOnly lang (nw :: rest) false col) := by
  have key : ∀ (w nw : TextWord) (rest : WordPtr) (page : Int) (ls bs tablesOnly : Bool)
      (lang : String) (col : CandidateCollection),
      ¬ NumberPattern (cstr nw.text.toList) →
      constructCandidate (w :: nw :: rest) page ls bs tablesOnly lang
        = .ok CaptionCandidate.invalid
      ∧ collectWords page bs tablesOnly lang (w :: nw :: rest) ls col
        = collectWords page bs tablesOnly lang (nw :: rest) false col := by
    intro w nw rest page ls bs tablesOnly lang col h
    have hc := constructCandidate_no_number w nw rest page ls bs tablesOnly lang h
    refine ⟨hc, ?_⟩
    rw [collectWords, hc]
    simp [CaptionCandidate.invalid]
  refine ⟨rfl, ?_, key, ?_⟩
  · intro w page ls bs tablesOnly lang col
    refine ⟨rfl, ?_⟩
    simp [collectWords, constructCandidate, CaptionCandidate.invalid]
  · intro w nw rest page ls bs tablesOnly lang col hnul h
    exact key w nw rest page ls bs tablesOnly lang col (by rw [cstr_eq_self _ hnul]; exact h)

/-- Witness of C15: `Figure` followed by `one` gives the sentinel, and collecting the line
`Figure one` into an empty collection leaves it empty. -/
theorem C15_no_match_witness :
    ¬ NumberPattern (cstr "one".toList)
    ∧ constructCandidate [⟨"Figure", false, false⟩, ⟨"one", false, false⟩] 0 true true false
        "en" = .ok CaptionCandidate.invalid
    ∧ collectWords 0 true false "en" [⟨"Figure", false, false⟩, ⟨"one", false, false⟩] true []
        = collectWords 0 true false "en" [⟨"one", false, false⟩] false []
    ∧ collectWords 0 true false "en" [⟨"one", false, false⟩] false [] = .ok [] :=
  ⟨not_numberPattern_of_none _ (by decide),
    (C15_no_match.2.2.1 ⟨"Figure", false, false⟩ ⟨"one", false, false⟩ [] 0 true true false
      "en" [] (not_numberPattern_of_none _ (by decide))).1,
    (C15_no_match.2.2.1 ⟨"Figure", false, false⟩ ⟨"one", false, false⟩ [] 0 true true false
      "en" [] (not_numberPattern_of_none _ (by decide))).2,
    (C15_no_match.2.1 ⟨"one", false, false⟩ 0 false true false "en" []).2⟩

/-! ### Decimal numerals -/

theorem digitChar_toNat (d : Nat) (h : d < 10) : (digitChar d).toNat = 48 + d := by
  interval_cases d <;> rfl

theorem digitChar_isDigit (d : Nat) (h : d < 10) : isDigit (digitChar d) = true := by
  simp only [isDigit, Bool.and_eq_true, decide_eq_true_eq, digitChar_toNat d h]
  omega

theorem digitChar_core (d : Nat) (h : d < 10) :
    inClass [('0', '9'), ('I', 'I'), ('V', 'V'), ('X', 'X')] (digitChar d) = true := by
  interval_cases d <;> decide

theorem digitsValue_foldl (ds : List Nat) (h : ∀ d ∈ ds, d < 10) (acc : Nat) :
    (ds.map digitChar).foldl (fun acc c => 10 * acc + ((c.toNat : Int) - 48)) (acc : Int)
      = ((acc * 10 ^ ds.length + Nat.ofDigits 10 ds.reverse : Nat) : Int) := by
  induction ds generalizing acc with
  | nil => simp
  | cons d rest ih =>
    have hd := digitChar_toNat d (h d (by simp))
    simp only [List.map_cons, List.foldl_cons, hd]
    have hstep : (10 * (acc : Int) + (((48 + d : Nat) : Int) - 48)) = ((10 * acc + d : Nat) : Int) := by
      push_cast; ring
    rw [hstep, ih (fun x hx => h x (by simp [hx]))]
    congr 1
    rw [List.reverse_cons, Nat.ofDigits_append, Nat.ofDigits_singleton, List.length_reverse,
      List.length_cons]
    ring

theorem digitsValue_numeral (ds : List Nat) (h : ∀ d ∈ ds, d < 10) :
    digitsValue (ds.map digitChar) = ((Nat.ofDigits 10 ds.reverse : Nat) : Int) := by
  have := digitsValue_foldl ds h 0
  simpa [digitsValue] using this

theorem takeWhile_digits (ds : List Nat) (h : ∀ d ∈ ds, d < 10) :
    (ds.map digitChar).takeWhile isDigit = ds.map digitChar := by
  rw [List.takeWhile_eq_self_iff]
  intro c hc
  simp only [List.mem_map] at hc
  obtain ⟨d, hd, rfl⟩ := hc
  exact digitChar_isDigit d (h d hd)

theorem parseNumber_numeral (ds : List Nat) (h : ∀ d ∈ ds, d < 10) (h1 : 1 ≤ ds.length)
    (h9 : ds.length ≤ 9) :
    parseNumber (ds.map digitChar) = .ok ((Nat.ofDigits 10 ds.reverse : Nat) : Int) := by
  have hne : ds.map digitChar ≠ [] := by
    intro h0
    rw [List.map_eq_nil_iff] at h0
    subst h0
    simp at h1
  have hall : ∀ c ∈ ds.map digitChar,
      inClass [('0', '9'), ('I', 'I'), ('V', 'V'), ('X', 'X')] c = true := by
    intro c hc
    simp only [List.mem_map] at hc
    obtain ⟨d, hd, rfl⟩ := hc
    exact digitChar_core d (h d hd)
  have hlt : Nat.ofDigits 10 ds.reverse < 10 ^ ds.reverse.length :=
    Nat.ofDigits_lt_base_pow_length (by decide) (fun x hx => h x (List.mem_reverse.mp hx))
  have hpow : 10 ^ ds.reverse.length ≤ 10 ^ 9 :=
    Nat.pow_le_pow_right (by decide) (by simpa using h9)
  unfold parseNumber
  rw [stoi_core _ hne hall, takeWhile_digits ds h, digitsValue_numeral ds h]
  have hemp : (ds.map digitChar).isEmpty = false := by simpa using hne
  have hmax : ¬ INT_MAX < ((Nat.ofDigits 10 ds.reverse : Nat) : Int) := by
    unfold INT_MAX
    have : Nat.ofDigits 10 ds.reverse < 10 ^ 9 := lt_of_lt_of_le hlt hpow
    omega
  simp [hemp, hmax]

theorem isLead_digits (lead : List Char) (h : isLead lead = true)
    (hd : ∀ c ∈ lead, isDigit c = true) : lead = [] := by
  match lead, h with
  | [], _ => rfl
  | [l], h =>
    exfalso
    simp only [isLead, inClass, List.any_cons, List.any_nil, Bool.or_false, Bool.and_eq_true,
      decide_eq_true_eq] at h
    have hl := hd l (by simp)
    simp only [isDigit, Bool.and_eq_true, decide_eq_true_eq] at hl
    have eA : ('A' : Char).toNat = 65 := rfl
    rw [eA] at h
    omega
  | [a, sep], h =>
    exfalso
    simp only [isLead, Bool.and_eq_true] at h
    have hs := h.2
    simp only [inClass, List.any_cons, List.any_nil, Bool.or_false, Bool.or_eq_true,
      Bool.and_eq_true, decide_eq_true_eq] at hs
    have hsep := hd sep (by simp)
    simp only [isDigit, Bool.and_eq_true, decide_eq_true_eq] at hsep
    have e1 : ('.' : Char).toNat = 46 := rfl
    have e2 : ('-' : Char).toNat = 45 := rfl
    rw [e1, e2] at hs
    omega
  | _ :: _ :: _ :: _, h => simp [isLead] at h

theorem numeralPeriod_parse (ds : List Nat) (h : ∀ d ∈ ds, d < 10)
    (lead core trail : List Char) (hs : numeralPeriod ds = lead ++ core ++ trail)
    (hlead : isLead lead = true) (hcore : isCore core = true) (htrail : isTrail trail = true) :
    core = ds.map digitChar := by
  simp only [isCore, Bool.and_eq_true, Bool.not_eq_true', List.all_eq_true] at hcore
  obtain ⟨hne, hall⟩ := hcore
  have hne2 : core ≠ [] := by simpa using hne
  simp only [isTrail, Bool.or_eq_true, decide_eq_true_eq] at htrail
  have hlast : (numeralPeriod ds).getLast? = some '.' := by simp [numeralPeriod]
  have hbody : ds.map digitChar = lead ++ core := by
    rcases htrail with (rfl | rfl) | rfl
    · exfalso
      rw [hs, List.append_nil, List.getLast?_append_of_ne_nil _ hne2,
        List.getLast?_eq_getLast _ hne2] at hlast
      have hin := hall _ (List.getLast_mem hne2)
      simp only [Option.some.injEq] at hlast
      rw [hlast] at hin
      exact absurd hin (by decide)
    · exfalso
      rw [hs] at hlast
      simp at hlast
    · unfold numeralPeriod at hs
      exact List.append_cancel_right hs
  have hdig : ∀ c ∈ lead, isDigit c = true := by
    intro c hc
    have : c ∈ ds.map digitChar := by rw [hbody]; simp [hc]
    simp only [List.mem_map] at this
    obtain ⟨d, hd, rfl⟩ := this
    exact digitChar_isDigit d (h d hd)
  have hl := isLead_digits lead hlead hdig
  rw [hbody, hl, List.nil_append]

theorem numeralPeriod_match (ds : List Nat) (h : ∀ d ∈ ds, d < 10) (h1 : 1 ≤ ds.length) :
    ∃ m, regexMatch numberRegex (numeralPeriod ds) = some m ∧ m.sub 2 = ds.map digitChar := by
  have hcore : isCore (ds.map digitChar) = true := by
    simp only [isCore, Bool.and_eq_true, Bool.not_eq_true', List.all_eq_true, List.mem_map]
    refine ⟨?_, ?_⟩
    · cases ds with
      | nil => simp at h1
      | cons d rest => simp
    · rintro c ⟨d, hd, rfl⟩
      exact digitChar_core d (h d hd)
  obtain ⟨m, hm⟩ := numberRegex_complete (numeralPeriod ds)
    ⟨[], ds.map digitChar, ['.'], rfl, rfl, hcore, rfl⟩
  obtain ⟨lead, core, trail, hs, hl, hc, ht, hsub, _⟩ := numberRegex_parse _ m hm
  exact ⟨m, hm, by rw [hsub]; exact numeralPeriod_parse ds h lead core trail hs hl hc ht⟩

theorem germanFigureWords_cstr :
    ∀ text ∈ germanFigureWords, cstr text.toList = text.toList := by decide

theorem numeralPeriod_cstr (ds : List Nat) (h : ∀ d ∈ ds, d < 10) :
    cstr (numeralPeriod ds) = numeralPeriod ds := by
  apply cstr_eq_self
  intro c hc
  simp only [numeralPeriod, List.mem_append, List.mem_map, List.mem_singleton] at hc
  rcases hc with ⟨d, hd, rfl⟩ | rfl
  · rw [digitChar_toNat d (h d hd)]; omega
  · decide

theorem germanFigureWords_forms (text : String) (h : text ∈ germanFigureWords) :
    text.toList ∈ cueForms "de" false := by
  have hperm : List.Perm (cueForms "de" false) (germanFigureWords.map String.toList) := by
    decide
  rw [hperm.mem_iff]
  exact List.mem_map_of_mem _ h

/-- C11. Language scenario generalised: with language `de` and `tablesOnly` false, for every
cue token among the twelve German figure forms whose successor is a decimal numeral of one to
nine digits followed by a period, `constructCandidate` returns a valid candidate anchored at
the token, with classification Figure, the value of the numeral as number, `periodMatch` true
and `colonMatch` false. -/
theorem C11_german_figure (w nw : TextWord) (rest : WordPtr) (page : Int) (ls bs : Bool)
    (ds : List Nat) (hcue : w.text ∈ germanFigureWords) (h1 : 1 ≤ ds.length)
    (h9 : ds.length ≤ 9) (hds : ∀ d ∈ ds, d < 10) (hnw : nw.text.toList = numeralPeriod ds) :
    ∃ cc, constructCandidate (w :: nw :: rest) page ls bs false "de" = .ok cc
      ∧ cc.word = w :: nw :: rest ∧ cc.word ≠ []
      ∧ cc.type = .FIGURE ∧ cc.number = ((Nat.ofDigits 10 ds.reverse : Nat) : Int)
      ∧ cc.periodMatch = true ∧ cc.colonMatch = false
      ∧ cc.page = page ∧ cc.lineStart = ls ∧ cc.blockStart = bs := by
  have hforms := germanFigureWords_forms w.text hcue
  have hsome := (cueOf_isSome "de" false w.text.toList).mpr hforms
  have hhead := cueForms_head "de" false _ hforms
  obtain ⟨m, hm, hsub⟩ := numeralPeriod_match ds hds h1
  have hnum := parseNumber_numeral ds hds h1 h9
  rw [constructCandidate_eq, germanFigureWords_cstr w.text hcue, hnw, numeralPeriod_cstr ds hds, hm]
  cases hwm : regexMatch (cueOf "de" false) w.text.toList with
  | none => rw [hwm] at hsome; simp at hsome
  | some wordMatch =>
    simp only [hsub, hnum]
    refine ⟨_, rfl, rfl, by simp [candidateOf], ?_, rfl, ?_, ?_, rfl, rfl, rfl⟩
    · have hT : w.text.toList.head? ≠ some 'T' := by
        intro h0; have := hhead.2.mp h0; simp at this
      simp only [candidateOf]
      rw [if_neg hT]
    · simp [candidateOf, numeralPeriod]
    · simp [candidateOf, numeralPeriod]

/-- Witness of C11: `Abbildung` followed by `4.` gives Figure, 4, `periodMatch` true. -/
theorem C11_german_figure_witness :
    constructCandidate [⟨"Abbildung", false, false⟩, ⟨"4.", false, false⟩] 0 true true
        false "de"
      = .ok ⟨[⟨"Abbildung", false, false⟩, ⟨"4.", false, false⟩], true, true, .FIGURE, 4, 0,
          true, false, false, false⟩
    ∧ Nat.ofDigits 10 [4].reverse = 4
    ∧ ∃ cc, constructCandidate [⟨"Abbildung", false, false⟩, ⟨"4.", false, false⟩] 0 true true
        false "de" = .ok cc
      ∧ cc.word = [⟨"Abbildung", false, false⟩, ⟨"4.", false, false⟩] ∧ cc.word ≠ []
      ∧ cc.type = .FIGURE ∧ cc.number = ((Nat.ofDigits 10 [4].reverse : Nat) : Int)
      ∧ cc.periodMatch = true ∧ cc.colonMatch = false
      ∧ cc.page = 0 ∧ cc.lineStart = true ∧ cc.blockStart = true :=
  ⟨rfl, by simp,
    C11_german_figure ⟨"Abbildung", false, false⟩ ⟨"4.", false, false⟩ [] 0 true true [4]
      (by decide) (by decide) (by decide) (by decide) (by decide)⟩

/-! ### The collector as a grouping of the sightings -/

theorem linePositions_nil (p f b l i0 : Nat) : linePositions p f b l i0 [] = [] := rfl

theorem linePositions_cons (p f b l i0 : Nat) (w : TextWord) (next : WordPtr) :
    linePositions p f b l i0 (w :: next)
      = ⟨p, f, b, l, i0, w :: next⟩ :: linePositions p f b l (i0 + 1) next := by
  unfold linePositions
  rw [List.length_cons, List.range_succ_eq_map, List.map_cons, List.map_map]
  refine congrArg₂ _ rfl ?_
  apply List.map_congr_left
  intro j _
  simp only [Function.comp, List.drop_succ_cons]
  rw [Nat.add_assoc, Nat.add_comm 1 j]

theorem sightings_cons (tablesOnly : Bool) (lang : String) (pos : WordPosition)
    (rest : List WordPosition) :
    sightings tablesOnly lang (pos :: rest)
      = (validSighting tablesOnly lang pos).toList ++ sightings tablesOnly lang rest := by
  unfold sightings
  rw [List.filterMap_cons]
  cases validSighting tablesOnly lang pos <;> rfl

theorem sightings_append (tablesOnly : Bool) (lang : String) (a b : List WordPosition) :
    sightings tablesOnly lang (a ++ b)
      = sightings tablesOnly lang a ++ sightings tablesOnly lang b := by
  simp [sightings, List.filterMap_append]

theorem groupCandidates_append (a b : List CaptionCandidate) (col : CandidateCollection) :
    groupCandidates (a ++ b) col = groupCandidates b (groupCandidates a col) := by
  simp [groupCandidates, List.foldl_append]

theorem collectPositions_append (tablesOnly : Bool) (lang : String) (a b : List WordPosition)
    (col : CandidateCollection) :
    collectPositions tablesOnly lang (a ++ b) col
      = match collectPositions tablesOnly lang a col with
        | .error e => .error e
        | .ok col1 => collectPositions tablesOnly lang b col1 := by
  induction a generalizing col with
  | nil => rfl
  | cons pos rest ih =>
    simp only [List.cons_append, collectPositions]
    cases sightingAt tablesOnly lang pos with
    | error e => rfl
    | ok cc => exact ih _

theorem collectWords_eq (p f b l : Nat) (tablesOnly : Bool) (lang : String)
    (words : WordPtr) (i0 : Nat) (col : CandidateCollection) :
    collectWords (p : Int) (decide (l = 0)) tablesOnly lang words (decide (i0 = 0)) col
      = collectPositions tablesOnly lang (linePositions p f b l i0 words) col := by
  induction words generalizing i0 col with
  | nil => rfl
  | cons w next ih =>
    rw [linePositions_cons]
    simp only [collectWords, collectPositions, sightingAt]
    cases constructCandidate (w :: next) (p : Int) (decide (i0 = 0)) (decide (l = 0))
        tablesOnly lang with
    | error e => rfl
    | ok cc =>
      simp only
      have hfalse : false = decide (i0 + 1 = 0) := by simp
      rw [hfalse]
      exact ih (i0 + 1) _

theorem collectLines_eq (p f b : Nat) (tablesOnly : Bool) (lang : String)
    (lines : List TextLine) (l0 : Nat) (col : CandidateCollection) :
    collectLines (p : Int) tablesOnly lang lines (decide (l0 = 0)) col
      = collectPositions tablesOnly lang (blockPositions p f b l0 lines) col := by
  induction lines generalizing l0 col with
  | nil => rfl
  | cons line next ih =>
    unfold blockPositions
    rw [List.enumFrom_cons, List.flatMap_cons, collectPositions_append]
    simp only [collectLines]
    have h0 : true = decide ((0 : Nat) = 0) := by simp
    rw [h0, collectWords_eq p f b l0 tablesOnly lang line 0 col]
    cases collectPositions tablesOnly lang (linePositions p f b l0 0 line) col with
    | error e => rfl
    | ok col1 =>
      simp only
      have hfalse : false = decide (l0 + 1 = 0) := by simp
      rw [hfalse]
      exact ih (l0 + 1) col1

theorem collectBlocks_eq (p f : Nat) (tablesOnly : Bool) (lang : String)
    (blocks : List TextBlock) (b0 : Nat) (col : CandidateCollection) :
    collectBlocks (p : Int) tablesOnly lang blocks col
      = collectPositions tablesOnly lang (flowPositions p f b0 blocks) col := by
  induction blocks generalizing b0 col with
  | nil => rfl
  | cons block next ih =>
    unfold flowPositions
    rw [List.enumFrom_cons, List.flatMap_cons, collectPositions_append]
    simp only [collectBlocks]
    have h0 : true = decide ((0 : Nat) = 0) := by simp
    rw [h0, collectLines_eq p f b0 tablesOnly lang block 0 col]
    cases collectPositions tablesOnly lang (blockPositions p f b0 0 block) col with
    | error e => rfl
    | ok col1 => exact ih (b0 + 1) col1

theorem collectFlows_eq (p : Nat) (tablesOnly : Bool) (lang : String)
    (flows : List TextFlow) (f0 : Nat) (col : CandidateCollection) :
    collectFlows (p : Int) tablesOnly lang flows col
      = collectPositions tablesOnly lang (pagePositions p f0 flows) col := by
  induction flows generalizing f0 col with
  | nil => rfl
  | cons flow next ih =>
    unfold pagePositions
    rw [List.enumFrom_cons, List.flatMap_cons, collectPositions_append]
    simp only [collectFlows]
    rw [collectBlocks_eq p f0 tablesOnly lang flow 0 col]
    cases collectPositions tablesOnly lang (flowPositions p f0 0 flow) col with
    | error e => rfl
    | ok col1 => exact ih (f0 + 1) col1

theorem collectPages_eq (tablesOnly : Bool) (lang : String)
    (pages : List TextPage) (p0 : Nat) (col : CandidateCollection) :
    collectPages tablesOnly lang pages p0 col
      = collectPositions tablesOnly lang (pagesPositions p0 pages) col := by
  induction pages generalizing p0 col with
  | nil => rfl
  | cons page next ih =>
    unfold pagesPositions
    rw [List.enumFrom_cons, List.flatMap_cons, collectPositions_append]
    simp only [collectPages]
    rw [collectFlows_eq p0 tablesOnly lang page 0 col]
    cases collectPositions tablesOnly lang (pagePositions p0 0 page) col with
    | error e => rfl
    | ok col1 => exact ih (p0 + 1) col1

theorem collectCandidates_eq (pages : List TextPage) (tablesOnly : Bool) (lang : String) :
    collectCandidates pages tablesOnly lang
      = collectPositions tablesOnly lang (documentPositions pages) [] :=
  collectPages_eq tablesOnly lang pages 0 []

theorem collectPositions_ok (tablesOnly : Bool) (lang : String) (positions : List WordPosition)
    (col col2 : CandidateCollection) :
    collectPositions tablesOnly lang positions col = .ok col2
      ↔ (∀ pos ∈ positions, ∃ cc, sightingAt tablesOnly lang pos = .ok cc)
        ∧ col2 = groupCandidates (sightings tablesOnly lang positions) col := by
  induction positions generalizing col with
  | nil =>
    simp only [collectPositions, Except.ok.injEq, List.not_mem_nil, false_implies,
      implies_true, true_and]
    constructor
    · intro h; rw [← h]; rfl
    · intro h; rw [h]; rfl
  | cons pos rest ih =>
    rw [sightings_cons, groupCandidates_append]
    simp only [collectPositions, List.mem_cons, forall_eq_or_imp]
    have hs : validSighting tablesOnly lang pos
        = match sightingAt tablesOnly lang pos with
          | .ok cc => if cc.word ≠ [] then some cc else none
          | .error _ => none := rfl
    rw [hs]
    cases hc : sightingAt tablesOnly lang pos with
    | error e => simp
    | ok cc =>
      simp only [Except.ok.injEq, exists_eq', true_and]
      rw [ih]
      by_cases hw : cc.word ≠ []
      · simp only [if_pos hw]
        rfl
      · simp only [if_neg hw]
        rfl

/-! ### Grouping by id -/

theorem pushCandidate_lookup (col : CandidateCollection) (id : FigureId)
    (cc : CaptionCandidate) (k : FigureId) :
    (pushCandidate col id cc).lookup k
      = if k = id then some ((col.lookup id).getD [] ++ [cc]) else col.lookup k := by
  induction col with
  | nil =>
    simp only [pushCandidate, List.lookup_cons, List.lookup_nil, Option.getD_none,
      List.nil_append]
    by_cases hk : k = id
    · simp [hk]
    · have : (k == id) = false := by simpa using hk
      simp [this, hk]
  | cons g rest ih =>
    obtain ⟨k0, ccs⟩ := g
    unfold pushCandidate
    by_cases h0 : k0 = id
    · subst h0
      simp only [if_true, List.lookup_cons]
      by_cases hk : k = k0
      · simp [hk]
      · have : (k == k0) = false := by simpa using hk
        simp [this, hk]
    · simp only [h0, if_false, List.lookup_cons]
      by_cases hk : k = k0
      · subst hk
        simp [h0]
      · have hkf : (k == k0) = false := by simpa using hk
        simp only [hkf]
        rw [ih]
        by_cases hid : k = id
        · subst hid
          have : (k == k0) = false := hkf
          simp [this]
        · simp [hid]

theorem pushCandidate_keys (col : CandidateCollection) (id : FigureId)
    (cc : CaptionCandidate) :
    (pushCandidate col id cc).map Prod.fst
      = if id ∈ col.map Prod.fst then col.map Prod.fst else col.map Prod.fst ++ [id] := by
  induction col with
  | nil => simp [pushCandidate]
  | cons g rest ih =>
    obtain ⟨k0, ccs⟩ := g
    unfold pushCandidate
    by_cases h0 : k0 = id
    · simp [h0]
    · have h1 : ¬ id = k0 := fun h => h0 h.symm
      simp only [h0, if_false, List.map_cons, List.mem_cons, h1, false_or]
      rw [ih]
      by_cases hm : id ∈ rest.map Prod.fst
      · simp [hm]
      · simp [hm]

theorem lookup_eq_none (col : CandidateCollection) (k : FigureId) :
    col.lookup k = none ↔ k ∉ col.map Prod.fst := by
  induction col with
  | nil => simp
  | cons g rest ih =>
    obtain ⟨k0, ccs⟩ := g
    rw [List.lookup_cons]
    by_cases hk : k = k0
    · simp [hk]
    · have : (k == k0) = false := by simpa using hk
      simp [this, hk, ih]

theorem pushCandidate_flat (col : CandidateCollection) (id : FigureId)
    (cc : CaptionCandidate) :
    List.Perm ((pushCandidate col id cc).flatMap (fun g => g.2))
      (col.flatMap (fun g => g.2) ++ [cc]) := by
  induction col with
  | nil => simp [pushCandidate]
  | cons g rest ih =>
    obtain ⟨k0, ccs⟩ := g
    unfold pushCandidate
    by_cases h0 : k0 = id
    · simp only [h0, if_true, List.flatMap_cons, List.append_assoc]
      exact List.Perm.append_left ccs List.perm_append_comm
    · simp only [h0, if_false, List.flatMap_cons, List.append_assoc]
      exact List.Perm.append_left ccs ih

theorem withId_append (k : FigureId) (a b : List CaptionCandidate) :
    withId k (a ++ b) = withId k a ++ withId k b := by
  simp [withId]

theorem isGroupingOf_push (col : CandidateCollection) (l : List CaptionCandidate)
    (cc : CaptionCandidate) (h : IsGroupingOf col l) :
    IsGroupingOf (pushCandidate col cc.getId cc) (l ++ [cc]) := by
  obtain ⟨hnd, hlook, hperm⟩ := h
  refine ⟨?_, ?_, ?_⟩
  · rw [pushCandidate_keys]
    by_cases hm : cc.getId ∈ col.map Prod.fst
    · simp only [hm, if_true]; exact hnd
    · simp only [hm, if_false]
      rw [List.nodup_append]
      refine ⟨hnd, by simp, ?_⟩
      intro a ha hb
      simp only [List.mem_singleton] at hb
      subst hb
      exact absurd ha hm
  · intro k
    rw [pushCandidate_lookup, withId_append]
    by_cases hk : k = cc.getId
    · subst hk
      have hcc : withId cc.getId [cc] = [cc] := by simp [withId]
      rw [hcc, hlook cc.getId]
      by_cases he : withId cc.getId l = []
      · simp [he]
      · simp [he]
    · have hcc : withId k [cc] = [] := by
        simp only [withId, List.filter_cons, List.filter_nil]
        have : ¬ cc.getId = k := fun h => hk h.symm
        simp [this]
      simp only [hk, if_false, hcc, List.append_nil]
      exact hlook k
  · exact (pushCandidate_flat col cc.getId cc).trans (List.Perm.append_right _ hperm)

theorem isGroupingOf_group (rest : List CaptionCandidate) (col : CandidateCollection)
    (l : List CaptionCandidate) (h : IsGroupingOf col l) :
    IsGroupingOf (groupCandidates rest col) (l ++ rest) := by
  induction rest generalizing col l with
  | nil => simpa [groupCandidates] using h
  | cons cc more ih =>
    have := ih (pushCandidate col cc.getId cc) (l ++ [cc]) (isGroupingOf_push col l cc h)
    simpa [groupCandidates] using this

theorem groupCandidates_spec (l : List CaptionCandidate) :
    IsGroupingOf (groupCandidates l []) l := by
  have h0 : IsGroupingOf [] [] := by
    refine ⟨by simp, ?_, by simp⟩
    intro k; simp [withId]
  simpa using isGroupingOf_group l [] [] h0

theorem mem_sightings (tablesOnly : Bool) (lang : String) (positions : List WordPosition)
    (cc : CaptionCandidate) (h : cc ∈ sightings tablesOnly lang positions) :
    ∃ pos ∈ positions, sightingAt tablesOnly lang pos = .ok cc ∧ cc.word ≠ [] := by
  simp only [sightings, List.mem_filterMap] at h
  obtain ⟨pos, hpos, hv⟩ := h
  refine ⟨pos, hpos, ?_⟩
  unfold validSighting at hv
  cases hs : sightingAt tablesOnly lang pos with
  | error e => simp [hs] at hv
  | ok c0 =>
    simp only [hs] at hv
    by_cases hw : c0.word ≠ []
    · simp only [if_pos hw, Option.some.injEq] at hv
      subst hv
      exact ⟨rfl, hw⟩
    · simp [if_neg hw] at hv

/-- C13, counterexample: in scenario B the second sighting of `Figure 2:` is gathered with
`blockStart` true, and the only position of the document with its anchor word is the second
word (index 1) of the first line of its block, so the anchor word does not start the
block. -/
theorem C13_block_start_counterexample :
    collectCandidates scenarioB false "en" = .ok [(2, [scenarioB_bold, scenarioB_plain])]
    ∧ scenarioB_plain.blockStart = true
    ∧ (⟨0, 0, 1, 0, 1, scenarioB_plain.word⟩ : WordPosition) ∈ documentPositions scenarioB
    ∧ sightingAt false "en" ⟨0, 0, 1, 0, 1, scenarioB_plain.word⟩ = .ok scenarioB_plain
    ∧ (∀ pos ∈ documentPositions scenarioB, pos.word = scenarioB_plain.word →
        pos.line = 0 ∧ pos.index = 1 ∧ ¬ (pos.line = 0 ∧ pos.index = 0)) := by
  refine ⟨rfl, rfl, by decide, rfl, by decide⟩

/-- C13, amended: every candidate gathered by `collectCandidates` comes from a word position
of the document, its anchor word is the word there, and its `blockStart` flag is true exactly
when that position lies in the first line of its block, whatever its place in the line; its
`lineStart` flag is true exactly when it is the first word of its line, so the anchor word is
the first word of the first line of its block exactly when both flags are true. -/
theorem C13_block_start_first_line (pages : List TextPage) (tablesOnly : Bool) (lang : String)
    (c : CandidateCollection) (h : collectCandidates pages tablesOnly lang = .ok c) :
    ∀ g ∈ c, ∀ cc ∈ g.2, ∃ pos ∈ documentPositions pages,
      sightingAt tablesOnly lang pos = .ok cc ∧ cc.word = pos.word ∧ cc.word ≠ []
      ∧ cc.page = (pos.page : Int)
      ∧ (cc.blockStart = true ↔ pos.line = 0)
      ∧ (cc.lineStart = true ↔ pos.index = 0)
      ∧ ((cc.blockStart = true ∧ cc.lineStart = true) ↔ (pos.line = 0 ∧ pos.index = 0)) := by
  intro g hg cc hcc
  rw [collectCandidates_eq, collectPositions_ok] at h
  obtain ⟨_, hc⟩ := h
  have hgrp := groupCandidates_spec (sightings tablesOnly lang (documentPositions pages))
  rw [← hc] at hgrp
  have hmem : cc ∈ sightings tablesOnly lang (documentPositions pages) := by
    apply hgrp.2.2.mem_iff.mp
    simp only [List.mem_flatMap]
    exact ⟨g, hg, hcc⟩
  obtain ⟨pos, hpos, hs, hw⟩ := mem_sightings tablesOnly lang _ cc hmem
  refine ⟨pos, hpos, hs, ?_⟩
  unfold sightingAt at hs
  rcases constructCandidate_ok _ _ _ _ _ _ _ hs with h0 | ⟨h1, _, h3, h4, h5, _⟩
  · rw [h0] at hw; exact absurd rfl hw
  · refine ⟨h1, hw, h5, ?_, ?_, ?_⟩
    · rw [h4]; simp
    · rw [h3]; simp
    · rw [h3, h4]; simp

/-- Witness of the amended C13 on scenario B: the second sighting of `Figure 2:`, gathered
from the second word of the first line of the second block, has `blockStart` true and
`lineStart` false. -/
theorem C13_block_start_first_line_witness :
    ∃ pos ∈ documentPositions scenarioB,
      sightingAt false "en" pos = .ok scenarioB_plain ∧ scenarioB_plain.word = pos.word
      ∧ scenarioB_plain.word ≠ []
      ∧ scenarioB_plain.page = (pos.page : Int)
      ∧ (scenarioB_plain.blockStart = true ↔ pos.line = 0)
      ∧ (scenarioB_plain.lineStart = true ↔ pos.index = 0)
      ∧ ((scenarioB_plain.blockStart = true ∧ scenarioB_plain.lineStart = true)
          ↔ (pos.line = 0 ∧ pos.index = 0)) :=
  C13_block_start_first_line scenarioB false "en" _ scenarioB_collected
    (2, [scenarioB_bold, scenarioB_plain]) (by simp) scenarioB_plain (by simp)

end ExtractCaptions
